import Mathlib

/-!
# ooxmlx: safe extraction of zip-based document archives

A shallow embedding of the Go packages `internal/transform`, `internal/xmlutil`,
`internal/pathsafe` and `internal/extract`, with the parts of the Go standard
library they call (`unicode/utf8`, `strings`, `path/filepath` on Unix,
`encoding/xml`), followed by theorems about them.

Conventions.
* A Go `[]byte` or `string` is a `List Nat`; every element stands for one byte
  (a value below 256).  A slice `data[i:]` is the suffix list.
* A Go loop over an index is a recursive function on the remaining suffix with a
  fuel argument; the caller supplies at least one unit of fuel per byte, which the
  loop never exhausts because every iteration consumes a byte.
* A Go result `(value, error)` is a pair whose second component is an
  `Option`; `none` is the `nil` error.
-/

namespace Ooxmlx

/-- A byte string: Go `[]byte` and `string`. -/
abbrev Bytes := List Nat

/-- The bytes of an ASCII literal. -/
def lit (s : String) : Bytes := s.toList.map Char.toNat

/-! ## unicode/utf8 -/

namespace utf8

/-- Go `utf8.RuneError`, U+FFFD. -/
def RuneError : Nat := 0xFFFD
/-- Go `utf8.RuneSelf`. -/
def RuneSelf : Nat := 0x80
/-- Go `utf8.MaxRune`. -/
def MaxRune : Nat := 0x10FFFF

def maskx : Nat := 0x3F
def mask2 : Nat := 0x1F
def mask3 : Nat := 0x0F
def mask4 : Nat := 0x07
def locb : Nat := 0x80
def hicb : Nat := 0xBF

def xx : Nat := 0xF1
def as : Nat := 0xF0
def s1 : Nat := 0x02
def s2 : Nat := 0x13
def s3 : Nat := 0x03
def s4 : Nat := 0x23
def s5 : Nat := 0x34
def s6 : Nat := 0x04
def s7 : Nat := 0x44

/-- The table `first[256]`: information about the first byte of an encoding. -/
def first (b : Nat) : Nat :=
  if b < 0x80 then as
  else if b < 0xC2 then xx
  else if b < 0xE0 then s1
  else if b = 0xE0 then s2
  else if b < 0xED then s3
  else if b = 0xED then s4
  else if b < 0xF0 then s3
  else if b = 0xF0 then s5
  else if b < 0xF4 then s6
  else if b = 0xF4 then s7
  else xx

/-- The table `acceptRanges[16]`: the range `(lo, hi)` of the second byte. -/
def acceptRanges (i : Nat) : Nat × Nat :=
  if i = 0 then (locb, hicb)
  else if i = 1 then (0xA0, hicb)
  else if i = 2 then (locb, 0x9F)
  else if i = 3 then (0x90, hicb)
  else if i = 4 then (locb, 0x8F)
  else (0, 0)

/-- Go `utf8.DecodeRune(p)`: the first rune of `p` and its width in bytes;
`(RuneError, 0)` on empty input, `(RuneError, 1)` on an invalid encoding. -/
def DecodeRune (p : Bytes) : Nat × Nat :=
  match p with
  | [] => (RuneError, 0)
  | p0 :: _ =>
    let x := first p0
    if x ≥ as then
      -- mask is all ones exactly when x = xx (its low bit is set)
      (if x &&& 1 = 1 then RuneError else p0, 1)
    else
      let sz := x &&& 7
      let accept := acceptRanges (x >>> 4)
      if p.length < sz then (RuneError, 1)
      else
        let b1 := p.getD 1 0
        if b1 < accept.1 ∨ accept.2 < b1 then (RuneError, 1)
        else if sz ≤ 2 then ((p0 &&& mask2) <<< 6 ||| (b1 &&& maskx), 2)
        else
          let b2 := p.getD 2 0
          if b2 < locb ∨ hicb < b2 then (RuneError, 1)
          else if sz ≤ 3 then
            ((p0 &&& mask3) <<< 12 ||| (b1 &&& maskx) <<< 6 ||| (b2 &&& maskx), 3)
          else
            let b3 := p.getD 3 0
            if b3 < locb ∨ hicb < b3 then (RuneError, 1)
            else
              ((p0 &&& mask4) <<< 18 ||| (b1 &&& maskx) <<< 12 ||| (b2 &&& maskx) <<< 6
                ||| (b3 &&& maskx), 4)

/-- The fast path of `utf8.Valid`: skip blocks of eight ASCII bytes; it stops at a block
with a byte that is not ASCII (`>= RuneSelf`, found there by a mask on two 32-bit words). -/
def skipASCII8 : Nat → Bytes → Bytes
  | 0, p => p
  | fuel + 1, p =>
    if 8 ≤ p.length then
      if (p.take 8).any (fun b => RuneSelf ≤ b) then p
      else skipASCII8 fuel (p.drop 8)
    else p

/-- The main loop of `utf8.Valid` on the suffix `p[i:]`. -/
def validLoop : Nat → Bytes → Bool
  | 0, _ => true
  | fuel + 1, p =>
    match p with
    | [] => true
    | pi :: rest =>
      if pi < RuneSelf then validLoop fuel rest
      else
        let x := first pi
        if x = xx then false
        else
          let size := x &&& 7
          if p.length < size then false
          else
            let accept := acceptRanges (x >>> 4)
            let c1 := p.getD 1 0
            if c1 < accept.1 ∨ accept.2 < c1 then false
            else if size = 2 then validLoop fuel (p.drop size)
            else
              let c2 := p.getD 2 0
              if c2 < locb ∨ hicb < c2 then false
              else if size = 3 then validLoop fuel (p.drop size)
              else
                let c3 := p.getD 3 0
                if c3 < locb ∨ hicb < c3 then false
                else validLoop fuel (p.drop size)

/-- Go `utf8.Valid(p)`. -/
def Valid (p : Bytes) : Bool :=
  let q := skipASCII8 p.length p
  validLoop q.length q

/-- A continuation byte. -/
def cont (b : Nat) : Prop := 0x80 ≤ b ∧ b ≤ 0xBF

end utf8

/-! ## internal/transform -/

namespace transform

/-- A Go `error` value.  `New` is an error made by `errors.New` or `fmt.Errorf`, known
by its message; `SyntaxError` is an `*xml.SyntaxError`, known by its `Msg` without the
quoted input text (`Line` is left out); `Wrap` is `fmt.Errorf(prefix + ": %w", err)`;
`Unmodelled` marks an input on which this development does not follow `encoding/xml`. -/
inductive Error
  | New (message : String)
  | SyntaxError (msg : String)
  | Wrap (pfx : String) (err : Error)
  | Unmodelled (what : String)
deriving DecidableEq

/-- The interface `Transformer`: `Transform(name, data) ([]byte, error)`.  A stage may
have effects of its own, so it runs in a state `σ` that it may change. -/
structure Transformer (σ : Type) where
  Transform : Bytes → Bytes → σ → (Bytes × Option Error) × σ

/-- Go `Nop.Transform`. -/
def Nop.Transform (_name : Bytes) (data : Bytes) : Bytes × Option Error :=
  (data, none)

/-- Go `Nop` as a `Transformer`. -/
def Nop (σ : Type) : Transformer σ where
  Transform := fun name data s => (Nop.Transform name data, s)

/-- Go `Composite.Transform`: the loop over `c.Transformers`, `current` being the bytes
handed to the next stage. -/
def Composite.Transform {σ : Type} (c : List (Transformer σ)) (name : Bytes) (data : Bytes)
    (s : σ) : (Bytes × Option Error) × σ :=
  match c with
  | [] => ((data, none), s)
  | t :: rest =>
    match t.Transform name data s with
    | ((current, none), s1) => Composite.Transform rest name current s1
    | ((_, some err), s1) => (([], some err), s1)

/-- The first loop of `ReplaceNBSP.Transform` (the fast path) on the suffix `data[i:]`:
whether a U+00A0 is decoded. -/
def containsNBSP : Nat → Bytes → Bool
  | 0, _ => false
  | fuel + 1, d =>
    if d.length = 0 then false
    else
      let (r, size) := utf8.DecodeRune d
      if r = utf8.RuneError ∧ size = 1 then containsNBSP fuel (d.drop 1)
      else if r = 0x00A0 then true
      else containsNBSP fuel (d.drop size)

/-- The second loop of `ReplaceNBSP.Transform` on the suffix `data[i:]`, with the
output `out` built so far. -/
def replaceLoop : Nat → Bytes → Bytes → Bytes
  | 0, _, out => out
  | fuel + 1, d, out =>
    if d.length = 0 then out
    else
      let (r, size) := utf8.DecodeRune d
      let out1 := if r = 0x00A0 then out ++ [0x20] else out ++ d.take size
      if r = utf8.RuneError ∧ size = 1 then replaceLoop fuel (d.drop 1) out1
      else replaceLoop fuel (d.drop size) out1

/-- Go `ReplaceNBSP.Transform`. -/
def ReplaceNBSP.Transform (_name : Bytes) (data : Bytes) : Bytes × Option Error :=
  let contains := containsNBSP data.length data
  if !contains then (data, none)
  else (replaceLoop data.length data [], none)

/-- Go `ReplaceNBSP` as a `Transformer`. -/
def ReplaceNBSP (σ : Type) : Transformer σ where
  Transform := fun name data s => (ReplaceNBSP.Transform name data, s)

/-- The UTF-8 units of a byte string, left to right: each is the decoded code point
with the bytes it spans; an invalid byte is a one-byte unit of its own. -/
def units : Bytes → List (Nat × Bytes)
  | [] => []
  | b :: rest =>
    let size := (utf8.DecodeRune (b :: rest)).2
    ((utf8.DecodeRune (b :: rest)).1, b :: rest.take (size - 1)) :: units (rest.drop (size - 1))
termination_by d => d.length
decreasing_by simp only [List.length_drop, List.length_cons]; omega

/-- The reference rewrite of the non-breaking-space stage: a unit that is U+00A0
gives the byte 0x20, every other unit its own bytes. -/
def rewriteNBSP (data : Bytes) : Bytes :=
  (units data).flatMap (fun u => if u.1 = 0x00A0 then [0x20] else u.2)

/-- No byte 0xC2 is directly followed by a byte 0xA0. -/
def NoPair : Bytes → Prop
  | [] => True
  | [_] => True
  | x :: y :: t => ¬ (x = 0xC2 ∧ y = 0xA0) ∧ NoPair (y :: t)

/-- The stages of a list run one after the other from bytes `d` in state `s`, every one
without error, each on the output of the one before it and under the same entry name,
ending with bytes `d'` in state `s'`. -/
inductive Chain {σ : Type} (name : Bytes) : List (Transformer σ) → Bytes → σ → Bytes → σ → Prop
  | nil (d : Bytes) (s : σ) : Chain name [] d s d s
  | cons (t : Transformer σ) (ts : List (Transformer σ)) (d m d' : Bytes) (s s1 s' : σ) :
      t.Transform name d s = ((m, none), s1) → Chain name ts m s1 d' s' →
      Chain name (t :: ts) d s d' s'

end transform

end Ooxmlx

namespace Ooxmlx

/-! ## path/filepath (Unix) -/

namespace filepath
open transform (Error)

/-- Go `filepath.Separator`, the byte `/`. -/
def Separator : Nat := 47

/-- The byte `.`. -/
def dot : Nat := 46

/-- Go `os.IsPathSeparator`. -/
def IsPathSeparator (c : Nat) : Bool := c = Separator

/-- Go `filepath.IsAbs(path)`: `strings.HasPrefix(path, "/")`. -/
def IsAbs (path : Bytes) : Bool := path.head? = some Separator

/-- The inner loop of the `..` case of `Clean`: from the write index `w`, step back
while `w > dotdot` and `buf[w]` is no separator; the result is the new `w`. -/
def backtrack (buf : Bytes) (dotdot : Nat) : Nat → Nat
  | 0 => 0
  | w + 1 =>
    if w + 1 > dotdot ∧ !IsPathSeparator (buf.getD (w + 1) 0) then backtrack buf dotdot w
    else w + 1

/-- The main loop of `Clean` on the unread suffix `path[r:]`; `out` is the buffer
written so far (`buf[:w]`) and `dotdot` the index where `..` must stop. -/
def cleanLoop (rooted : Bool) : Nat → Bytes → Bytes → Nat → Bytes
  | 0, _, out, _ => out
  | fuel + 1, rest, out, dotdot =>
    match rest with
    | [] => out
    | c :: t =>
      if IsPathSeparator c then
        -- empty path element
        cleanLoop rooted fuel t out dotdot
      else if c = dot ∧ (t.length = 0 ∨ IsPathSeparator (t.getD 0 0)) then
        -- . element
        cleanLoop rooted fuel t out dotdot
      else if c = dot ∧ t.getD 0 0 = dot ∧ (t.length = 1 ∨ IsPathSeparator (t.getD 1 0)) then
        -- .. element: remove to last separator
        if out.length > dotdot then
          -- can backtrack
          cleanLoop rooted fuel (t.drop 1) (out.take (backtrack out dotdot (out.length - 1))) dotdot
        else if !rooted then
          -- cannot backtrack, but not rooted, so append .. element
          let out1 := if out.length > 0 then out ++ [Separator] else out
          let out2 := out1 ++ [dot, dot]
          cleanLoop rooted fuel (t.drop 1) out2 out2.length
        else cleanLoop rooted fuel (t.drop 1) out dotdot
      else
        -- real path element: add slash if needed, copy element
        let out1 :=
          if (rooted ∧ out.length ≠ 1) ∨ (!rooted ∧ out.length ≠ 0) then out ++ [Separator]
          else out
        cleanLoop rooted fuel (rest.dropWhile (fun b => !IsPathSeparator b))
          (out1 ++ rest.takeWhile (fun b => !IsPathSeparator b)) dotdot

/-- Go `filepath.Clean(path)`. -/
def Clean (path : Bytes) : Bytes :=
  if path = [] then [dot]
  else
    let rooted := IsPathSeparator (path.getD 0 0)
    let out :=
      if rooted then cleanLoop true path.length (path.drop 1) [Separator] 1
      else cleanLoop false path.length path [] 0
    -- turn empty string into "."
    if out.length = 0 then [dot] else out

/-- Go `strings.Join(elems, sep)`. -/
def stringsJoin (elems : List Bytes) (sep : Bytes) : Bytes :=
  match elems with
  | [] => []
  | [e] => e
  | e :: es => e ++ sep ++ stringsJoin es sep

/-- Go `filepath.Join(elem...)`: the elements from the first non-empty one on, joined by
the separator and cleaned; the empty string when every element is empty. -/
def Join (elem : List Bytes) : Bytes :=
  match elem with
  | [] => []
  | e :: es => if e ≠ [] then Clean (stringsJoin (e :: es) [Separator]) else Join es

/-- Go `filepath.Abs(path)`; `getwd` is the result of `os.Getwd()`. -/
def Abs (getwd : Bytes × Option Error) (path : Bytes) : Bytes × Option Error :=
  if IsAbs path then (Clean path, none)
  else
    match getwd with
    | (_, some err) => ([], some err)
    | (wd, none) => (Join [wd, path], none)

/-- The loop of `Rel` that positions `base[b0:bi]` and `targ[t0:ti]` at the first
differing elements, on the suffixes `base[b0:]` and `targ[t0:]`.  The result is
`(base[b0:], targ[t0:], base[b0:bi])` when the loop ends. -/
def relLoop : Nat → Bytes → Bytes → Bytes × Bytes × Bytes
  | 0, bsuf, tsuf => (bsuf, tsuf, [])
  | fuel + 1, bsuf, tsuf =>
    if bsuf.length > 0 ∧ tsuf.length > 0 then
      let bseg := bsuf.takeWhile (fun b => b ≠ Separator)
      let tseg := tsuf.takeWhile (fun b => b ≠ Separator)
      if tseg ≠ bseg then (bsuf, tsuf, bseg)
      else
        -- skip the element and, when one follows, the separator
        relLoop fuel ((bsuf.drop bseg.length).drop 1) ((tsuf.drop tseg.length).drop 1)
    else (bsuf, tsuf, [])

/-- The error of `Rel`. -/
def relError (basepath targpath : Bytes) : Error :=
  Error.New ("Rel: can't make " ++ String.mk (targpath.map Char.ofNat) ++ " relative to " ++
    String.mk (basepath.map Char.ofNat))

/-- Go `filepath.Rel(basepath, targpath)`. -/
def Rel (basepath targpath : Bytes) : Bytes × Option Error :=
  let base := Clean basepath
  let targ := Clean targpath
  if targ = base then ([dot], none)
  else
    let base := if base = [dot] then [] else base
    let baseSlashed := base.length > 0 ∧ base.getD 0 0 = Separator
    let targSlashed := targ.length > 0 ∧ targ.getD 0 0 = Separator
    if decide baseSlashed ≠ decide targSlashed then ([], some (relError basepath targpath))
    else
      let (bsuf, tsuf, bseg) := relLoop (base.length + 1) base targ
      if bseg = [dot, dot] then ([], some (relError basepath targpath))
      else if bsuf.length ≠ 0 then
        -- base elements left: must go up before going down
        let seps := bsuf.count Separator
        let ups := [dot, dot] ++ (List.replicate seps [Separator, dot, dot]).flatten
        if tsuf.length ≠ 0 then (ups ++ [Separator] ++ tsuf, none) else (ups, none)
      else (tsuf, none)

end filepath

/-! ## internal/pathsafe -/

namespace pathsafe
open transform (Error)

/-- Go `ErrOutsideBase`. -/
def ErrOutsideBase : Error := Error.New "path resolves outside destination"

/-- Go `isWithin(base, dest)`; `getwd` is the result of `os.Getwd()`. -/
def isWithin (getwd : Bytes × Option Error) (base dest : Bytes) : Bool × Option Error :=
  match filepath.Abs getwd base with
  | (_, some err) => (false, some err)
  | (baseAbs, none) =>
    match filepath.Abs getwd dest with
    | (_, some err) => (false, some err)
    | (destAbs, none) =>
      match filepath.Rel baseAbs destAbs with
      | (_, some err) => (false, some err)
      | (rel, none) =>
        if rel = [filepath.dot, filepath.dot] then (false, none)
        else
          let pfx := [filepath.dot, filepath.dot] ++ [filepath.Separator]
          if pfx.isPrefixOf rel then (false, none)
          else (true, none)

/-- Go `pathsafe.Join(base, target)`; `getwd` is the result of `os.Getwd()`. -/
def Join (getwd : Bytes × Option Error) (base target : Bytes) : Bytes × Option Error :=
  let cleaned := filepath.Clean target
  if filepath.IsAbs cleaned then ([], some ErrOutsideBase)
  else
    let dest := filepath.Join [base, cleaned]
    match isWithin getwd base dest with
    | (_, some err) => ([], some err)
    | (ok, none) =>
      if !ok then ([], some ErrOutsideBase)
      else (dest, none)

end pathsafe

end Ooxmlx

namespace Ooxmlx
namespace filepath

/-! ### Paths as lists of elements -/

/-- The elements of a path: the pieces between separators (`strings.Split(path, "/")`). -/
def splitSep : Bytes → List Bytes
  | [] => [[]]
  | c :: t =>
    if c = Separator then [] :: splitSep t
    else
      match splitSep t with
      | s :: ss => (c :: s) :: ss
      | [] => [[c]]

/-- The effect of one element on the stack of elements of a rooted path: an empty
element and `.` are dropped, `..` removes the last element (none at the root), any
other element is added. -/
def stepR (stack : List Bytes) (seg : Bytes) : List Bytes :=
  if seg = [] ∨ seg = [dot] then stack
  else if seg = [dot, dot] then stack.dropLast
  else stack ++ [seg]

/-- The stack of elements of a rooted path after the elements of `rest`. -/
def normSegs (stack : List Bytes) (rest : Bytes) : List Bytes :=
  (splitSep rest).foldl stepR stack

/-- The rooted path with the given elements: `/` followed by the elements joined by `/`. -/
def renderAbs (segs : List Bytes) : Bytes :=
  Separator :: stringsJoin segs [Separator]

/-- An ordinary path element: not empty, without separator, neither `.` nor `..`. -/
def Normal (s : Bytes) : Prop :=
  s ≠ [] ∧ Separator ∉ s ∧ s ≠ [dot] ∧ s ≠ [dot, dot]

instance (s : Bytes) : Decidable (Normal s) := by unfold Normal; infer_instance

/-- Two lists of elements without their longest common leading part. -/
def stripCommon : List Bytes → List Bytes → List Bytes × List Bytes
  | a :: as, b :: bs => if a = b then stripCommon as bs else (a :: as, b :: bs)
  | as, bs => (as, bs)

/-- An ordinary relative entry name: one or more ordinary elements separated by single
separators, so no leading or trailing separator and no `.` or `..` element. -/
def Ordinary (name : Bytes) : Prop :=
  ∀ s ∈ splitSep name, Normal s

instance (name : Bytes) : Decidable (Ordinary name) := by unfold Ordinary; infer_instance

end filepath
end Ooxmlx

namespace Ooxmlx

/-! ## encoding/xml: the decoder

The tokenizer of `encoding/xml` as `TryPrettify` uses it: `Strict` is true, no
`Entity` map, no `CharsetReader`, no `AutoClose`.  Name spaces are translated as the
library does it, with the map `d.ns` and the stack `d.stk`.  On a name with a byte above
0x7F (the library consults Unicode tables) and on a declaration whose pseudo-attribute
is not followed by a quote, the model stops with `Error.Unmodelled`. -/

namespace xml
open transform (Error)

/-- The type `Name`. -/
structure Name where
  Space : Bytes
  Local : Bytes
deriving DecidableEq

/-- The type `Attr`. -/
structure Attr where
  Name : Name
  Value : Bytes
deriving DecidableEq

/-- The interface `Token` with its six implementations. -/
inductive Token
  | StartElement (Name : Name) (Attr : List Attr)
  | EndElement (Name : Name)
  | CharData (data : Bytes)
  | Comment (data : Bytes)
  | ProcInst (Target : Bytes) (Inst : Bytes)
  | Directive (data : Bytes)
deriving DecidableEq

/-- Go `d.syntaxError(msg)`. -/
def syntaxError (msg : String) : Error := Error.SyntaxError msg

/-- The error `mustgetc` sets at the end of the input. -/
def unexpectedEOF : Error := syntaxError "unexpected EOF"

/-- Go `isNameByte(c)`. -/
def isNameByte (c : Nat) : Bool :=
  (0x41 ≤ c ∧ c ≤ 0x5A) ∨ (0x61 ≤ c ∧ c ≤ 0x7A) ∨ (0x30 ≤ c ∧ c ≤ 0x39) ∨
    c = 0x5F ∨ c = 0x3A ∨ c = 0x2E ∨ c = 0x2D

/-- The ASCII rows of the table `first`: `:`, `A`-`Z`, `_`, `a`-`z`. -/
def isFirstASCII (c : Nat) : Bool :=
  c = 0x3A ∨ (0x41 ≤ c ∧ c ≤ 0x5A) ∨ c = 0x5F ∨ (0x61 ≤ c ∧ c ≤ 0x7A)

/-- The ASCII rows of the table `second`: `-`, `.`, `0`-`9`. -/
def isSecondASCII (c : Nat) : Bool :=
  (0x2D ≤ c ∧ c ≤ 0x2E) ∨ (0x30 ≤ c ∧ c ≤ 0x39)

/-- Go `isName(s)` for a name of ASCII bytes. -/
def isNameASCII (s : Bytes) : Bool :=
  match s with
  | [] => false
  | c :: rest => isFirstASCII c && rest.all (fun b => isFirstASCII b || isSecondASCII b)

/-- Go `isInCharacterRange(r)`. -/
def isInCharacterRange (r : Nat) : Bool :=
  r = 0x09 ∨ r = 0x0A ∨ r = 0x0D ∨ (0x20 ≤ r ∧ r ≤ 0xD7FF) ∨ (0xE000 ≤ r ∧ r ≤ 0xFFFD) ∨
    (0x10000 ≤ r ∧ r ≤ 0x10FFFF)

/-- Go `string(rune(n))`: the UTF-8 encoding of a code point, U+FFFD for a surrogate or a
value above `MaxRune`. -/
def encodeRune (n : Nat) : Bytes :=
  if n ≤ 0x7F then [n]
  else if n ≤ 0x7FF then [0xC0 ||| n >>> 6, 0x80 ||| n &&& 0x3F]
  else if n > utf8.MaxRune ∨ (0xD800 ≤ n ∧ n ≤ 0xDFFF) then [0xEF, 0xBF, 0xBD]
  else if n ≤ 0xFFFF then [0xE0 ||| n >>> 12, 0x80 ||| (n >>> 6) &&& 0x3F, 0x80 ||| n &&& 0x3F]
  else [0xF0 ||| n >>> 18, 0x80 ||| (n >>> 12) &&& 0x3F, 0x80 ||| (n >>> 6) &&& 0x3F,
    0x80 ||| n &&& 0x3F]

/-- Go `d.space()`: skip spaces, the input that remains. -/
def space : Bytes → Bytes
  | [] => []
  | b :: t => if b = 0x20 ∨ b = 0x0D ∨ b = 0x0A ∨ b = 0x09 then space t else b :: t

/-- The loop of `d.readName()` after its first byte: the name read and the input from
the byte that ended it; `none` when the input ends first. -/
def readNameLoop : Bytes → Bytes → Option (Bytes × Bytes)
  | [], _ => none
  | b :: t, acc =>
    if b < utf8.RuneSelf ∧ !isNameByte b then some (acc, b :: t)
    else readNameLoop t (acc ++ [b])

/-- The outcomes of `d.readName()`: the input ended (`d.err` is set), the first byte
starts no name (nothing read, no error), or a name was read. -/
inductive ReadName
  | eof
  | notName
  | name (s : Bytes) (rest : Bytes)

/-- Go `d.readName()`. -/
def readName (input : Bytes) : ReadName :=
  match input with
  | [] => ReadName.eof
  | b :: t =>
    if b < utf8.RuneSelf ∧ !isNameByte b then ReadName.notName
    else
      match readNameLoop t [b] with
      | none => ReadName.eof
      | some (s, rest) => ReadName.name s rest

/-- Go `d.name()`: an error when `d.err` is set, `none` when there is no name and no
error, else the name and the remaining input. -/
def name (input : Bytes) : Except Error (Option (Bytes × Bytes)) :=
  match readName input with
  | ReadName.eof => .error unexpectedEOF
  | ReadName.notName => .ok none
  | ReadName.name s rest =>
    if s.any (fun b => utf8.RuneSelf ≤ b) then .error (Error.Unmodelled "name outside ASCII")
    else if !isNameASCII s then .error (syntaxError "invalid XML name: ")
    else .ok (some (s, rest))

/-- Go `d.nsname()`: a name with more than one colon is refused (no name, no error); a
name `space:local` with both parts non-empty is cut at the colon; any other name is
local. -/
def nsname (input : Bytes) : Except Error (Option (Name × Bytes)) :=
  match name input with
  | .error e => .error e
  | .ok none => .ok none
  | .ok (some (s, rest)) =>
    if s.count 0x3A > 1 then .ok none
    else
      let space := s.takeWhile (fun b => b ≠ 0x3A)
      let loc := (s.dropWhile (fun b => b ≠ 0x3A)).drop 1
      if ¬ (0x3A ∈ s) ∨ space = [] ∨ loc = [] then .ok (some ({ Space := [], Local := s }, rest))
      else .ok (some ({ Space := space, Local := loc }, rest))

/-- The digits of a character reference: the digits read, the byte that ended them
and the input after it; `none` when the input ends first. -/
def digitsLoop (base16 : Bool) : Bytes → Bytes → Option (Bytes × Nat × Bytes)
  | [], _ => none
  | b :: t, acc =>
    if (0x30 ≤ b ∧ b ≤ 0x39) ∨ (base16 ∧ 0x61 ≤ b ∧ b ≤ 0x66) ∨ (base16 ∧ 0x41 ≤ b ∧ b ≤ 0x46)
    then digitsLoop base16 t (acc ++ [b])
    else some (acc, b, t)

/-- The value of one digit. -/
def digitVal (b : Nat) : Nat :=
  if b ≤ 0x39 then b - 0x30 else if b ≤ 0x46 then b - 0x41 + 10 else b - 0x61 + 10

/-- Go `strconv.ParseUint(s, base, 64)` on a string of digits, as a natural number. -/
def parseUint (s : Bytes) (base : Nat) : Nat :=
  s.foldl (fun n b => n * base + digitVal b) 0

/-- The map `entity`: the five predefined entities. -/
def entity (s : Bytes) : Option Nat :=
  if s = lit "lt" then some 0x3C
  else if s = lit "gt" then some 0x3E
  else if s = lit "amp" then some 0x26
  else if s = lit "apos" then some 0x27
  else if s = lit "quot" then some 0x22
  else none

/-- The error of `d.text` for a `&` that starts no known entity. -/
def invalidEntity : Error := syntaxError "invalid character entity "

/-- The part of `d.text` that reads an escaped character expression after `&`: the
text it stands for and the remaining input. -/
def readEntity (input : Bytes) : Except Error (Bytes × Bytes) :=
  match input with
  | [] => .error unexpectedEOF
  | b :: t =>
    if b = 0x23 then
      -- a character reference &#...;
      match t with
      | [] => .error unexpectedEOF
      | b1 :: t1 =>
        let base16 := decide (b1 = 0x78)
        if base16 ∧ t1 = [] then .error unexpectedEOF
        else
          match digitsLoop base16 (if base16 then t1 else b1 :: t1) [] with
          | none => .error unexpectedEOF
          | some (s, e, rest) =>
            if e ≠ 0x3B then .error invalidEntity
            else if s ≠ [] ∧ parseUint s (if base16 then 16 else 10) ≤ utf8.MaxRune then
              .ok (encodeRune (parseUint s (if base16 then 16 else 10)), rest)
            else .error invalidEntity
    else
      match readName (b :: t) with
      | ReadName.eof => .error unexpectedEOF
      | ReadName.notName => .error invalidEntity
      | ReadName.name s rest =>
        match rest with
        | [] => .error unexpectedEOF
        | e :: rest1 =>
          if e ≠ 0x3B then .error invalidEntity
          else
            match entity s with
            | some r => .ok (encodeRune r, rest1)
            | none => .error invalidEntity

/-- The loop `Input` of `d.text(quote, cdata)`: `buf` is the text read so far, `b0` and
`b1` the two bytes read before.  The result is the text, with the `]]` of a CDATA end
cut off, and the remaining input. -/
def textLoop (quote : Option Nat) (cdata : Bool) :
    Nat → Bytes → Bytes → Nat → Nat → Except Error (Bytes × Bytes)
  | 0, _, _, _, _ => .error (Error.Unmodelled "fuel")
  | fuel + 1, input, buf, b0, b1 =>
    match input with
    | [] =>
      if cdata then .error (syntaxError "unexpected EOF in CDATA section")
      else .ok (buf, [])
    | b :: t =>
      if quote = none ∧ b0 = 0x5D ∧ b1 = 0x5D ∧ b = 0x3E then
        -- <![CDATA[ section ends with ]]>; ]]> is allowed in quoted strings
        if cdata then .ok (buf.take (buf.length - 2), t)
        else .error (syntaxError "unescaped ]]> not in CDATA section")
      else if b = 0x3C ∧ !cdata then
        -- stop reading text at a <
        if quote.isSome then .error (syntaxError "unescaped < inside quoted string")
        else .ok (buf, b :: t)
      else if quote = some b then .ok (buf, t)
      else if b = 0x26 ∧ !cdata then
        match readEntity t with
        | .error e => .error e
        | .ok (text, rest) => textLoop quote cdata fuel rest (buf ++ text) 0 0
      else if b = 0x0D then textLoop quote cdata fuel t (buf ++ [0x0A]) b1 b
      else if b1 = 0x0D ∧ b = 0x0A then textLoop quote cdata fuel t buf b1 b
      else textLoop quote cdata fuel t (buf ++ [b]) b1 b

/-- The last loop of `d.text`: inspect each rune for being a disallowed character. -/
def checkChars : Nat → Bytes → Option Error
  | 0, _ => none
  | fuel + 1, buf =>
    if buf.length = 0 then none
    else
      let (r, size) := utf8.DecodeRune buf
      if r = utf8.RuneError ∧ size = 1 then some (syntaxError "invalid UTF-8")
      else if !isInCharacterRange r then some (syntaxError "illegal character code ")
      else checkChars fuel (buf.drop size)

/-- Go `d.text(quote, cdata)`: the text and the remaining input. -/
def text (quote : Option Nat) (cdata : Bool) (input : Bytes) : Except Error (Bytes × Bytes) :=
  match textLoop quote cdata (input.length + 1) input [] 0 0 with
  | .error e => .error e
  | .ok (data, rest) =>
    match checkChars data.length data with
    | some e => .error e
    | none => .ok (data, rest)

/-- Go `d.attrval()`. -/
def attrval (input : Bytes) : Except Error (Bytes × Bytes) :=
  match input with
  | [] => .error unexpectedEOF
  | b :: t =>
    if b = 0x22 ∨ b = 0x27 then text (some b) false t
    else .error (syntaxError "unquoted or missing attribute value in element")

/-- The loop of `rawToken` that looks for the terminator of a comment; the result is
the comment without `-->` and the remaining input. -/
def commentLoop : Bytes → Bytes → Nat → Nat → Except Error (Bytes × Bytes)
  | [], _, _, _ => .error unexpectedEOF
  | b :: t, buf, b0, b1 =>
    if b0 = 0x2D ∧ b1 = 0x2D then
      if b ≠ 0x3E then .error (syntaxError "invalid sequence \"--\" not allowed in comments")
      else .ok ((buf ++ [b]).take ((buf ++ [b]).length - 3), t)
    else commentLoop t (buf ++ [b]) b1 b

/-- The loop of `rawToken` that reads a processing instruction up to `?>`; the result
is the instruction without `?>` and the remaining input. -/
def procInstLoop : Bytes → Bytes → Nat → Except Error (Bytes × Bytes)
  | [], _, _ => .error unexpectedEOF
  | b :: t, buf, b0 =>
    if b0 = 0x3F ∧ b = 0x3E then .ok ((buf ++ [b]).take ((buf ++ [b]).length - 2), t)
    else procInstLoop t (buf ++ [b]) b

/-- Go `strings.Index(s, sub)`. -/
def stringsIndex (s sub : Bytes) : Option Nat :=
  match s with
  | [] => if sub = [] then some 0 else none
  | c :: t =>
    if sub.isPrefixOf (c :: t) then some 0
    else (stringsIndex t sub).map (fun k => k + 1)

/-- Go `procInst(param, s)`: the value of `param="..."` in `s`, the empty string when it
is not found.  When the first `param=` is followed by a byte that is no quote the
result is not modelled. -/
def procInst (param s : Bytes) : Except Error Bytes :=
  let p := param ++ [0x3D]
  match stringsIndex s p with
  | none => .ok []
  | some k =>
    match s.drop (k + p.length) with
    | [] => .ok []
    | c :: v =>
      if c = 0x27 ∨ c = 0x22 then
        if v.contains c then .ok (v.takeWhile (fun b => b ≠ c)) else .ok []
      else .error (Error.Unmodelled "declaration pseudo-attribute without quote")

/-- Go `strings.EqualFold(enc, "utf-8")`. -/
def isUTF8Label (enc : Bytes) : Bool :=
  enc.map (fun b => if 0x41 ≤ b ∧ b ≤ 0x5A then b + 0x20 else b) = lit "utf-8"

/-- The checks of `rawToken` on a processing instruction with target `xml`. -/
def checkDeclaration (content : Bytes) : Option Error :=
  match procInst (lit "version") content with
  | .error e => some e
  | .ok ver =>
    if ver ≠ [] ∧ ver ≠ lit "1.0" then
      some (Error.New "xml: unsupported version; only version 1.0 is supported")
    else
      match procInst (lit "encoding") content with
      | .error e => some e
      | .ok enc =>
        if enc ≠ [] ∧ !isUTF8Label enc then
          some (Error.New "xml: encoding declared but Decoder.CharsetReader is nil")
        else none

/-- The loop of `rawToken` over the attributes of a start tag, from after the element
name: the attributes, whether the tag ended in `/>`, and the remaining input. -/
def attrLoop : Nat → Bytes → List Attr → Except Error (List Attr × Bool × Bytes)
  | 0, _, _ => .error (Error.Unmodelled "fuel")
  | fuel + 1, input, attr =>
    match space input with
    | [] => .error unexpectedEOF
    | b :: t =>
      if b = 0x2F then
        match t with
        | [] => .error unexpectedEOF
        | b1 :: t1 =>
          if b1 ≠ 0x3E then .error (syntaxError "expected /> in element")
          else .ok (attr, true, t1)
      else if b = 0x3E then .ok (attr, false, t)
      else
        match nsname (b :: t) with
        | .error e => .error e
        | .ok none => .error (syntaxError "expected attribute name in element")
        | .ok (some (aname, rest)) =>
          match space rest with
          | [] => .error unexpectedEOF
          | e :: rest1 =>
            if e ≠ 0x3D then .error (syntaxError "attribute name without = in element")
            else
              match attrval (space rest1) with
              | .error err => .error err
              | .ok (value, rest2) =>
                attrLoop fuel rest2 (attr ++ [{ Name := aname, Value := value }])

/-- The loop of `rawToken` that skips a comment inside a directive: the input after
`-->`; `none` when the input ends first. -/
def directiveComment : Bytes → Nat → Nat → Option Bytes
  | [], _, _ => none
  | b :: t, b0, b1 =>
    if b0 = 0x2D ∧ b1 = 0x2D ∧ b = 0x3E then some t else directiveComment t b1 b

/-- The loop of `rawToken` that reads a directive `<!...>`; quoted angle brackets do not
count for nesting, and a comment is replaced by a space.  `handle` is true when the
first byte is entered at the label `HandleB` (after `goto`), where the test for the
closing `>` is skipped.  The result is the directive and the remaining input. -/
def directiveLoop : Nat → Bool → Bytes → Bytes → Nat → Nat → Except Error (Bytes × Bytes)
  | 0, _, _, _, _, _ => .error (Error.Unmodelled "fuel")
  | fuel + 1, handle, input, buf, inquote, depth =>
    match input with
    | [] => .error unexpectedEOF
    | b :: t =>
      if !handle ∧ inquote = 0 ∧ b = 0x3E ∧ depth = 0 then .ok (buf, t)
      else if b = inquote then directiveLoop fuel false t (buf ++ [b]) 0 depth
      else if inquote ≠ 0 then
        -- in quotes, no special action
        directiveLoop fuel false t (buf ++ [b]) inquote depth
      else if b = 0x27 ∨ b = 0x22 then directiveLoop fuel false t (buf ++ [b]) b depth
      else if b = 0x3E then directiveLoop fuel false t (buf ++ [b]) inquote (depth - 1)
      else if b = 0x3C then
        -- look for <!-- to begin comment
        match t with
        | [] => .error unexpectedEOF
        | c0 :: t0 =>
          if c0 ≠ 0x21 then directiveLoop fuel true (c0 :: t0) (buf ++ [b]) inquote (depth + 1)
          else
            match t0 with
            | [] => .error unexpectedEOF
            | c1 :: t1 =>
              if c1 ≠ 0x2D then
                directiveLoop fuel true (c1 :: t1) (buf ++ [b, 0x21]) inquote (depth + 1)
              else
                match t1 with
                | [] => .error unexpectedEOF
                | c2 :: t2 =>
                  if c2 ≠ 0x2D then
                    directiveLoop fuel true (c2 :: t2) (buf ++ [b, 0x21, 0x2D]) inquote (depth + 1)
                  else
                    -- the < is removed, the comment is replaced with a space
                    match directiveComment t2 0 0 with
                    | none => .error unexpectedEOF
                    | some rest => directiveLoop fuel false rest (buf ++ [0x20]) inquote depth
      else directiveLoop fuel false t (buf ++ [b]) inquote depth

/-- An entry of the stack `d.stk`: an open element (`stkStart`) or a name space
translation to undo (`stkNs`): the prefix with the value it had before, if any. -/
inductive StackEntry
  | start (name : Name)
  | ns (loc : Bytes) (old : Option Bytes)
deriving DecidableEq

/-- The decoder: the unread input, the stack `d.stk` (innermost first), the pending end
of a self-closing element and the map `d.ns` from prefix to name space. -/
structure Decoder where
  input : Bytes
  stk : List StackEntry
  needClose : Bool
  toClose : Name
  ns : Bytes → Option Bytes

/-- Go `xml.NewDecoder(bytes.NewReader(data))`. -/
def NewDecoder (data : Bytes) : Decoder :=
  { input := data, stk := [], needClose := false, toClose := { Space := [], Local := [] },
    ns := fun _ => none }

/-- The outcomes of `rawToken` and `Token`: `io.EOF`, another error, or a token. -/
inductive Next
  | eof
  | err (e : Error)
  | tok (t : Token) (d : Decoder)

/-- Go `d.rawToken()`. -/
def Decoder.rawToken (d : Decoder) : Next :=
  if d.needClose then
    -- the last element read was self-closing: return the EndElement half now
    Next.tok (Token.EndElement d.toClose) { d with needClose := false }
  else
    match d.input with
    | [] => Next.eof
    | b :: t =>
      if b ≠ 0x3C then
        -- text section
        match text none false (b :: t) with
        | .error e => Next.err e
        | .ok (data, rest) => Next.tok (Token.CharData data) { d with input := rest }
      else
        match t with
        | [] => Next.err unexpectedEOF
        | b1 :: t1 =>
          if b1 = 0x2F then
            -- </: end element
            match nsname t1 with
            | .error e => Next.err e
            | .ok none => Next.err (syntaxError "expected element name after </")
            | .ok (some (nm, rest)) =>
              match space rest with
              | [] => Next.err unexpectedEOF
              | e :: rest1 =>
                if e ≠ 0x3E then Next.err (syntaxError "invalid characters between </ and >")
                else Next.tok (Token.EndElement nm) { d with input := rest1 }
          else if b1 = 0x3F then
            -- <?: processing instruction
            match name t1 with
            | .error e => Next.err e
            | .ok none => Next.err (syntaxError "expected target name after <?")
            | .ok (some (target, rest)) =>
              match procInstLoop (space rest) [] 0 with
              | .error e => Next.err e
              | .ok (data, rest1) =>
                if target = lit "xml" then
                  match checkDeclaration data with
                  | some e => Next.err e
                  | none => Next.tok (Token.ProcInst target data) { d with input := rest1 }
                else Next.tok (Token.ProcInst target data) { d with input := rest1 }
          else if b1 = 0x21 then
            -- <!: maybe comment, maybe CDATA
            match t1 with
            | [] => Next.err unexpectedEOF
            | b2 :: t2 =>
              if b2 = 0x2D then
                match t2 with
                | [] => Next.err unexpectedEOF
                | b3 :: t3 =>
                  if b3 ≠ 0x2D then
                    Next.err (syntaxError "invalid sequence <!- not part of <!--")
                  else
                    match commentLoop t3 [] 0 0 with
                    | .error e => Next.err e
                    | .ok (data, rest) => Next.tok (Token.Comment data) { d with input := rest }
              else if b2 = 0x5B then
                if t2.length < 6 ∧ t2.isPrefixOf (lit "CDATA[") then Next.err unexpectedEOF
                else if !(lit "CDATA[").isPrefixOf t2 then
                  Next.err (syntaxError "invalid <![ sequence")
                else
                  match text none true (t2.drop 6) with
                  | .error e => Next.err e
                  | .ok (data, rest) => Next.tok (Token.CharData data) { d with input := rest }
              else
                -- probably a directive: <!DOCTYPE ...>, <!ENTITY ...>, etc.
                match directiveLoop (t2.length + 1) false t2 [b2] 0 0 with
                | .error e => Next.err e
                | .ok (data, rest) => Next.tok (Token.Directive data) { d with input := rest }
          else
            -- must be an open element like <a href="foo">
            match nsname (b1 :: t1) with
            | .error e => Next.err e
            | .ok none => Next.err (syntaxError "expected element name after <")
            | .ok (some (nm, rest)) =>
              match attrLoop (rest.length + 1) rest [] with
              | .error e => Next.err e
              | .ok (attr, empty, rest1) =>
                Next.tok (Token.StartElement nm attr)
                  { d with input := rest1, needClose := empty,
                           toClose := if empty then nm else d.toClose }

/-- The constant `xmlURL`. -/
def xmlURL : Bytes := lit "http://www.w3.org/XML/1998/namespace"

/-- The constant `xmlnsPrefix`. -/
def xmlnsPrefix : Bytes := lit "xmlns"

/-- The constant `xmlPrefix`. -/
def xmlPrefix : Bytes := lit "xml"

/-- Go `d.translate(n, isElementName)`: the name with its prefix replaced by the name
space the prefix stands for.  The default name space (the prefix `""`) applies to
element names only. -/
def Decoder.translate (d : Decoder) (n : Name) (isElementName : Bool) : Name :=
  if n.Space = xmlnsPrefix then n
  else if n.Space = [] ∧ !isElementName then n
  else if n.Space = xmlPrefix then
    match d.ns xmlURL with
    | some v => { n with Space := v }
    | none => { n with Space := xmlURL }
  else if n.Space = [] ∧ n.Local = xmlnsPrefix then n
  else
    match d.ns n.Space with
    | some v => { n with Space := v }
    | none => n

/-- Go `d.pushNs(local, v, ok)` followed by `d.ns[local] = value`. -/
def Decoder.pushNs (d : Decoder) (loc value : Bytes) : Decoder :=
  { d with stk := StackEntry.ns loc (d.ns loc) :: d.stk,
           ns := fun k => if k = loc then some value else d.ns k }

/-- The first loop of `Token` over the attributes of a start element: the translations
listed in the attributes are recorded. -/
def Decoder.bindAttrs (d : Decoder) : List Attr → Decoder
  | [] => d
  | a :: rest =>
    let d1 := if a.Name.Space = xmlnsPrefix then d.pushNs a.Name.Local a.Value else d
    let d2 :=
      if a.Name.Space = [] ∧ a.Name.Local = xmlnsPrefix then d1.pushNs [] a.Value else d1
    d2.bindAttrs rest

/-- The last loop of `popElement`: pop the stack until an open element is on top,
undoing the translations of the element that was closed. -/
def undoNs : List StackEntry → (Bytes → Option Bytes) → List StackEntry × (Bytes → Option Bytes)
  | StackEntry.ns loc old :: rest, ns => undoNs rest (fun k => if k = loc then old else ns k)
  | stk, ns => (stk, ns)

/-- Go `d.Token()`: the next token with the element stack kept and the names translated; an
end element must close the innermost open element, and the input must not end inside an
element. -/
def Decoder.Token (d : Decoder) : Next :=
  match d.rawToken with
  | Next.eof =>
    if d.stk ≠ [] then Next.err unexpectedEOF else Next.eof
  | Next.err e => Next.err e
  | Next.tok (Token.StartElement nm attr) d1 =>
    let d2 := d1.bindAttrs attr
    let d3 := { d2 with stk := StackEntry.start nm :: d2.stk }
    Next.tok (Token.StartElement (d3.translate nm true)
      (attr.map (fun a => { a with Name := d3.translate a.Name false }))) d3
  | Next.tok (Token.EndElement nm) d1 =>
    -- popElement
    match d1.stk with
    | StackEntry.start s :: stk =>
      if s.Local ≠ nm.Local then Next.err (syntaxError "element closed by another")
      else if s.Space ≠ nm.Space then Next.err (syntaxError "element closed in another space")
      else
        Next.tok (Token.EndElement (d1.translate nm true))
          { d1 with stk := (undoNs stk d1.ns).1, ns := (undoNs stk d1.ns).2 }
    | _ => Next.err (syntaxError "unexpected end element")
  | Next.tok t d1 => Next.tok t d1

/-- The tokens of a document: `Token` called until the input ends or an error occurs. -/
def tokens : Nat → Decoder → List Token × Option Error
  | 0, _ => ([], some (Error.Unmodelled "fuel"))
  | fuel + 1, d =>
    match d.Token with
    | Next.eof => ([], none)
    | Next.err e => ([], some e)
    | Next.tok t d1 => ((t :: (tokens fuel d1).1), (tokens fuel d1).2)

/-- The decoder after `k` tokens were read from it without error. -/
def Decoder.after : Nat → Decoder → Option Decoder
  | 0, d => some d
  | k + 1, d =>
    match d.Token with
    | Next.tok _ d1 => Decoder.after k d1
    | _ => none

/-- An element name of the modelled documents: a name of ASCII letters, digits, `_`,
`-` and `.`, not starting with a digit, `-` or `.`, without colon. -/
def PlainName (n : Bytes) : Prop :=
  isNameASCII n = true ∧ 0x3A ∉ n

instance (n : Bytes) : Decidable (PlainName n) := by unfold PlainName; infer_instance

end xml
end Ooxmlx

namespace Ooxmlx

/-! ## encoding/xml: the encoder

`Encoder.EncodeToken` with the indentation set by `Encoder.Indent`, and the tables of
name space prefixes that `writeStart` fills for the attributes. -/

namespace xml
open transform (Error)

/-- The encoder: the bytes written (`p.w` is a `bufio.Writer` that `Flush` empties into
the buffer given to `NewEncoder`), the indentation state of the printer, the stack of
open tags, and the tables of the prefixes made for the name spaces of attributes: the
maps `attrNS` (prefix to name space) and `attrPrefix` (name space to prefix), the stack
`prefixes` (innermost first) and the counter `seq`.  A map is a list of pairs with one
pair for a key; a key that is absent reads as the empty string. -/
structure Encoder where
  w : Bytes
  pfx : Bytes
  indent : Bytes
  depth : Nat
  indentedIn : Bool
  putNewline : Bool
  tags : List Name
  seq : Nat
  attrNS : List (Bytes × Bytes)
  attrPrefix : List (Bytes × Bytes)
  prefixes : List Bytes

/-- Go `xml.NewEncoder(buf)`. -/
def NewEncoder : Encoder :=
  { w := [], pfx := [], indent := [], depth := 0, indentedIn := false, putNewline := false,
    tags := [], seq := 0, attrNS := [], attrPrefix := [], prefixes := [] }

/-- The map read `m[k]` of a `map[string]string`. -/
def mapGet (m : List (Bytes × Bytes)) (k : Bytes) : Bytes :=
  match m with
  | [] => []
  | (k1, v) :: rest => if k1 = k then v else mapGet rest k

/-- The statement `delete(m, k)`. -/
def mapDelete (m : List (Bytes × Bytes)) (k : Bytes) : List (Bytes × Bytes) :=
  m.filter (fun e => e.1 ≠ k)

/-- The map write `m[k] = v`. -/
def mapSet (m : List (Bytes × Bytes)) (k v : Bytes) : List (Bytes × Bytes) :=
  (k, v) :: mapDelete m k

/-- Go `enc.Indent(prefix, indent)`. -/
def Encoder.Indent (p : Encoder) (pfx indent : Bytes) : Encoder :=
  { p with pfx := pfx, indent := indent }

/-- Go `p.WriteString(s)`, `p.Write(s)`. -/
def Encoder.WriteString (p : Encoder) (s : Bytes) : Encoder :=
  { p with w := p.w ++ s }

/-- Go `p.WriteByte(c)`. -/
def Encoder.WriteByte (p : Encoder) (c : Nat) : Encoder :=
  { p with w := p.w ++ [c] }

/-- The escape that `escapeText` writes for the rune `r` of width `width`, if any. -/
def escapeOf (escapeNewline : Bool) (r width : Nat) : Option Bytes :=
  if r = 0x22 then some (lit "&#34;")
  else if r = 0x27 then some (lit "&#39;")
  else if r = 0x26 then some (lit "&amp;")
  else if r = 0x3C then some (lit "&lt;")
  else if r = 0x3E then some (lit "&gt;")
  else if r = 0x09 then some (lit "&#x9;")
  else if r = 0x0A then (if !escapeNewline then none else some (lit "&#xA;"))
  else if r = 0x0D then some (lit "&#xD;")
  else if !isInCharacterRange r ∨ (r = 0xFFFD ∧ width = 1) then some [0xEF, 0xBF, 0xBD]
  else none

/-- The loop of `escapeText(w, s, escapeNewline)` on the suffix `s[i:]`: a rune with an
escape is written as its escape, any other rune with its own bytes (the library writes
these in runs, from `last` to the next escape). -/
def escapeLoop (escapeNewline : Bool) : Nat → Bytes → Bytes → Bytes
  | 0, _, out => out
  | fuel + 1, s, out =>
    if s.length = 0 then out
    else
      let (r, width) := utf8.DecodeRune s
      match escapeOf escapeNewline r width with
      | some esc => escapeLoop escapeNewline fuel (s.drop width) (out ++ esc)
      | none => escapeLoop escapeNewline fuel (s.drop width) (out ++ s.take width)

/-- Go `escapeText(w, s, escapeNewline)`: the bytes written. -/
def escapeText (s : Bytes) (escapeNewline : Bool) : Bytes :=
  escapeLoop escapeNewline s.length s []

/-- Go `p.EscapeString(s)`. -/
def Encoder.EscapeString (p : Encoder) (s : Bytes) : Encoder :=
  p.WriteString (escapeText s true)

/-- Go `p.writeIndent(depthDelta)` for `depthDelta` 1 (`up` true) and -1 (`up` false). -/
def Encoder.writeIndent (p : Encoder) (up : Bool) : Encoder :=
  if p.pfx.length = 0 ∧ p.indent.length = 0 then p
  else if !up ∧ p.indentedIn then
    { p with depth := p.depth - 1, indentedIn := false }
  else
    let p1 := if !up then { p with depth := p.depth - 1, indentedIn := false } else p
    let p2 := if p1.putNewline then p1.WriteByte 0x0A else { p1 with putNewline := true }
    let p3 := if p2.pfx.length > 0 then p2.WriteString p2.pfx else p2
    let p4 :=
      if p3.indent.length > 0 then p3.WriteString (List.replicate p3.depth p3.indent).flatten
      else p3
    if up then { p4 with depth := p4.depth + 1, indentedIn := true } else p4

/-- The digits of `strconv.Itoa(n)`, written before `acc`. -/
def itoaLoop : Nat → Nat → Bytes → Bytes
  | 0, _, acc => acc
  | fuel + 1, n, acc =>
    if n < 10 then (0x30 + n) :: acc else itoaLoop fuel (n / 10) ((0x30 + n % 10) :: acc)

/-- Go `strconv.Itoa(n)` for `n` that is not negative. -/
def Itoa (n : Nat) : Bytes := itoaLoop (n + 1) n []

/-- The loop `for p.seq++; ; p.seq++` of `createAttrPrefix` from the value `seq`: the
first `prefix_seq` that is not taken, with its `seq`.  There are at most as many names
taken as the map has entries. -/
def findFree (attrNS : List (Bytes × Bytes)) (pfx : Bytes) : Nat → Nat → Option (Nat × Bytes)
  | 0, _ => none
  | fuel + 1, seq =>
    if mapGet attrNS (pfx ++ [0x5F] ++ Itoa seq) = [] then some (seq, pfx ++ [0x5F] ++ Itoa seq)
    else findFree attrNS pfx fuel (seq + 1)

/-- Go `p.createAttrPrefix(url)`: the prefix to use for the name space `url`; a new prefix
is defined, and its declaration written, when the name space has none. -/
def Encoder.createAttrPrefix (p : Encoder) (url : Bytes) : Except Error (Encoder × Bytes) :=
  if mapGet p.attrPrefix url ≠ [] then .ok (p, mapGet p.attrPrefix url)
  else if url = xmlURL then .ok (p, xmlPrefix)
  else
    -- pick a name: the final element of the path, or _
    let trimmed := (url.reverse.dropWhile (fun b => b = 0x2F)).reverse
    let last := (trimmed.reverse.takeWhile (fun b => b ≠ 0x2F)).reverse
    if last.any (fun b => utf8.RuneSelf ≤ b) then .error (Error.Unmodelled "name outside ASCII")
    else
      let pfx1 := if last = [] ∨ !isNameASCII last ∨ 0x3A ∈ last then [0x5F] else last
      -- xmlanything is reserved
      let pfx2 :=
        if pfx1.length ≥ 3 ∧
            (pfx1.take 3).map (fun b => if 0x41 ≤ b ∧ b ≤ 0x5A then b + 0x20 else b) = lit "xml"
        then 0x5F :: pfx1 else pfx1
      let found : Option (Nat × Bytes) :=
        if mapGet p.attrNS pfx2 ≠ [] then
          -- name is taken, find a better one
          findFree p.attrNS pfx2 (p.attrNS.length + 1) (p.seq + 1)
        else some (p.seq, pfx2)
      match found with
      | none => .error (Error.Unmodelled "fuel")
      | some (seq, pfx3) =>
        let p1 := { p with seq := seq, attrPrefix := mapSet p.attrPrefix url pfx3,
                           attrNS := mapSet p.attrNS pfx3 url }
        let p2 := ((((p1.WriteString (lit "xmlns:")).WriteString pfx3).WriteString
          (lit "=\"")).EscapeString url).WriteString (lit "\" ")
        .ok ({ p2 with prefixes := pfx3 :: p2.prefixes }, pfx3)

/-- Go `p.deleteAttrPrefix(prefix)`. -/
def Encoder.deleteAttrPrefix (p : Encoder) (pfx : Bytes) : Encoder :=
  { p with attrPrefix := mapDelete p.attrPrefix (mapGet p.attrNS pfx),
           attrNS := mapDelete p.attrNS pfx }

/-- Go `p.popPrefix()`: the prefixes made since the last mark are removed. -/
def popPrefixLoop (p : Encoder) : List Bytes → Encoder
  | [] => { p with prefixes := [] }
  | pr :: rest =>
    if pr = [] then { p with prefixes := rest }
    else popPrefixLoop (p.deleteAttrPrefix pr) rest

/-- Go `p.popPrefix()`. -/
def Encoder.popPrefix (p : Encoder) : Encoder := popPrefixLoop p p.prefixes

/-- The loop of `p.writeStart` over the attributes. -/
def Encoder.writeAttrs (p : Encoder) : List Attr → Encoder × Option Error
  | [] => (p, none)
  | attr :: rest =>
    if attr.Name.Local = [] then p.writeAttrs rest
    else
      let p1 := p.WriteByte 0x20
      let named : Except Error Encoder :=
        if attr.Name.Space ≠ [] then
          match p1.createAttrPrefix attr.Name.Space with
          | .error e => .error e
          | .ok (p2, pr) => .ok ((p2.WriteString pr).WriteByte 0x3A)
        else .ok p1
      match named with
      | .error e => (p1, some e)
      | .ok p3 =>
        ((((p3.WriteString attr.Name.Local).WriteString (lit "=\"")).EscapeString
          attr.Value).WriteByte 0x22).writeAttrs rest

/-- Go `p.writeStart(start)`. -/
def Encoder.writeStart (p : Encoder) (nm : Name) (attr : List Attr) : Encoder × Option Error :=
  if nm.Local = [] then (p, some (Error.New "xml: start tag with no name"))
  else
    -- p.tags = append(p.tags, start.Name); p.markPrefix()
    let p1 := { p with tags := nm :: p.tags, prefixes := [] :: p.prefixes }
    let p2 := ((p1.writeIndent true).WriteByte 0x3C).WriteString nm.Local
    let p3 :=
      if nm.Space ≠ [] then ((p2.WriteString (lit " xmlns=\"")).EscapeString nm.Space).WriteByte 0x22
      else p2
    match p3.writeAttrs attr with
    | (p4, some err) => (p4, some err)
    | (p4, none) => (p4.WriteByte 0x3E, none)

/-- Go `p.writeEnd(name)`. -/
def Encoder.writeEnd (p : Encoder) (nm : Name) : Encoder × Option Error :=
  if nm.Local = [] then (p, some (Error.New "xml: end tag with no name"))
  else
    match p.tags with
    | [] => (p, some (Error.New "xml: end tag without start tag"))
    | top :: tags =>
      if top.Local = [] then (p, some (Error.New "xml: end tag without start tag"))
      else if top ≠ nm then (p, some (Error.New "xml: end tag does not match start tag"))
      else
        let p1 := { p with tags := tags }
        ((((((p1.writeIndent false).WriteByte 0x3C).WriteByte 0x2F).WriteString nm.Local).WriteByte
          0x3E).popPrefix, none)

/-- The loop of `isValidDirective(dir)` at the index `i`, on the suffix `dir[i:]`. -/
def validDirectiveLoop (dir : Bytes) : Bytes → Nat → Nat → Nat → Bool → Bool
  | [], _, depth, inquote, incomment => depth = 0 ∧ inquote = 0 ∧ !incomment
  | c :: t, i, depth, inquote, incomment =>
    if incomment then
      -- just ignore anything in comment
      if c = 0x3E ∧ 2 ≤ i ∧ (dir.drop (i - 2)).take 3 = lit "-->" then
        validDirectiveLoop dir t (i + 1) depth inquote false
      else validDirectiveLoop dir t (i + 1) depth inquote true
    else if inquote ≠ 0 then
      -- just ignore anything within quotes
      if c = inquote then validDirectiveLoop dir t (i + 1) depth 0 false
      else validDirectiveLoop dir t (i + 1) depth inquote false
    else if c = 0x27 ∨ c = 0x22 then validDirectiveLoop dir t (i + 1) depth c false
    else if c = 0x3C then
      if i + 4 < dir.length ∧ (dir.drop i).take 4 = lit "<!--" then
        validDirectiveLoop dir t (i + 1) depth inquote true
      else validDirectiveLoop dir t (i + 1) (depth + 1) inquote false
    else if c = 0x3E then
      if depth = 0 then false else validDirectiveLoop dir t (i + 1) (depth - 1) inquote false
    else validDirectiveLoop dir t (i + 1) depth inquote false

/-- Go `isValidDirective(dir)`: the angle brackets are matched, ignoring comments and
strings. -/
def isValidDirective (dir : Bytes) : Bool := validDirectiveLoop dir dir 0 0 0 false

/-- Go `bytes.Contains(b, sub)`. -/
def bytesContains (b sub : Bytes) : Bool := (stringsIndex b sub).isSome

/-- Go `enc.EncodeToken(t)`. -/
def Encoder.EncodeToken (p : Encoder) (t : Token) : Encoder × Option Error :=
  match t with
  | Token.StartElement nm attr => p.writeStart nm attr
  | Token.EndElement nm => p.writeEnd nm
  | Token.CharData data => (p.WriteString (escapeText data false), none)
  | Token.Comment data =>
    if bytesContains data (lit "-->") then
      (p, some (Error.New "xml: EncodeToken of Comment containing --> marker"))
    else (((p.WriteString (lit "<!--")).WriteString data).WriteString (lit "-->"), none)
  | Token.ProcInst target inst =>
    -- `p.w.Buffered() != 0`: something is written and not yet flushed; the buffer of
    -- 4096 bytes is flushed when it is full
    if target = lit "xml" ∧ p.w.length > 4096 then
      (p, some (Error.Unmodelled "declaration after a flush of the buffer"))
    else if target = lit "xml" ∧ p.w.length ≠ 0 then
      (p, some (Error.New
        "xml: EncodeToken of ProcInst xml target only valid for xml declaration, first token encoded"))
    else if target.any (fun b => utf8.RuneSelf ≤ b) then
      (p, some (Error.Unmodelled "name outside ASCII"))
    else if !isNameASCII target then
      (p, some (Error.New "xml: EncodeToken of ProcInst with invalid Target"))
    else if bytesContains inst (lit "?>") then
      (p, some (Error.New "xml: EncodeToken of ProcInst containing ?> marker"))
    else
      let p1 := (p.WriteString (lit "<?")).WriteString target
      let p2 := if inst.length > 0 then (p1.WriteByte 0x20).WriteString inst else p1
      (p2.WriteString (lit "?>"), none)
  | Token.Directive data =>
    if !isValidDirective data then
      (p, some (Error.New "xml: EncodeToken of Directive containing wrong < or > markers"))
    else (((p.WriteString (lit "<!")).WriteString data).WriteString (lit ">"), none)

end xml

/-! ## strings -/

namespace strings

/-- Go `strings.TrimLeftFunc(s, f)`: the loop over the runes of `s`, to the first rune that
does not satisfy `f`; the empty string when there is none. -/
def TrimLeftFunc (f : Nat → Bool) : Nat → Bytes → Bytes
  | 0, _ => []
  | fuel + 1, s =>
    if s.length = 0 then []
    else
      let (r, size) := utf8.DecodeRune s
      if f r then TrimLeftFunc f fuel (s.drop size) else s

/-- Go `strings.HasPrefix(s, prefix)`. -/
def HasPrefix (s pfx : Bytes) : Bool := pfx.isPrefixOf s

/-- Go `strings.Contains(s, substr)`. -/
def Contains (s substr : Bytes) : Bool := xml.bytesContains s substr

end strings

/-! ## internal/xmlutil -/

namespace xmlutil
open transform (Error)

/-- The type `Options`. -/
structure Options where
  Indent : Bytes
  Encoding : Bytes
  IncludeDeclaration : Bool

/-- The function literal given to `strings.TrimLeftFunc`: newline, carriage return, tab
and space. -/
def isSpaceRune (r : Nat) : Bool :=
  r = 0x0A ∨ r = 0x0D ∨ r = 0x09 ∨ r = 0x20

/-- Go `looksLikeXML(data)`. -/
def looksLikeXML (data : Bytes) : Bool :=
  if !utf8.Valid data then false
  else
    let trimmed := strings.TrimLeftFunc isSpaceRune data.length data
    if trimmed = [] then false
    else if strings.HasPrefix trimmed (lit "<?xml") then true
    else if strings.HasPrefix trimmed (lit "<") ∧ strings.Contains trimmed (lit ">") then true
    else false

/-- The loop `for { tok, err := dec.Token(); ... enc.EncodeToken(tok) }` of `TryPrettify`:
the error that ends it, or `none` at `io.EOF`, and the encoder. -/
def tokenLoop : Nat → xml.Decoder → xml.Encoder → Option Error × xml.Encoder
  | 0, _, enc => (some (Error.Unmodelled "fuel"), enc)
  | fuel + 1, dec, enc =>
    match dec.Token with
    | xml.Next.eof => (none, enc)
    | xml.Next.err err => (some err, enc)
    | xml.Next.tok tok dec1 =>
      match enc.EncodeToken tok with
      | (enc1, some err) => (some err, enc1)
      | (enc1, none) => tokenLoop fuel dec1 enc1

/-- Go `TryPrettify(name, data, opts)`. -/
def TryPrettify (_name : Bytes) (data : Bytes) (opts : Options) : Bytes × Bool × Option Error :=
  if !looksLikeXML data then (data, false, none)
  else
    let dec := xml.NewDecoder data
    let enc :=
      if opts.Indent = [] then xml.NewEncoder.Indent [] (lit "  ")
      else xml.NewEncoder.Indent [] opts.Indent
    let buf : Bytes :=
      if opts.IncludeDeclaration then
        let encoding := if opts.Encoding = [] then lit "utf-8" else opts.Encoding
        lit "<?xml version=\"1.0\" encoding=\"" ++ encoding ++ lit "\"?>\n"
      else []
    match tokenLoop (2 * data.length + 2) dec enc with
    | (some err, _) => (data, false, some err)
    | (none, enc1) => (buf ++ enc1.w, true, none)

/-- Valid UTF-8: cut into UTF-8 units, left to right, the bytes hold no invalid byte (a
unit of one byte that decodes to `RuneError`). -/
def ValidUTF8 (data : Bytes) : Prop :=
  ∀ u ∈ transform.units data, ¬ (u.1 = utf8.RuneError ∧ u.2.length = 1)

/-- The bytes after the leading spaces, tabs, carriage returns and newlines. -/
def trimLeadingSpace (data : Bytes) : Bytes :=
  data.dropWhile (fun b => b = 0x20 ∨ b = 0x09 ∨ b = 0x0D ∨ b = 0x0A)

/-- Likely XML: valid UTF-8 that, after its leading white space, starts with `<?xml`, or
starts with `<` and has a `>` somewhere after it. -/
def LikelyXML (data : Bytes) : Prop :=
  ValidUTF8 data ∧
    (lit "<?xml" <+: trimLeadingSpace data ∨
      ((trimLeadingSpace data).head? = some 0x3C ∧ 0x3E ∈ (trimLeadingSpace data).tail))

/-- An attribute as it is written in a start tag: its name, the quote character and the
bytes between the quotes. -/
structure AttrSrc where
  name : Bytes
  quote : Nat
  value : Bytes

/-- The attribute as written after one space: the name, `=` and the quoted value. -/
def AttrSrc.render (a : AttrSrc) : Bytes :=
  0x20 :: (a.name ++ 0x3D :: a.quote :: (a.value ++ [a.quote]))

/-- The document that is one element `n` with the attributes `attrs`: the
self-closing tag `<n .../>` when `body` is `none`, and `<n ...>D</n>` when it is
`some D`. -/
def element (n : Bytes) (attrs : List AttrSrc) (body : Option Bytes) : Bytes :=
  0x3C :: (n ++ (attrs.flatMap AttrSrc.render ++
    match body with
    | none => [0x2F, 0x3E]
    | some D => 0x3E :: (D ++ 0x3C :: 0x2F :: (n ++ [0x3E]))))

/-- The form in which the encoder writes the element: every value in double quotes and
escaped, the text escaped, the self-closing tag written as a start and an end tag. -/
def canonical (n : Bytes) (attrs : List AttrSrc) (body : Option Bytes) : Bytes :=
  element n
    (attrs.map (fun a => { name := a.name, quote := 0x22, value := xml.escapeText a.value true }))
    (some (xml.escapeText (body.getD []) false))

/-- An attribute of the documents considered: a plain name other than `xmlns`, a quote
`"` or `'`, and a value of printable ASCII without `<`, `&` and the quote. -/
def AttrSrc.WellFormed (a : AttrSrc) : Prop :=
  xml.PlainName a.name ∧ a.name ≠ lit "xmlns" ∧ (a.quote = 0x22 ∨ a.quote = 0x27) ∧
    ∀ b ∈ a.value, 0x20 ≤ b ∧ b ≤ 0x7E ∧ b ≠ 0x3C ∧ b ≠ 0x26 ∧ b ≠ a.quote

instance (a : AttrSrc) : Decidable a.WellFormed := by unfold AttrSrc.WellFormed; infer_instance

/-- The text of the documents considered: printable ASCII without `<` and `&`, in which
`]]>` does not occur. -/
def TextSrc (D : Bytes) : Prop :=
  (∀ b ∈ D, 0x20 ≤ b ∧ b ≤ 0x7E ∧ b ≠ 0x3C ∧ b ≠ 0x26) ∧ ¬ lit "]]>" <:+: D

instance (D : Bytes) : Decidable (TextSrc D) := by unfold TextSrc; infer_instance

end xmlutil
end Ooxmlx

namespace Ooxmlx

namespace filepath

/-- The loop of `filepath.Dir`: the index after the last separator of `path[:i+1]`. -/
def dirLoop (path : Bytes) : Nat → Nat
  | 0 => 0
  | i + 1 => if !IsPathSeparator (path.getD i 0) then dirLoop path i else i + 1

/-- Go `filepath.Dir(path)`. -/
def Dir (path : Bytes) : Bytes :=
  Clean (path.take (dirLoop path path.length))

end filepath

/-! ## internal/zipwrap -/

namespace zipwrap
open transform (Error)

/-- The type `File`.  `Open` is the result of calling the function `Open`: the reader,
given by what `io.ReadAll` returns on it, and the error of opening. -/
structure File where
  Name : Bytes
  Size : Nat
  IsDir : Bool
  Open : (Bytes × Option Error) × Option Error

end zipwrap

/-! ## internal/extract -/

namespace extract
open transform (Error)

/-- The result of `os.Stat`: `info.IsDir()`. -/
structure FileInfo where
  IsDir : Bool

/-- The operating system as `Extract` calls it, in a world of type `σ`: `os.Stat`,
`errors.Is(err, os.ErrNotExist)`, `os.MkdirAll`, `os.ReadDir` (the number of entries),
`os.WriteFile`, `os.Getwd`, and `zipwrap.Open` followed by `reader.Files()`. -/
structure OS (σ : Type) where
  Stat : Bytes → σ → FileInfo × Option Error
  IsNotExist : Error → Bool
  MkdirAll : Bytes → Nat → σ → Option Error × σ
  ReadDir : Bytes → σ → Nat × Option Error
  WriteFile : Bytes → Bytes → Nat → σ → Option Error × σ
  Getwd : σ → Bytes × Option Error
  Open : Bytes → σ → List zipwrap.File × Option Error

/-- The type `Options`; `Logger` is `Printf("wrote %s (%d bytes)", path, n)`. -/
structure Options (σ : Type) where
  Destination : Bytes
  Overwrite : Bool
  Indent : Bytes
  Encoding : Bytes
  Transformer : Option (transform.Transformer σ)
  Logger : Option (Bytes → Nat → σ → σ)

/-- Go `hasXMLDeclaration(data)`. -/
def hasXMLDeclaration (data : Bytes) : Bool :=
  let trimmed := strings.TrimLeftFunc xmlutil.isSpaceRune data.length data
  strings.HasPrefix trimmed (lit "<?xml")

/-- Go `prepareDestination(dest, overwrite)`. -/
def prepareDestination {σ : Type} (os : OS σ) (dest : Bytes) (overwrite : Bool) (s : σ) :
    Option Error × σ :=
  match os.Stat dest s with
  | (info, err) =>
    if err.any os.IsNotExist then os.MkdirAll dest 0o755 s
    else
      match err with
      | some e => (some e, s)
      | none =>
        if !info.IsDir then (some (Error.New "destination is not a directory"), s)
        else if !overwrite then
          match os.ReadDir dest s with
          | (_, some e) => (some e, s)
          | (entries, none) =>
            if entries > 0 then (some (Error.New "destination is not empty; use overwrite"), s)
            else (none, s)
        else (none, s)

/-- Go `processFile(file, opts)`, with `opts.Transformer` already set. -/
def processFile {σ : Type} (os : OS σ) (file : zipwrap.File) (opts : Options σ)
    (transformer : transform.Transformer σ) (s : σ) : Option Error × σ :=
  match pathsafe.Join (os.Getwd s) opts.Destination file.Name with
  | (_, some err) => (some err, s)
  | (safePath, none) =>
    if file.IsDir then os.MkdirAll safePath 0o755 s
    else
      match os.MkdirAll (filepath.Dir safePath) 0o755 s with
      | (some err, s1) => (some err, s1)
      | (none, s1) =>
        match file.Open with
        | (_, some err) => (some err, s1)
        | ((_, some err), none) => (some err, s1)
        | ((data, none), none) =>
          match transformer.Transform file.Name data s1 with
          | ((_, some err), s2) => (some err, s2)
          | ((transformed, none), s2) =>
            match xmlutil.TryPrettify file.Name transformed
                { Indent := opts.Indent, Encoding := opts.Encoding,
                  IncludeDeclaration := hasXMLDeclaration transformed } with
            | (_, _, some err) => (some err, s2)
            | (prettified, ok, none) =>
              let payload := if ok then prettified else transformed
              match os.WriteFile safePath payload 0o644 s2 with
              | (some err, s3) => (some err, s3)
              | (none, s3) =>
                match opts.Logger with
                | some printf => (none, printf safePath payload.length s3)
                | none => (none, s3)

/-- The loop of `Extract` over the files; `ctx i` is `ctx.Err()` when the context is done
before entry `i`. -/
def extractLoop {σ : Type} (os : OS σ) (ctx : Nat → Option Error) (opts : Options σ)
    (transformer : transform.Transformer σ) : Nat → List zipwrap.File → σ → Option Error × σ
  | _, [], s => (none, s)
  | i, file :: rest, s =>
    match ctx i with
    | some err => (some err, s)
    | none =>
      match processFile os file opts transformer s with
      | (some err, s1) =>
        (some (Error.Wrap ("extract " ++ String.mk (file.Name.map Char.ofNat)) err), s1)
      | (none, s1) => extractLoop os ctx opts transformer (i + 1) rest s1

/-- Go `Extract(ctx, archivePath, opts)`. -/
def Extract {σ : Type} (os : OS σ) (ctx : Nat → Option Error) (archivePath : Bytes)
    (opts : Options σ) (s : σ) : Option Error × σ :=
  if opts.Destination = [] then (some (Error.New "destination is required"), s)
  else
    let transformer := opts.Transformer.getD (transform.Nop σ)
    match prepareDestination os opts.Destination opts.Overwrite s with
    | (some err, s1) => (some err, s1)
    | (none, s1) =>
      match os.Open archivePath s1 with
      | (_, some err) => (some err, s1)
      | (files, none) => extractLoop os ctx opts transformer 0 files s1

/-- What a recording world keeps of a call. -/
inductive Effect
  | MkdirAll (path : Bytes) (perm : Nat)
  | WriteFile (path : Bytes) (data : Bytes) (perm : Nat)
  | Printf (path : Bytes) (n : Nat)
deriving DecidableEq

/-- An operating system for examples: the destination does not exist yet, every call
succeeds and is recorded, the working directory is `/`, and every archive holds
`files`. -/
def recordingOS (files : List zipwrap.File) : OS (List Effect) where
  Stat := fun _ _ => ({ IsDir := false }, some (Error.New "file does not exist"))
  IsNotExist := fun e => e = Error.New "file does not exist"
  MkdirAll := fun path perm s => (none, s ++ [Effect.MkdirAll path perm])
  ReadDir := fun _ _ => (0, none)
  WriteFile := fun path data perm s => (none, s ++ [Effect.WriteFile path data perm])
  Getwd := fun _ => (lit "/", none)
  Open := fun _ _ => (files, none)

/-- A file entry of an archive with the given name and content. -/
def fileEntry (name data : Bytes) : zipwrap.File :=
  { Name := name, Size := data.length, IsDir := false, Open := ((data, none), none) }

/-- The options of the tests: two-space indent, `utf-8`, `transform.Nop`, no logger. -/
def testOptions (dest : Bytes) : Options (List Effect) :=
  { Destination := dest, Overwrite := true, Indent := lit "  ", Encoding := lit "utf-8",
    Transformer := some (transform.Nop _), Logger := none }

end extract
end Ooxmlx

/-! # Theorems -/

namespace Ooxmlx
namespace utf8

theorem shl_or_eq (a b i : Nat) (h : b < 2 ^ i) : a <<< i ||| b = a * 2 ^ i + b := by
  rw [Nat.shiftLeft_eq, Nat.mul_comm, Nat.mul_add_lt_is_or h]

theorem and_maskx (b : Nat) : b &&& maskx = b % 64 :=
  Nat.and_pow_two_sub_one_eq_mod b 6

theorem and_mask2 (b : Nat) : b &&& mask2 = b % 32 :=
  Nat.and_pow_two_sub_one_eq_mod b 5

theorem and_mask3 (b : Nat) : b &&& mask3 = b % 16 :=
  Nat.and_pow_two_sub_one_eq_mod b 4

theorem and_mask4 (b : Nat) : b &&& mask4 = b % 8 :=
  Nat.and_pow_two_sub_one_eq_mod b 3

theorem rune2_eq (p0 b1 : Nat) :
    (p0 &&& mask2) <<< 6 ||| (b1 &&& maskx) = p0 % 32 * 64 + b1 % 64 := by
  rw [and_mask2, and_maskx, shl_or_eq _ _ 6 (by omega)]; omega

theorem rune3_eq (p0 b1 b2 : Nat) :
    (p0 &&& mask3) <<< 12 ||| (b1 &&& maskx) <<< 6 ||| (b2 &&& maskx)
      = p0 % 16 * 4096 + b1 % 64 * 64 + b2 % 64 := by
  rw [and_mask3, and_maskx, and_maskx, Nat.shiftLeft_eq, Nat.shiftLeft_eq]
  have h1 : p0 % 16 * 2 ^ 12 ||| b1 % 64 * 2 ^ 6 = (p0 % 16 * 64) * 2 ^ 6 + b1 % 64 * 2 ^ 6 := by
    have := shl_or_eq (p0 % 16) (b1 % 64 * 2 ^ 6) 12 (by omega)
    rw [Nat.shiftLeft_eq] at this
    rw [this]; omega
  rw [h1]
  have h2 : (p0 % 16 * 64) * 2 ^ 6 + b1 % 64 * 2 ^ 6 = (p0 % 16 * 64 + b1 % 64) <<< 6 := by
    rw [Nat.shiftLeft_eq]; omega
  rw [h2, shl_or_eq _ _ 6 (by omega)]; omega

theorem rune4_eq (p0 b1 b2 b3 : Nat) :
    (p0 &&& mask4) <<< 18 ||| (b1 &&& maskx) <<< 12 ||| (b2 &&& maskx) <<< 6 ||| (b3 &&& maskx)
      = p0 % 8 * 262144 + b1 % 64 * 4096 + b2 % 64 * 64 + b3 % 64 := by
  rw [and_mask4, and_maskx, and_maskx, and_maskx, Nat.shiftLeft_eq, Nat.shiftLeft_eq,
    Nat.shiftLeft_eq]
  have h1 : p0 % 8 * 2 ^ 18 ||| b1 % 64 * 2 ^ 12 = (p0 % 8 * 64 + b1 % 64) * 2 ^ 12 := by
    have := shl_or_eq (p0 % 8) (b1 % 64 * 2 ^ 12) 18 (by omega)
    rw [Nat.shiftLeft_eq] at this
    rw [this]; omega
  rw [h1]
  have h2 : (p0 % 8 * 64 + b1 % 64) * 2 ^ 12 ||| b2 % 64 * 2 ^ 6
      = ((p0 % 8 * 64 + b1 % 64) * 64 + b2 % 64) * 2 ^ 6 := by
    have := shl_or_eq (p0 % 8 * 64 + b1 % 64) (b2 % 64 * 2 ^ 6) 12 (by omega)
    rw [Nat.shiftLeft_eq] at this
    rw [this]; omega
  rw [h2]
  have h3 := shl_or_eq ((p0 % 8 * 64 + b1 % 64) * 64 + b2 % 64) (b3 % 64) 6 (by omega)
  rw [Nat.shiftLeft_eq] at h3
  rw [h3]; omega


theorem first_eq (b : Nat) :
    (b < 0x80 → first b = 0xF0) ∧ (0x80 ≤ b → b < 0xC2 → first b = 0xF1) ∧
    (0xF5 ≤ b → first b = 0xF1) ∧
    (0xC2 ≤ b → b ≤ 0xDF → first b = 0x02) ∧ (b = 0xE0 → first b = 0x13) ∧
    (0xE1 ≤ b → b ≤ 0xEF → b ≠ 0xED → first b = 0x03) ∧ (b = 0xED → first b = 0x23) ∧
    (b = 0xF0 → first b = 0x34) ∧ (0xF1 ≤ b → b ≤ 0xF3 → first b = 0x04) ∧
    (b = 0xF4 → first b = 0x44) := by
  unfold first
  refine ⟨?_, ?_, ?_, ?_, ?_, ?_, ?_, ?_, ?_, ?_⟩
  · intro h; rw [if_pos h]; rfl
  · intro h h'; rw [if_neg (by omega), if_pos h']; rfl
  · intro h
    rw [if_neg (by omega), if_neg (by omega), if_neg (by omega), if_neg (by omega),
      if_neg (by omega), if_neg (by omega), if_neg (by omega), if_neg (by omega),
      if_neg (by omega), if_neg (by omega)]
    rfl
  · intro h h'; rw [if_neg (by omega), if_neg (by omega), if_pos (by omega)]; rfl
  · intro h; rw [if_neg (by omega), if_neg (by omega), if_neg (by omega), if_pos h]; rfl
  · intro h h' h''
    by_cases h3 : b < 0xED
    · rw [if_neg (by omega), if_neg (by omega), if_neg (by omega), if_neg (by omega),
        if_pos h3]
      rfl
    · rw [if_neg (by omega), if_neg (by omega), if_neg (by omega), if_neg (by omega),
        if_neg h3, if_neg h'', if_pos (by omega)]
      rfl
  · intro h
    rw [if_neg (by omega), if_neg (by omega), if_neg (by omega), if_neg (by omega),
      if_neg (by omega), if_pos h]
    rfl
  · intro h
    rw [if_neg (by omega), if_neg (by omega), if_neg (by omega), if_neg (by omega),
      if_neg (by omega), if_neg (by omega), if_neg (by omega), if_pos h]
    rfl
  · intro h h'
    rw [if_neg (by omega), if_neg (by omega), if_neg (by omega), if_neg (by omega),
      if_neg (by omega), if_neg (by omega), if_neg (by omega), if_neg (by omega),
      if_pos (by omega)]
    rfl
  · intro h
    rw [if_neg (by omega), if_neg (by omega), if_neg (by omega), if_neg (by omega),
      if_neg (by omega), if_neg (by omega), if_neg (by omega), if_neg (by omega),
      if_neg (by omega), if_pos h]
    rfl

theorem first_cases (b : Nat) :
    (b < 0x80 ∧ first b = 0xF0) ∨ (0x80 ≤ b ∧ first b = 0xF1) ∨
    (0xC2 ≤ b ∧ b ≤ 0xDF ∧ first b = 0x02) ∨ (b = 0xE0 ∧ first b = 0x13) ∨
    (0xE1 ≤ b ∧ b ≤ 0xEF ∧ b ≠ 0xED ∧ first b = 0x03) ∨ (b = 0xED ∧ first b = 0x23) ∨
    (b = 0xF0 ∧ first b = 0x34) ∨ (0xF1 ≤ b ∧ b ≤ 0xF3 ∧ first b = 0x04) ∨
    (b = 0xF4 ∧ first b = 0x44) := by
  obtain ⟨h1, h2, h3, h4, h5, h6, h7, h8, h9, h10⟩ := first_eq b
  have hc : b < 0x80 ∨ (0x80 ≤ b ∧ b < 0xC2) ∨ 0xF5 ≤ b ∨ (0xC2 ≤ b ∧ b ≤ 0xDF) ∨ b = 0xE0 ∨
      (0xE1 ≤ b ∧ b ≤ 0xEF ∧ b ≠ 0xED) ∨ b = 0xED ∨ b = 0xF0 ∨ (0xF1 ≤ b ∧ b ≤ 0xF3) ∨
      b = 0xF4 := by omega
  rcases hc with h | ⟨h, h'⟩ | h | ⟨h, h'⟩ | h | ⟨h, h', h''⟩ | h | h | ⟨h, h'⟩ | h
  · exact Or.inl ⟨h, h1 h⟩
  · exact Or.inr (Or.inl ⟨h, h2 h h'⟩)
  · exact Or.inr (Or.inl ⟨by omega, h3 h⟩)
  · exact Or.inr (Or.inr (Or.inl ⟨h, h', h4 h h'⟩))
  · exact Or.inr (Or.inr (Or.inr (Or.inl ⟨h, h5 h⟩)))
  · exact Or.inr (Or.inr (Or.inr (Or.inr (Or.inl ⟨h, h', h'', h6 h h' h''⟩))))
  · exact Or.inr (Or.inr (Or.inr (Or.inr (Or.inr (Or.inl ⟨h, h7 h⟩)))))
  · exact Or.inr (Or.inr (Or.inr (Or.inr (Or.inr (Or.inr (Or.inl ⟨h, h8 h⟩))))))
  · exact Or.inr (Or.inr (Or.inr (Or.inr (Or.inr (Or.inr (Or.inr (Or.inl ⟨h, h', h9 h h'⟩)))))))
  · exact Or.inr (Or.inr (Or.inr (Or.inr (Or.inr (Or.inr (Or.inr (Or.inr ⟨h, h10 h⟩)))))))

theorem bits_consts :
    (0xF0 &&& 1 = 0) ∧ (0xF1 &&& 1 = 1) ∧
    (0x02 &&& 7 = 2 ∧ 0x02 >>> 4 = 0) ∧ (0x13 &&& 7 = 3 ∧ 0x13 >>> 4 = 1) ∧
    (0x03 &&& 7 = 3 ∧ 0x03 >>> 4 = 0) ∧ (0x23 &&& 7 = 3 ∧ 0x23 >>> 4 = 2) ∧
    (0x34 &&& 7 = 4 ∧ 0x34 >>> 4 = 3) ∧ (0x04 &&& 7 = 4 ∧ 0x04 >>> 4 = 0) ∧
    (0x44 &&& 7 = 4 ∧ 0x44 >>> 4 = 4) := by decide

theorem DecodeRune_nbsp (t : Bytes) : DecodeRune (0xC2 :: 0xA0 :: t) = (0xA0, 2) := by
  have h : first 0xC2 = 0x02 := by decide
  obtain ⟨_, _, ⟨h1, h2⟩, _⟩ := bits_consts
  have h3 : (0xC2 &&& mask2) <<< 6 ||| (0xA0 &&& maskx) = 0xA0 := by decide
  simp [DecodeRune, h, h1, h2, h3, as, acceptRanges, locb, hicb]

theorem DecodeRune_cons (p0 : Nat) (rest : Bytes) :
    (DecodeRune (p0 :: rest) = (p0, 1) ∧ p0 < 0x80) ∨
    (DecodeRune (p0 :: rest) = (RuneError, 1)) ∨
    (∃ b1 t, rest = b1 :: t ∧ 0xC2 ≤ p0 ∧ p0 ≤ 0xDF ∧ cont b1 ∧
      DecodeRune (p0 :: rest) = (p0 % 32 * 64 + b1 % 64, 2)) ∨
    (∃ b1 b2 t r, rest = b1 :: b2 :: t ∧ 0xE0 ≤ p0 ∧ cont b1 ∧ cont b2 ∧ 0x800 ≤ r ∧
      DecodeRune (p0 :: rest) = (r, 3)) ∨
    (∃ b1 b2 b3 t r, rest = b1 :: b2 :: b3 :: t ∧ 0xF0 ≤ p0 ∧ cont b1 ∧ cont b2 ∧ cont b3 ∧
      0x10000 ≤ r ∧ DecodeRune (p0 :: rest) = (r, 4)) := by
  obtain ⟨c1, c2, ⟨c3, c4⟩, ⟨c5, c6⟩, ⟨c7, c8⟩, ⟨c9, c10⟩, ⟨c11, c12⟩, ⟨c13, c14⟩, c15, c16⟩ :=
    bits_consts
  unfold DecodeRune
  rcases first_cases p0 with ⟨h, hf⟩ | ⟨h, hf⟩ | ⟨h, h', hf⟩ | ⟨h, hf⟩ | ⟨h, h', h'', hf⟩ |
    ⟨h, hf⟩ | ⟨h, hf⟩ | ⟨h, h', hf⟩ | ⟨h, hf⟩
  · left; simp [hf, as, c1, h]
  · right; left; simp [hf, as, c2]
  · -- two bytes
    simp only [hf, as, c3, c4, acceptRanges, locb, hicb]
    rcases rest with _ | ⟨b1, t⟩
    · right; left; simp
    · by_cases hb : b1 < 0x80 ∨ 0xBF < b1
      · right; left; simp [hb]
      · right; right; left
        refine ⟨b1, t, rfl, h, h', ⟨by omega, by omega⟩, ?_⟩
        simp [hb, rune2_eq]
  · -- three bytes
    simp only [hf, as, c5, c6, acceptRanges, locb, hicb]
    rcases rest with _ | ⟨b1, _ | ⟨b2, t⟩⟩
    · right; left; simp
    · right; left; simp
    · by_cases hb : b1 < 0xA0 ∨ 0xBF < b1
      · right; left; simp [hb]
      · by_cases hb2 : b2 < 0x80 ∨ 0xBF < b2
        · right; left; simp [hb, hb2]
        · right; right; right; left
          refine ⟨b1, b2, t, p0 % 16 * 4096 + b1 % 64 * 64 + b2 % 64, rfl, by omega,
            ⟨by omega, by omega⟩, ⟨by omega, by omega⟩, by omega, ?_⟩
          simp [hb, hb2, rune3_eq]
  · -- three bytes
    simp only [hf, as, c7, c8, acceptRanges, locb, hicb]
    rcases rest with _ | ⟨b1, _ | ⟨b2, t⟩⟩
    · right; left; simp
    · right; left; simp
    · by_cases hb : b1 < 0x80 ∨ 0xBF < b1
      · right; left; simp [hb]
      · by_cases hb2 : b2 < 0x80 ∨ 0xBF < b2
        · right; left; simp [hb, hb2]
        · right; right; right; left
          refine ⟨b1, b2, t, p0 % 16 * 4096 + b1 % 64 * 64 + b2 % 64, rfl, by omega,
            ⟨by omega, by omega⟩, ⟨by omega, by omega⟩, by omega, ?_⟩
          simp [hb, hb2, rune3_eq]
  · -- three bytes
    simp only [hf, as, c9, c10, acceptRanges, locb, hicb]
    rcases rest with _ | ⟨b1, _ | ⟨b2, t⟩⟩
    · right; left; simp
    · right; left; simp
    · by_cases hb : b1 < 0x80 ∨ 0x9F < b1
      · right; left; simp [hb]
      · by_cases hb2 : b2 < 0x80 ∨ 0xBF < b2
        · right; left; simp [hb, hb2]
        · right; right; right; left
          refine ⟨b1, b2, t, p0 % 16 * 4096 + b1 % 64 * 64 + b2 % 64, rfl, by omega,
            ⟨by omega, by omega⟩, ⟨by omega, by omega⟩, by omega, ?_⟩
          simp [hb, hb2, rune3_eq]
  · -- four bytes
    simp only [hf, as, c11, c12, acceptRanges, locb, hicb]
    rcases rest with _ | ⟨b1, _ | ⟨b2, _ | ⟨b3, t⟩⟩⟩
    · right; left; simp
    · right; left; simp
    · right; left; simp
    · by_cases hb : b1 < 0x90 ∨ 0xBF < b1
      · right; left; simp [hb]
      · by_cases hb2 : b2 < 0x80 ∨ 0xBF < b2
        · right; left; simp [hb, hb2]
        · by_cases hb3 : b3 < 0x80 ∨ 0xBF < b3
          · right; left; simp [hb, hb2, hb3]
          · right; right; right; right
            refine ⟨b1, b2, b3, t, p0 % 8 * 262144 + b1 % 64 * 4096 + b2 % 64 * 64 + b3 % 64, rfl,
              by omega, ⟨by omega, by omega⟩, ⟨by omega, by omega⟩, ⟨by omega, by omega⟩,
              by omega, ?_⟩
            simp [hb, hb2, hb3, rune4_eq]
  · -- four bytes
    simp only [hf, as, c13, c14, acceptRanges, locb, hicb]
    rcases rest with _ | ⟨b1, _ | ⟨b2, _ | ⟨b3, t⟩⟩⟩
    · right; left; simp
    · right; left; simp
    · right; left; simp
    · by_cases hb : b1 < 0x80 ∨ 0xBF < b1
      · right; left; simp [hb]
      · by_cases hb2 : b2 < 0x80 ∨ 0xBF < b2
        · right; left; simp [hb, hb2]
        · by_cases hb3 : b3 < 0x80 ∨ 0xBF < b3
          · right; left; simp [hb, hb2, hb3]
          · right; right; right; right
            refine ⟨b1, b2, b3, t, p0 % 8 * 262144 + b1 % 64 * 4096 + b2 % 64 * 64 + b3 % 64, rfl,
              by omega, ⟨by omega, by omega⟩, ⟨by omega, by omega⟩, ⟨by omega, by omega⟩,
              by omega, ?_⟩
            simp [hb, hb2, hb3, rune4_eq]
  · -- four bytes
    simp only [hf, as, c15, c16, acceptRanges, locb, hicb]
    rcases rest with _ | ⟨b1, _ | ⟨b2, _ | ⟨b3, t⟩⟩⟩
    · right; left; simp
    · right; left; simp
    · right; left; simp
    · by_cases hb : b1 < 0x80 ∨ 0x8F < b1
      · right; left; simp [hb]
      · by_cases hb2 : b2 < 0x80 ∨ 0xBF < b2
        · right; left; simp [hb, hb2]
        · by_cases hb3 : b3 < 0x80 ∨ 0xBF < b3
          · right; left; simp [hb, hb2, hb3]
          · right; right; right; right
            refine ⟨b1, b2, b3, t, p0 % 8 * 262144 + b1 % 64 * 4096 + b2 % 64 * 64 + b3 % 64, rfl,
              by omega, ⟨by omega, by omega⟩, ⟨by omega, by omega⟩, ⟨by omega, by omega⟩,
              by omega, ?_⟩
            simp [hb, hb2, hb3, rune4_eq]

theorem DecodeRune_size_pos (p0 : Nat) (rest : Bytes) : 1 ≤ (DecodeRune (p0 :: rest)).2 := by
  rcases DecodeRune_cons p0 rest with ⟨h, _⟩ | h | ⟨_, _, _, _, _, _, h⟩ |
    ⟨_, _, _, _, _, _, _, _, _, h⟩ | ⟨_, _, _, _, _, _, _, _, _, _, _, h⟩ <;> rw [h] <;> simp

theorem DecodeRune_ascii (p0 : Nat) (rest : Bytes) (h : p0 < 0x80) :
    DecodeRune (p0 :: rest) = (p0, 1) := by
  have hf := (first_eq p0).1 h
  have hc := bits_consts.1
  simp [DecodeRune, hf, as, hc]

theorem DecodeRune_nonascii (p0 : Nat) (rest : Bytes) (h : 0x80 ≤ p0) :
    0x80 ≤ (DecodeRune (p0 :: rest)).1 := by
  rcases DecodeRune_cons p0 rest with ⟨_, h'⟩ | h' | ⟨_, _, _, _, _, _, h'⟩ |
    ⟨_, _, _, _, _, _, _, _, _, h'⟩ | ⟨_, _, _, _, _, _, _, _, _, _, _, h'⟩
  · omega
  · rw [h']; simp [RuneError]
  · rw [h']; simp only; omega
  · rw [h']; simp only; omega
  · rw [h']; simp only; omega

theorem DecodeRune_eq_nbsp_iff (p0 : Nat) (rest : Bytes) :
    (DecodeRune (p0 :: rest)).1 = 0xA0 ↔ p0 = 0xC2 ∧ rest.head? = some 0xA0 := by
  constructor
  · intro hr
    rcases DecodeRune_cons p0 rest with ⟨h', _⟩ | h' | ⟨b1, t, rfl, _, _, ⟨_, _⟩, h'⟩ |
      ⟨_, _, _, _, _, _, _, _, _, h'⟩ | ⟨_, _, _, _, _, _, _, _, _, _, _, h'⟩
    · rw [h'] at hr; simp only at hr; omega
    · rw [h'] at hr; simp [RuneError] at hr
    · rw [h'] at hr; simp only at hr
      simp only [List.head?_cons, Option.some.injEq]
      omega
    · rw [h'] at hr; simp only at hr; omega
    · rw [h'] at hr; simp only at hr; omega
  · rintro ⟨rfl, h⟩
    rcases rest with _ | ⟨b1, t⟩
    · simp at h
    · simp only [List.head?_cons, Option.some.injEq] at h
      subst h
      rw [DecodeRune_nbsp]

end utf8

namespace transform
open utf8

theorem units_cons (b : Nat) (rest : Bytes) :
    units (b :: rest) =
      ((DecodeRune (b :: rest)).1, b :: rest.take ((DecodeRune (b :: rest)).2 - 1)) ::
        units (rest.drop ((DecodeRune (b :: rest)).2 - 1)) := by
  rw [units]

theorem take_size (b : Nat) (rest : Bytes) (n : Nat) (h : 1 ≤ n) :
    (b :: rest).take n = b :: rest.take (n - 1) ∧ (b :: rest).drop n = rest.drop (n - 1) := by
  obtain ⟨m, rfl⟩ : ∃ m, n = m + 1 := ⟨n - 1, by omega⟩
  simp

theorem rewriteNBSP_cons (b : Nat) (rest : Bytes) :
    rewriteNBSP (b :: rest) =
      (if (DecodeRune (b :: rest)).1 = 0x00A0 then [0x20]
        else (b :: rest).take (DecodeRune (b :: rest)).2) ++
        rewriteNBSP ((b :: rest).drop (DecodeRune (b :: rest)).2) := by
  obtain ⟨h1, h2⟩ := take_size b rest _ (DecodeRune_size_pos b rest)
  rw [h1, h2]
  simp [rewriteNBSP, units_cons]

theorem replaceLoop_eq (fuel : Nat) :
    ∀ (d out : Bytes), d.length ≤ fuel → replaceLoop fuel d out = out ++ rewriteNBSP d := by
  induction fuel with
  | zero =>
    intro d out h
    have : d = [] := List.length_eq_zero.mp (by omega)
    subst this
    simp [replaceLoop, rewriteNBSP, units]
  | succ n ih =>
    intro d out h
    rcases d with _ | ⟨b, rest⟩
    · simp [replaceLoop, rewriteNBSP, units]
    · have hs := DecodeRune_size_pos b rest
      have hlen : ((b :: rest).drop (DecodeRune (b :: rest)).2).length ≤ n := by
        simp only [List.length_drop, List.length_cons] at h ⊢; omega
      rw [rewriteNBSP_cons]
      simp only [replaceLoop, List.length_cons, Nat.add_one_ne_zero, if_false]
      by_cases he : (DecodeRune (b :: rest)).1 = RuneError ∧ (DecodeRune (b :: rest)).2 = 1
      · rw [if_pos he]
        have h1 : (b :: rest).drop 1 = (b :: rest).drop (DecodeRune (b :: rest)).2 := by rw [he.2]
        rw [h1, ih _ _ hlen]
        split_ifs <;> simp
      · rw [if_neg he, ih _ _ hlen]
        split_ifs <;> simp

end transform
end Ooxmlx

namespace Ooxmlx
namespace transform
open utf8

theorem containsNBSP_eq (fuel : Nat) :
    ∀ d : Bytes, d.length ≤ fuel →
      containsNBSP fuel d = (units d).any (fun u => decide (u.1 = 0x00A0)) := by
  induction fuel with
  | zero =>
    intro d h
    have : d = [] := List.length_eq_zero.mp (by omega)
    subst this
    simp [containsNBSP, units]
  | succ n ih =>
    intro d h
    rcases d with _ | ⟨b, rest⟩
    · simp [containsNBSP, units]
    · have hs := DecodeRune_size_pos b rest
      obtain ⟨-, h2⟩ := take_size b rest _ hs
      have hlen : ((b :: rest).drop (DecodeRune (b :: rest)).2).length ≤ n := by
        simp only [List.length_drop, List.length_cons] at h ⊢; omega
      rw [units_cons, List.any_cons, ← h2, ← ih _ hlen]
      simp only [containsNBSP, List.length_cons, Nat.add_one_ne_zero, if_false]
      by_cases he : (DecodeRune (b :: rest)).1 = RuneError ∧ (DecodeRune (b :: rest)).2 = 1
      · rw [if_pos he]
        have h1 : (b :: rest).drop 1 = (b :: rest).drop (DecodeRune (b :: rest)).2 := by rw [he.2]
        have h3 : (DecodeRune (b :: rest)).1 ≠ 0x00A0 := by rw [he.1]; simp [RuneError]
        rw [h1]; simp [h3]
      · rw [if_neg he]
        by_cases h3 : (DecodeRune (b :: rest)).1 = 0x00A0
        · simp [h3]
        · simp [h3]

theorem rewriteNBSP_id (n : Nat) :
    ∀ d : Bytes, d.length ≤ n → (units d).any (fun u => decide (u.1 = 0x00A0)) = false →
      rewriteNBSP d = d := by
  induction n with
  | zero =>
    intro d h _
    have : d = [] := List.length_eq_zero.mp (by omega)
    subst this
    simp [rewriteNBSP, units]
  | succ n ih =>
    intro d h hu
    rcases d with _ | ⟨b, rest⟩
    · simp [rewriteNBSP, units]
    · have hs := DecodeRune_size_pos b rest
      obtain ⟨-, h2⟩ := take_size b rest _ hs
      have hlen : ((b :: rest).drop (DecodeRune (b :: rest)).2).length ≤ n := by
        simp only [List.length_drop, List.length_cons] at h ⊢; omega
      rw [units_cons, List.any_cons, ← h2] at hu
      simp only [Bool.or_eq_false_iff, decide_eq_false_iff_not] at hu
      rw [rewriteNBSP_cons, if_neg hu.1, ih _ hlen hu.2, List.take_append_drop]

theorem units_flatMap_snd (n : Nat) :
    ∀ d : Bytes, d.length ≤ n → (units d).flatMap Prod.snd = d := by
  induction n with
  | zero =>
    intro d h
    have : d = [] := List.length_eq_zero.mp (by omega)
    subst this
    simp [units]
  | succ n ih =>
    intro d h
    rcases d with _ | ⟨b, rest⟩
    · simp [units]
    · have hlen : (rest.drop ((DecodeRune (b :: rest)).2 - 1)).length ≤ n := by
        simp only [List.length_drop, List.length_cons] at h ⊢; omega
      rw [units_cons, List.flatMap_cons, ih _ hlen]
      simp

theorem NoPair_tail (x : Nat) (t : Bytes) (h : NoPair (x :: t)) : NoPair t := by
  rcases t with _ | ⟨y, t⟩
  · trivial
  · exact h.2

theorem NoPair_drop (k : Nat) : ∀ d : Bytes, NoPair d → NoPair (d.drop k) := by
  induction k with
  | zero => intro d h; simpa using h
  | succ k ih =>
    intro d h
    rcases d with _ | ⟨x, t⟩
    · simpa using h
    · simpa using ih t (NoPair_tail x t h)

theorem NoPair_append (c o : Bytes) (hc : NoPair c) (ho : NoPair o)
    (hj : ¬ (c.getLast? = some 0xC2 ∧ o.head? = some 0xA0)) : NoPair (c ++ o) := by
  induction c with
  | nil => simpa using ho
  | cons x t ih =>
    rcases t with _ | ⟨y, t⟩
    · rcases o with _ | ⟨z, o⟩
      · trivial
      · refine ⟨?_, ho⟩
        intro ⟨h1, h2⟩
        exact hj (by simp [h1, h2])
    · refine ⟨hc.1, ?_⟩
      apply ih hc.2
      simpa [List.getLast?_cons_cons] using hj

theorem units_any_of_NoPair (n : Nat) :
    ∀ d : Bytes, d.length ≤ n → NoPair d →
      (units d).any (fun u => decide (u.1 = 0x00A0)) = false := by
  induction n with
  | zero =>
    intro d h _
    have : d = [] := List.length_eq_zero.mp (by omega)
    subst this
    simp [units]
  | succ n ih =>
    intro d h hp
    rcases d with _ | ⟨b, rest⟩
    · simp [units]
    · have hlen : (rest.drop ((DecodeRune (b :: rest)).2 - 1)).length ≤ n := by
        simp only [List.length_drop, List.length_cons] at h ⊢; omega
      rw [units_cons, List.any_cons, ih _ hlen (NoPair_drop _ _ (NoPair_tail b rest hp))]
      simp only [Bool.or_false, decide_eq_false_iff_not]
      rw [DecodeRune_eq_nbsp_iff]
      rintro ⟨rfl, h2⟩
      rcases rest with _ | ⟨y, t⟩
      · simp at h2
      · simp only [List.head?_cons, Option.some.injEq] at h2
        exact hp.1 ⟨rfl, h2⟩

theorem rewriteNBSP_head (d : Bytes) (h : (rewriteNBSP d).head? = some 0xA0) :
    d.head? = some 0xA0 := by
  rcases d with _ | ⟨b, rest⟩
  · simp [rewriteNBSP, units] at h
  · rw [rewriteNBSP_cons] at h
    obtain ⟨h1, -⟩ := take_size b rest _ (DecodeRune_size_pos b rest)
    rw [h1] at h
    split_ifs at h
    · simp at h
    · simpa using h

theorem chunk_NoPair (b : Nat) (rest : Bytes) (hr : (DecodeRune (b :: rest)).1 ≠ 0x00A0) :
    NoPair ((b :: rest).take (DecodeRune (b :: rest)).2) ∧
    (((b :: rest).take (DecodeRune (b :: rest)).2).getLast? = some 0xC2 →
      b = 0xC2 ∧ (DecodeRune (b :: rest)).2 = 1) := by
  have hn := DecodeRune_eq_nbsp_iff b rest
  rcases DecodeRune_cons b rest with ⟨h', _⟩ | h' | ⟨b1, t, rfl, _, _, ⟨_, _⟩, h'⟩ |
    ⟨b1, b2, t, r, rfl, _, ⟨_, _⟩, ⟨_, _⟩, _, h'⟩ |
    ⟨b1, b2, b3, t, r, rfl, _, ⟨_, _⟩, ⟨_, _⟩, ⟨_, _⟩, _, h'⟩
  · rw [h']; simp [NoPair]
  · rw [h']; simp [NoPair]
  · rw [h'] at hr hn ⊢
    simp only [List.head?_cons, Option.some.injEq] at hn
    refine ⟨?_, ?_⟩
    · simp only [List.take_succ_cons, List.take_zero, NoPair, and_true]
      intro hc; exact hr (hn.2 hc)
    · simp only [List.take_succ_cons, List.take_zero, List.getLast?_cons_cons,
        List.getLast?_singleton, Option.some.injEq]
      omega
  · rw [h']
    refine ⟨?_, ?_⟩
    · simp only [List.take_succ_cons, List.take_zero, NoPair, and_true]
      omega
    · simp only [List.take_succ_cons, List.take_zero, List.getLast?_cons_cons,
        List.getLast?_singleton, Option.some.injEq]
      omega
  · rw [h']
    refine ⟨?_, ?_⟩
    · simp only [List.take_succ_cons, List.take_zero, NoPair, and_true]
      omega
    · simp only [List.take_succ_cons, List.take_zero, List.getLast?_cons_cons,
        List.getLast?_singleton, Option.some.injEq]
      omega

theorem rewriteNBSP_NoPair (n : Nat) :
    ∀ d : Bytes, d.length ≤ n → NoPair (rewriteNBSP d) := by
  induction n with
  | zero =>
    intro d h
    have : d = [] := List.length_eq_zero.mp (by omega)
    subst this
    simp [rewriteNBSP, units, NoPair]
  | succ n ih =>
    intro d h
    rcases d with _ | ⟨b, rest⟩
    · simp [rewriteNBSP, units, NoPair]
    · have hs := DecodeRune_size_pos b rest
      have hlen : ((b :: rest).drop (DecodeRune (b :: rest)).2).length ≤ n := by
        simp only [List.length_drop, List.length_cons] at h ⊢; omega
      rw [rewriteNBSP_cons]
      by_cases hr : (DecodeRune (b :: rest)).1 = 0x00A0
      · rw [if_pos hr]
        exact NoPair_append _ _ (by simp [NoPair]) (ih _ hlen) (by simp)
      · rw [if_neg hr]
        obtain ⟨hc1, hc2⟩ := chunk_NoPair b rest hr
        refine NoPair_append _ _ hc1 (ih _ hlen) ?_
        rintro ⟨hl, hh⟩
        obtain ⟨rfl, hsz⟩ := hc2 hl
        have := rewriteNBSP_head _ hh
        rw [hsz] at this
        simp only [List.drop_succ_cons, List.drop_zero] at this
        exact hr ((DecodeRune_eq_nbsp_iff _ rest).2 ⟨rfl, this⟩)

theorem Transform_eq_rewrite (name data : Bytes) :
    ReplaceNBSP.Transform name data = (rewriteNBSP data, none) := by
  unfold ReplaceNBSP.Transform
  simp only [containsNBSP_eq _ _ (Nat.le_refl _), replaceLoop_eq _ _ _ (Nat.le_refl _),
    List.nil_append]
  cases h : (units data).any (fun u => decide (u.1 = 0x00A0))
  · simp [rewriteNBSP_id _ _ (Nat.le_refl _) h]
  · simp

/-- C6: `ReplaceNBSP.Transform` returns no error and its output is the reference
rewrite of the input: the input is cut, left to right, into UTF-8 units (an invalid
byte being a unit of one byte) whose bytes concatenate to the input; a unit decoding
to U+00A0 gives the single byte 0x20 and every other unit gives its own bytes.  So an
input without such a unit is returned unchanged, and `Hello World` becomes
`Hello World`. -/
theorem ReplaceNBSP_Transform_reference (name data : Bytes) :
    ReplaceNBSP.Transform name data
        = ((units data).flatMap (fun u => if u.1 = 0x00A0 then [0x20] else u.2), none) ∧
      (units data).flatMap Prod.snd = data ∧
      ((units data).any (fun u => decide (u.1 = 0x00A0)) = true ∨
        ReplaceNBSP.Transform name data = (data, none)) ∧
      ReplaceNBSP.Transform name (lit "Hello" ++ [0xC2, 0xA0] ++ lit "World")
        = (lit "Hello World", none) := by
  refine ⟨Transform_eq_rewrite name data, units_flatMap_snd _ _ (Nat.le_refl _), ?_, ?_⟩
  · cases h : (units data).any (fun u => decide (u.1 = 0x00A0))
    · right
      rw [Transform_eq_rewrite, rewriteNBSP_id _ _ (Nat.le_refl _) h]
    · left; rfl
  · unfold ReplaceNBSP.Transform
    decide

/-- C10: `ReplaceNBSP.Transform` is idempotent on every byte sequence: its output
holds no unit decoding to U+00A0, and transforming the output again returns it
unchanged. -/
theorem ReplaceNBSP_Transform_idempotent (name data : Bytes) :
    ReplaceNBSP.Transform name (ReplaceNBSP.Transform name data).1
        = ReplaceNBSP.Transform name data ∧
      (units (ReplaceNBSP.Transform name data).1).any (fun u => decide (u.1 = 0x00A0))
        = false := by
  have hu := units_any_of_NoPair _ _ (Nat.le_refl _) (rewriteNBSP_NoPair _ data (Nat.le_refl _))
  rw [Transform_eq_rewrite name data]
  refine ⟨?_, hu⟩
  rw [Transform_eq_rewrite, rewriteNBSP_id _ _ (Nat.le_refl _) hu]

end transform
end Ooxmlx

namespace Ooxmlx
namespace transform

/-- C9: `Composite.Transform` applies its stages from left to right.  With no stage it
returns the input.  Otherwise either every stage succeeds, each on the output of the
one before it under the same entry name, and the result is the last output; or there is
a first failing stage `t`, reached through the successful stages `pre`, and the result
is the error of `t` with no bytes, in the state `t` left: no stage of `post` has run. -/
theorem Composite_Transform_sequential {σ : Type} (c : List (Transformer σ))
    (name data : Bytes) (s : σ) :
    Composite.Transform ([] : List (Transformer σ)) name data s = ((data, none), s) ∧
    ((∃ out s', Chain name c data s out s' ∧
        Composite.Transform c name data s = ((out, none), s')) ∨
     (∃ pre t post mid s1 junk err s2, c = pre ++ t :: post ∧ Chain name pre data s mid s1 ∧
        t.Transform name mid s1 = ((junk, some err), s2) ∧
        Composite.Transform c name data s = (([], some err), s2))) := by
  refine ⟨rfl, ?_⟩
  induction c generalizing data s with
  | nil => exact Or.inl ⟨data, s, Chain.nil data s, rfl⟩
  | cons t ts ih =>
    rcases h : t.Transform name data s with ⟨⟨cur, _ | err⟩, s1⟩
    · rcases ih cur s1 with ⟨out, s', hc, he⟩ |
        ⟨pre, t', post, mid, s1', junk, err, s2, hl, hc, ht, he⟩
      · left
        refine ⟨out, s', Chain.cons t ts data cur out s s1 s' h hc, ?_⟩
        simp [Composite.Transform, h, he]
      · right
        refine ⟨t :: pre, t', post, mid, s1', junk, err, s2, by simp [hl],
          Chain.cons t pre data cur mid s s1 s1' h hc, ht, ?_⟩
        simp [Composite.Transform, h, he]
    · right
      refine ⟨[], t, ts, data, s, cur, err, s1, rfl, Chain.nil data s, h, ?_⟩
      simp [Composite.Transform, h]

end transform
end Ooxmlx

namespace Ooxmlx
namespace filepath

theorem splitSep_ne_nil (p : Bytes) : splitSep p ≠ [] := by
  induction p with
  | nil => simp [splitSep]
  | cons c t ih =>
    unfold splitSep
    split_ifs
    · simp
    · rcases h : splitSep t with _ | ⟨s, ss⟩
      · exact absurd h ih
      · simp

theorem splitSep_sep (t : Bytes) : splitSep (Separator :: t) = [] :: splitSep t := by
  simp [splitSep]

theorem splitSep_cons_ne (c : Nat) (t : Bytes) (h : c ≠ Separator) :
    splitSep (c :: t) = (c :: (splitSep t).head!) :: (splitSep t).tail := by
  rcases hs : splitSep t with _ | ⟨s, ss⟩
  · exact absurd hs (splitSep_ne_nil t)
  · simp [splitSep, h, hs]

/-- The elements of a path are its first element and the elements of what follows the
next separator. -/
theorem splitSep_takeWhile (rest : Bytes) :
    splitSep rest = rest.takeWhile (fun b => !IsPathSeparator b) ::
      (match rest.dropWhile (fun b => !IsPathSeparator b) with
       | [] => []
       | _ :: t => splitSep t) := by
  induction rest with
  | nil => simp [splitSep]
  | cons c t ih =>
    by_cases h : c = Separator
    · subst h
      simp [splitSep, IsPathSeparator]
    · rw [splitSep_cons_ne c t h, ih]
      simp [IsPathSeparator, h]

theorem normSegs_nil (stack : List Bytes) : normSegs stack [] = stack := by
  simp [normSegs, splitSep, stepR]

theorem normSegs_sep (stack : List Bytes) (t : Bytes) :
    normSegs stack (Separator :: t) = normSegs stack t := by
  simp [normSegs, splitSep, stepR]

theorem dropWhile_head (rest : Bytes) (c : Nat) (t : Bytes)
    (h : rest.dropWhile (fun b => !IsPathSeparator b) = c :: t) : c = Separator := by
  induction rest with
  | nil => simp at h
  | cons x xs ih =>
    by_cases hx : x = Separator
    · simp [List.dropWhile, IsPathSeparator, hx] at h
      exact h.1.symm
    · simp [List.dropWhile, IsPathSeparator, hx] at h
      exact ih (by simpa [IsPathSeparator] using h)

theorem normSegs_step (stack : List Bytes) (rest : Bytes) :
    normSegs stack rest = normSegs (stepR stack (rest.takeWhile (fun b => !IsPathSeparator b)))
      (rest.dropWhile (fun b => !IsPathSeparator b)) := by
  rcases h : rest.dropWhile (fun b => !IsPathSeparator b) with _ | ⟨c, t⟩
  · rw [normSegs_nil]
    unfold normSegs
    rw [splitSep_takeWhile, h]
    simp
  · have hc := dropWhile_head rest c t h
    subst hc
    rw [normSegs_sep]
    unfold normSegs
    rw [splitSep_takeWhile rest, h]
    simp

theorem stringsJoin_cons_cons (a b : Bytes) (l : List Bytes) (sep : Bytes) :
    stringsJoin (a :: b :: l) sep = a ++ sep ++ stringsJoin (b :: l) sep := by
  simp [stringsJoin]

theorem stringsJoin_snoc (stack : List Bytes) (seg sep : Bytes) (h : stack ≠ []) :
    stringsJoin (stack ++ [seg]) sep = stringsJoin stack sep ++ sep ++ seg := by
  induction stack with
  | nil => exact absurd rfl h
  | cons a l ih =>
    rcases l with _ | ⟨b, l⟩
    · simp [stringsJoin]
    · have := ih (by simp)
      simp only [List.cons_append] at this ⊢
      rw [stringsJoin_cons_cons, this, stringsJoin_cons_cons]
      simp

theorem renderAbs_snoc (stack : List Bytes) (seg : Bytes) :
    renderAbs (stack ++ [seg]) =
      (if stack = [] then [] else renderAbs stack) ++ Separator :: seg := by
  by_cases h : stack = []
  · subst h; simp [renderAbs, stringsJoin]
  · simp [renderAbs, stringsJoin_snoc _ _ _ h, h]

theorem stringsJoin_length_pos (stack : List Bytes) (sep : Bytes) (h : stack ≠ [])
    (hn : ∀ s ∈ stack, s ≠ []) : 0 < (stringsJoin stack sep).length := by
  rcases stack with _ | ⟨a, l⟩
  · exact absurd rfl h
  · have ha : a ≠ [] := hn a (by simp)
    have : 0 < a.length := List.length_pos.mpr ha
    rcases l with _ | ⟨b, l⟩
    · simpa [stringsJoin] using this
    · rw [stringsJoin_cons_cons]; simp only [List.length_append]; omega

theorem renderAbs_length_eq_one (stack : List Bytes) (hn : ∀ s ∈ stack, s ≠ []) :
    (renderAbs stack).length = 1 ↔ stack = [] := by
  constructor
  · intro h
    by_contra hne
    have := stringsJoin_length_pos stack [Separator] hne hn
    simp only [renderAbs, List.length_cons] at h
    omega
  · rintro rfl; simp [renderAbs, stringsJoin]

theorem backtrack_spec (P last : Bytes) (dd : Nat) (hl : Separator ∉ last) :
    ∀ k, k ≤ last.length →
      backtrack (P ++ Separator :: last) dd (P.length + k) = max P.length (min dd (P.length + k)) := by
  intro k
  induction k with
  | zero =>
    intro _
    rcases hP : P.length with _ | w
    · simp [backtrack]
    · have hg : (P ++ Separator :: last).getD (w + 1) 0 = Separator := by
        rw [← hP, List.getD_eq_getElem?_getD, List.getElem?_append_right (Nat.le_refl _)]
        simp
      simp only [Nat.add_zero, backtrack, hg, IsPathSeparator, decide_True, Bool.not_true,
        Bool.false_eq_true, and_false, if_false]
      omega
  | succ k ih =>
    intro hk
    have hg : (P ++ Separator :: last).getD (P.length + k + 1) 0 ≠ Separator := by
      rw [List.getD_eq_getElem?_getD, List.getElem?_append_right (by omega)]
      have : P.length + k + 1 - P.length = k + 1 := by omega
      rw [this, List.getElem?_cons_succ, List.getElem?_eq_getElem (by omega)]
      simp only [Option.getD_some]
      intro h
      exact hl (h ▸ List.getElem_mem _)
    rw [← Nat.add_assoc]
    simp only [backtrack, IsPathSeparator, hg, decide_False, Bool.not_false, and_true]
    by_cases hd : P.length + k + 1 > dd
    · rw [if_pos hd, ih (by omega)]
      omega
    · rw [if_neg hd]
      omega

theorem renderAbs_pop (init : List Bytes) (last : Bytes) (hn : ∀ s ∈ init, s ≠ [])
    (hl : Separator ∉ last) (hne : last ≠ []) :
    (renderAbs (init ++ [last])).take
        (backtrack (renderAbs (init ++ [last])) 1 ((renderAbs (init ++ [last])).length - 1))
      = renderAbs init := by
  have hlen : 0 < last.length := List.length_pos.mpr hne
  rw [renderAbs_snoc]
  by_cases h : init = []
  · subst h
    have := backtrack_spec [] last 1 hl last.length (Nat.le_refl _)
    simp only [List.nil_append, List.length_nil, Nat.zero_add] at this
    simp only [if_true, List.nil_append, List.length_cons, Nat.add_sub_cancel, this]
    have h1 : max 0 (min 1 last.length) = 1 := by omega
    rw [h1]; simp [renderAbs, stringsJoin]
  · rw [if_neg h]
    have h2 : 1 < (renderAbs init).length := by
      have := stringsJoin_length_pos init [Separator] h hn
      simp only [renderAbs, List.length_cons]; omega
    have := backtrack_spec (renderAbs init) last 1 hl last.length (Nat.le_refl _)
    have h3 : (renderAbs init ++ Separator :: last).length - 1
        = (renderAbs init).length + last.length := by
      simp only [List.length_append, List.length_cons]; omega
    rw [h3, this]
    have h1 : max (renderAbs init).length (min 1 ((renderAbs init).length + last.length))
        = (renderAbs init).length := by omega
    rw [h1]; simp

end filepath
end Ooxmlx

namespace Ooxmlx
namespace filepath

theorem splitSep_no_sep (p : Bytes) : ∀ s ∈ splitSep p, Separator ∉ s := by
  induction p with
  | nil => simp [splitSep]
  | cons c t ih =>
    by_cases h : c = Separator
    · subst h
      rw [splitSep_sep]
      intro s hs
      rcases List.mem_cons.mp hs with rfl | hs
      · simp
      · exact ih s hs
    · rw [splitSep_cons_ne c t h]
      have hne := splitSep_ne_nil t
      intro s hs
      rcases hsp : splitSep t with _ | ⟨x, xs⟩
      · exact absurd hsp hne
      · rw [hsp] at hs ih
        simp only [List.head!_cons, List.tail_cons] at hs
        rcases List.mem_cons.mp hs with rfl | hs
        · have := ih x (by simp)
          simp only [List.mem_cons, not_or]
          exact ⟨fun e => h e.symm, this⟩
        · exact ih s (by simp [hs])

theorem stepR_normal (stack : List Bytes) (seg : Bytes) (hs : ∀ s ∈ stack, Normal s)
    (hseg : Separator ∉ seg) : ∀ s ∈ stepR stack seg, Normal s := by
  unfold stepR
  by_cases h1 : seg = [] ∨ seg = [dot]
  · rw [if_pos h1]; exact hs
  · rw [if_neg h1]
    by_cases h2 : seg = [dot, dot]
    · rw [if_pos h2]
      intro s h
      exact hs s (List.mem_of_mem_dropLast h)
    · rw [if_neg h2]
      intro s h
      rcases List.mem_append.mp h with h | h
      · exact hs s h
      · simp only [List.mem_singleton] at h
        subst h
        exact ⟨fun e => h1 (Or.inl e), hseg, fun e => h1 (Or.inr e), h2⟩

theorem foldl_stepR_normal (segs : List Bytes) :
    ∀ stack : List Bytes, (∀ s ∈ stack, Normal s) → (∀ s ∈ segs, Separator ∉ s) →
      ∀ s ∈ segs.foldl stepR stack, Normal s := by
  induction segs with
  | nil => intro stack hs _; simpa using hs
  | cons x xs ih =>
    intro stack hs hx
    simp only [List.foldl_cons]
    exact ih _ (stepR_normal stack x hs (hx x (by simp))) (fun s h => hx s (by simp [h]))

theorem normSegs_normal (stack : List Bytes) (rest : Bytes) (hs : ∀ s ∈ stack, Normal s) :
    ∀ s ∈ normSegs stack rest, Normal s :=
  foldl_stepR_normal _ stack hs (splitSep_no_sep rest)

theorem cond_dot (c : Nat) (t : Bytes) (hc : c ≠ Separator) :
    (c = dot ∧ (t.length = 0 ∨ IsPathSeparator (t.getD 0 0) = true)) ↔
      ((c :: t).takeWhile (fun b => !IsPathSeparator b) = [dot] ∧
       (c :: t).dropWhile (fun b => !IsPathSeparator b) = t) := by
  rcases t with _ | ⟨x, t⟩
  · simp [IsPathSeparator, hc]
  · by_cases hx : x = Separator
    · simp [IsPathSeparator, hc, hx]
    · simp [IsPathSeparator, hc, hx]

theorem cond_dotdot (c : Nat) (t : Bytes) (hc : c ≠ Separator) :
    (c = dot ∧ t.getD 0 0 = dot ∧ (t.length = 1 ∨ IsPathSeparator (t.getD 1 0) = true)) ↔
      ((c :: t).takeWhile (fun b => !IsPathSeparator b) = [dot, dot] ∧
       (c :: t).dropWhile (fun b => !IsPathSeparator b) = t.drop 1) := by
  have hd : dot ≠ Separator := by decide
  rcases t with _ | ⟨x, _ | ⟨y, t⟩⟩
  · simp [IsPathSeparator, hc, dot]
  · by_cases hx : x = Separator
    · simp [IsPathSeparator, hc, hx, Ne.symm hd]
    · simp [IsPathSeparator, hc, hx]
  · by_cases hx : x = Separator
    · simp [IsPathSeparator, hc, hx, Ne.symm hd]
    · by_cases hy : y = Separator
      · simp [IsPathSeparator, hc, hx, hy]
      · simp [IsPathSeparator, hc, hx, hy]

theorem dropWhile_length_le (rest : Bytes) :
    (rest.dropWhile (fun b => !IsPathSeparator b)).length ≤ rest.length := by
  have := (List.dropWhile_sublist (fun b => !IsPathSeparator b) (l := rest)).length_le
  exact this

/-- The loop of `Clean` on a rooted path computes the stack of its elements. -/
theorem cleanLoop_rooted (fuel : Nat) :
    ∀ (rest : Bytes) (stack : List Bytes), rest.length ≤ fuel → (∀ s ∈ stack, Normal s) →
      cleanLoop true fuel rest (renderAbs stack) 1 = renderAbs (normSegs stack rest) := by
  induction fuel with
  | zero =>
    intro rest stack h _
    have : rest = [] := List.length_eq_zero.mp (by omega)
    subst this
    simp [cleanLoop, normSegs_nil]
  | succ n ih =>
    intro rest stack h hs
    rcases rest with _ | ⟨c, t⟩
    · simp [cleanLoop, normSegs_nil]
    · have hlt : t.length ≤ n := by simp only [List.length_cons] at h; omega
      have hne : ∀ s ∈ stack, s ≠ [] := fun s h => (hs s h).1
      unfold cleanLoop
      by_cases hc : c = Separator
      · subst hc
        simp only [IsPathSeparator, decide_True, if_true]
        rw [ih t stack hlt hs, normSegs_sep]
      · have hc' : IsPathSeparator c = false := by simp [IsPathSeparator, hc]
        simp only [hc', Bool.false_eq_true, if_false]
        by_cases h2 : c = dot ∧ (t.length = 0 ∨ IsPathSeparator (t.getD 0 0) = true)
        · rw [if_pos h2]
          obtain ⟨e1, e2⟩ := (cond_dot c t hc).1 h2
          rw [ih t stack hlt hs, normSegs_step stack (c :: t), e1, e2]
          simp [stepR]
        · rw [if_neg h2]
          by_cases h3 : c = dot ∧ t.getD 0 0 = dot ∧
              (t.length = 1 ∨ IsPathSeparator (t.getD 1 0) = true)
          · rw [if_pos h3]
            obtain ⟨e1, e2⟩ := (cond_dotdot c t hc).1 h3
            have hlt' : (t.drop 1).length ≤ n := by simp only [List.length_drop]; omega
            rw [normSegs_step stack (c :: t), e1, e2]
            have hst : stepR stack [dot, dot] = stack.dropLast := by
              simp [stepR, dot]
            rw [hst]
            have hs' : ∀ s ∈ stack.dropLast, Normal s :=
              fun s h => hs s (List.mem_of_mem_dropLast h)
            by_cases hemp : stack = []
            · subst hemp
              have : ¬ (renderAbs []).length > 1 := by simp [renderAbs, stringsJoin]
              rw [if_neg this]
              simp only [Bool.not_true, Bool.false_eq_true, if_false]
              exact ih _ [] hlt' (by simp)
            · have hl1 : (renderAbs stack).length > 1 := by
                have := (renderAbs_length_eq_one stack hne).not.mpr hemp
                have : 0 < (renderAbs stack).length := by simp [renderAbs]
                omega
              rw [if_pos hl1]
              obtain ⟨init, last, rfl⟩ : ∃ init last, stack = init ++ [last] :=
                ⟨stack.dropLast, stack.getLast hemp, (List.dropLast_append_getLast hemp).symm⟩
              have hlast := hs last (by simp)
              rw [renderAbs_pop init last (fun s h => hne s (by simp [h])) hlast.2.1 hlast.1]
              simp only [List.dropLast_concat] at hs' ⊢
              exact ih _ init hlt' hs'
          · rw [if_neg h3]
            have hseg1 : (c :: t).takeWhile (fun b => !IsPathSeparator b) ≠ [dot] := by
              intro e
              apply h2
              by_cases hdc : c = dot
              · refine (cond_dot c t hc).2 ⟨e, ?_⟩
                rcases t with _ | ⟨x, t⟩
                · simp [hc']
                · by_cases hx : IsPathSeparator x = true
                  · simp [hc', hx]
                  · simp [hc', hx] at e
              · simp [hc'] at e
                exact absurd e.1 hdc
            have hseg2 : (c :: t).takeWhile (fun b => !IsPathSeparator b) ≠ [dot, dot] := by
              intro e
              apply h3
              refine (cond_dotdot c t hc).2 ⟨e, ?_⟩
              rcases t with _ | ⟨x, _ | ⟨y, t⟩⟩
              · simp [hc'] at e
              · by_cases hx : IsPathSeparator x = true
                · simp [hc', hx] at e
                · simp [hc', hx]
              · by_cases hx : IsPathSeparator x = true
                · simp [hc', hx] at e
                · by_cases hy : IsPathSeparator y = true
                  · simp [hc', hx, hy]
                  · simp [hc', hx, hy] at e
            have hseg0 : (c :: t).takeWhile (fun b => !IsPathSeparator b) ≠ [] := by
              simp [hc']
            have hlt' : ((c :: t).dropWhile (fun b => !IsPathSeparator b)).length ≤ n := by
              have : (c :: t).dropWhile (fun b => !IsPathSeparator b)
                  = t.dropWhile (fun b => !IsPathSeparator b) := by simp [hc']
              rw [this]
              exact Nat.le_trans (dropWhile_length_le t) hlt
            rw [normSegs_step stack (c :: t)]
            have hst : stepR stack ((c :: t).takeWhile (fun b => !IsPathSeparator b))
                = stack ++ [(c :: t).takeWhile (fun b => !IsPathSeparator b)] := by
              simp only [stepR, hseg0, hseg1, hseg2, or_self, if_false]
            rw [hst]
            have hnorm : ∀ s ∈ stack ++ [(c :: t).takeWhile (fun b => !IsPathSeparator b)],
                Normal s := by
              rw [← hst]
              apply stepR_normal stack _ hs
              intro hmem
              have := List.mem_takeWhile_imp hmem
              simp [IsPathSeparator] at this
            rw [← ih _ _ hlt' hnorm, renderAbs_snoc]
            congr 1
            by_cases hemp : stack = []
            · subst hemp; simp [renderAbs, stringsJoin]
            · have := (renderAbs_length_eq_one stack hne).not.mpr hemp
              simp [hemp, this]

end filepath
end Ooxmlx

namespace Ooxmlx
namespace filepath

theorem Clean_rooted (rest : Bytes) :
    Clean (Separator :: rest) = renderAbs (normSegs [] rest) := by
  have h := cleanLoop_rooted (rest.length + 1) rest [] (by omega) (by simp)
  have hr : renderAbs [] = [Separator] := by simp [renderAbs, stringsJoin]
  rw [hr] at h
  unfold Clean
  simp only [List.cons_ne_nil, if_false, List.getD_cons_zero, IsPathSeparator, decide_True,
    if_true, List.length_cons, List.drop_succ_cons, List.drop_zero, h]
  simp [renderAbs]

theorem IsAbs_iff (p : Bytes) : IsAbs p = true ↔ ∃ rest, p = Separator :: rest := by
  rcases p with _ | ⟨c, t⟩
  · simp [IsAbs]
  · simp [IsAbs]

theorem IsAbs_Clean (p : Bytes) (h : IsAbs p = true) : IsAbs (Clean p) = true := by
  obtain ⟨rest, rfl⟩ := (IsAbs_iff p).1 h
  rw [Clean_rooted]
  simp [IsAbs, renderAbs]

theorem takeWhile_sepfree (a r : Bytes) (ha : Separator ∉ a) :
    (a ++ Separator :: r).takeWhile (fun b => !IsPathSeparator b) = a ∧
    (a ++ Separator :: r).dropWhile (fun b => !IsPathSeparator b) = Separator :: r ∧
    a.takeWhile (fun b => !IsPathSeparator b) = a ∧
    a.dropWhile (fun b => !IsPathSeparator b) = [] := by
  induction a with
  | nil => simp [IsPathSeparator]
  | cons x xs ih =>
    simp only [List.mem_cons, not_or] at ha
    obtain ⟨i1, i2, i3, i4⟩ := ih ha.2
    have hx : IsPathSeparator x = false := by simp [IsPathSeparator, Ne.symm ha.1]
    simp [hx, i1, i2, i3, i4]

theorem stepR_push (stack : List Bytes) (seg : Bytes) (h : Normal seg) :
    stepR stack seg = stack ++ [seg] := by
  simp only [stepR, h.1, h.2.2.1, h.2.2.2, or_self, if_false]

theorem normSegs_join (segs : List Bytes) :
    ∀ acc : List Bytes, (∀ s ∈ segs, Normal s) →
      normSegs acc (stringsJoin segs [Separator]) = acc ++ segs := by
  induction segs with
  | nil => intro acc _; simp [stringsJoin, normSegs_nil]
  | cons a l ih =>
    intro acc hs
    have ha := hs a (by simp)
    rcases l with _ | ⟨b, l⟩
    · obtain ⟨-, -, e1, e2⟩ := takeWhile_sepfree a [] ha.2.1
      rw [show stringsJoin [a] [Separator] = a from rfl, normSegs_step, e1, e2, normSegs_nil,
        stepR_push _ _ ha]
    · rw [stringsJoin_cons_cons]
      have hj : a ++ [Separator] ++ stringsJoin (b :: l) [Separator]
          = a ++ Separator :: stringsJoin (b :: l) [Separator] := by simp
      obtain ⟨e1, e2, -, -⟩ := takeWhile_sepfree a (stringsJoin (b :: l) [Separator]) ha.2.1
      rw [hj, normSegs_step, e1, e2, normSegs_sep, stepR_push _ _ ha,
        ih (acc ++ [a]) (fun s h => hs s (by simp [h]))]
      simp

/-- Function `Clean` leaves a cleaned rooted path as it is. -/
theorem Clean_renderAbs (segs : List Bytes) (hs : ∀ s ∈ segs, Normal s) :
    Clean (renderAbs segs) = renderAbs segs := by
  unfold renderAbs
  rw [Clean_rooted, normSegs_join segs [] hs]
  simp [renderAbs]

theorem splitSep_append (x y : Bytes) :
    splitSep (x ++ Separator :: y) = splitSep x ++ splitSep y := by
  induction x with
  | nil => simp [splitSep]
  | cons c t ih =>
    by_cases h : c = Separator
    · subst h
      simp only [List.cons_append, splitSep_sep, ih]
    · simp only [List.cons_append]
      rw [splitSep_cons_ne c _ h, splitSep_cons_ne c t h, ih]
      rcases hs : splitSep t with _ | ⟨s, ss⟩
      · exact absurd hs (splitSep_ne_nil t)
      · simp

theorem normSegs_append (acc : List Bytes) (x y : Bytes) :
    normSegs acc (x ++ Separator :: y) = normSegs (normSegs acc x) y := by
  simp [normSegs, splitSep_append, List.foldl_append]

/-- Function `filepath.Join` of a rooted base and a second element. -/
theorem Join_rooted (b' second : Bytes) :
    Join [Separator :: b', second] = renderAbs (normSegs (normSegs [] b') second) := by
  have : stringsJoin [Separator :: b', second] [Separator]
      = Separator :: (b' ++ Separator :: second) := by simp [stringsJoin]
  simp only [Join, ne_eq, List.cons_ne_nil, not_false_eq_true, if_true, this]
  rw [Clean_rooted, normSegs_append]

end filepath
end Ooxmlx

namespace Ooxmlx
namespace filepath

theorem stripCommon_nil_left (bs : List Bytes) : stripCommon [] bs = ([], bs) := by
  unfold stripCommon; rfl

theorem stripCommon_nil_right (as : List Bytes) : stripCommon as [] = (as, []) := by
  rcases as with _ | ⟨a, as⟩ <;> (unfold stripCommon; rfl)

theorem stripCommon_cons (a b : Bytes) (as bs : List Bytes) :
    stripCommon (a :: as) (b :: bs) = if a = b then stripCommon as bs else (a :: as, b :: bs) := by
  rw [stripCommon]

theorem stripCommon_fst_nil_iff (as : List Bytes) :
    ∀ bs : List Bytes, (stripCommon as bs).1 = [] ↔ as <+: bs := by
  induction as with
  | nil => intro bs; simp [stripCommon_nil_left]
  | cons a as ih =>
    intro bs
    rcases bs with _ | ⟨b, bs⟩
    · simp [stripCommon_nil_right]
    · rw [stripCommon_cons]
      by_cases h : a = b
      · subst h
        rw [if_pos rfl, ih bs]
        simp [List.cons_prefix_cons]
      · rw [if_neg h]
        simp [List.cons_prefix_cons, h]

theorem stripCommon_spec (as : List Bytes) :
    ∀ bs : List Bytes, ∃ common, as = common ++ (stripCommon as bs).1 ∧
      bs = common ++ (stripCommon as bs).2 := by
  induction as with
  | nil => intro bs; exact ⟨[], by simp [stripCommon_nil_left]⟩
  | cons a as ih =>
    intro bs
    rcases bs with _ | ⟨b, bs⟩
    · exact ⟨[], by simp [stripCommon_nil_right]⟩
    · rw [stripCommon_cons]
      by_cases h : a = b
      · subst h
        obtain ⟨c, h1, h2⟩ := ih bs
        rw [if_pos rfl]
        exact ⟨a :: c, by simp [← h1], by simp [← h2]⟩
      · rw [if_neg h]
        exact ⟨[], by simp⟩

theorem stripCommon_mem (as : List Bytes) (bs : List Bytes) :
    (∀ s ∈ (stripCommon as bs).1, s ∈ as) ∧ (∀ s ∈ (stripCommon as bs).2, s ∈ bs) := by
  obtain ⟨c, h1, h2⟩ := stripCommon_spec as bs
  constructor
  · intro s hs; rw [h1]; exact List.mem_append_right _ hs
  · intro s hs; rw [h2]; exact List.mem_append_right _ hs

theorem takeWhile_ne_sepfree (a r : Bytes) (ha : Separator ∉ a) :
    (a ++ Separator :: r).takeWhile (fun b => decide (b ≠ Separator)) = a ∧
    a.takeWhile (fun b => decide (b ≠ Separator)) = a := by
  induction a with
  | nil => simp
  | cons x xs ih =>
    simp only [List.mem_cons, not_or] at ha
    obtain ⟨i1, i2⟩ := ih ha.2
    have hx : decide (x ≠ Separator) = true := by simpa using Ne.symm ha.1
    rw [List.cons_append, List.takeWhile_cons, List.takeWhile_cons, hx, i1, i2]
    simp

theorem takeWhile_join (a : Bytes) (l : List Bytes) (ha : Separator ∉ a) :
    (stringsJoin (a :: l) [Separator]).takeWhile (fun b => decide (b ≠ Separator)) = a ∧
    ((stringsJoin (a :: l) [Separator]).drop a.length).drop 1 = stringsJoin l [Separator] := by
  rcases l with _ | ⟨b, l⟩
  · refine ⟨(takeWhile_ne_sepfree a [] ha).2, ?_⟩
    simp [stringsJoin]
  · rw [stringsJoin_cons_cons]
    have hj : a ++ [Separator] ++ stringsJoin (b :: l) [Separator]
        = a ++ Separator :: stringsJoin (b :: l) [Separator] := by simp
    rw [hj]
    exact ⟨(takeWhile_ne_sepfree a _ ha).1, by simp⟩

theorem stringsJoin_length_cons (a : Bytes) (l : List Bytes) :
    (stringsJoin l [Separator]).length + a.length ≤ (stringsJoin (a :: l) [Separator]).length := by
  rcases l with _ | ⟨b, l⟩
  · simp [stringsJoin]
  · rw [stringsJoin_cons_cons]; simp only [List.length_append]; omega

/-- The loop of `Rel` on two joined lists of ordinary elements strips their common
leading part. -/
theorem relLoop_join (as : List Bytes) :
    ∀ (bs : List Bytes) (fuel : Nat), (∀ s ∈ as, Normal s) → (∀ s ∈ bs, Normal s) →
      (stringsJoin as [Separator]).length < fuel →
      ∃ seg, relLoop fuel (stringsJoin as [Separator]) (stringsJoin bs [Separator])
          = (stringsJoin (stripCommon as bs).1 [Separator],
             stringsJoin (stripCommon as bs).2 [Separator], seg) ∧
        (seg = [] ∨ Normal seg) := by
  induction as with
  | nil =>
    intro bs fuel _ _ hf
    refine ⟨[], ?_, Or.inl rfl⟩
    obtain ⟨n, rfl⟩ : ∃ n, fuel = n + 1 := ⟨fuel - 1, by omega⟩
    simp [relLoop, stringsJoin, stripCommon_nil_left]
  | cons a as ih =>
    intro bs fuel has hbs hf
    obtain ⟨n, rfl⟩ : ∃ n, fuel = n + 1 := ⟨fuel - 1, by omega⟩
    have ha := has a (by simp)
    rcases bs with _ | ⟨b, bs⟩
    · refine ⟨[], ?_, Or.inl rfl⟩
      simp [relLoop, stringsJoin, stripCommon_nil_right]
    · have hb := hbs b (by simp)
      have hpa := stringsJoin_length_pos (a :: as) [Separator] (by simp) (fun s h => (has s h).1)
      have hpb := stringsJoin_length_pos (b :: bs) [Separator] (by simp) (fun s h => (hbs s h).1)
      obtain ⟨ta, da⟩ := takeWhile_join a as ha.2.1
      obtain ⟨tb, db⟩ := takeWhile_join b bs hb.2.1
      have hlen := stringsJoin_length_cons a as
      have hapos : 0 < a.length := List.length_pos.mpr ha.1
      unfold relLoop
      rw [if_pos ⟨hpa, hpb⟩]
      simp only [ta, tb]
      rw [stripCommon_cons]
      by_cases h : a = b
      · subst h
        simp only [ne_eq, not_true_eq_false, if_false, if_true, da, db]
        exact ih bs n (fun s h => has s (by simp [h])) (fun s h => hbs s (by simp [h])) (by omega)
      · have h' : ¬ b = a := fun e => h e.symm
        simp only [ne_eq, h', not_false_eq_true, if_true, h, if_false]
        exact ⟨a, rfl, Or.inr ha⟩

end filepath
end Ooxmlx

namespace Ooxmlx
namespace filepath

theorem renderAbs_inj (as bs : List Bytes) (has : ∀ s ∈ as, Normal s) (hbs : ∀ s ∈ bs, Normal s)
    (h : renderAbs as = renderAbs bs) : as = bs := by
  have h1 := normSegs_join as [] has
  have h2 := normSegs_join bs [] hbs
  simp only [renderAbs, List.cons.injEq, true_and] at h
  rw [h, h2] at h1
  simpa using h1.symm

theorem join_not_dotdot (bs : List Bytes) (hbs : ∀ s ∈ bs, Normal s) :
    stringsJoin bs [Separator] ≠ [dot, dot] ∧
      ¬ [dot, dot, Separator] <+: stringsJoin bs [Separator] := by
  rcases bs with _ | ⟨b, l⟩
  · simp [stringsJoin]
  · have hb := hbs b (by simp)
    have ht := (takeWhile_join b l hb.2.1).1
    constructor
    · intro e
      rw [e] at ht
      exact hb.2.2.2 (by rw [← ht]; decide)
    · rintro ⟨r, e⟩
      rw [← e] at ht
      exact hb.2.2.2 (by rw [← ht]; simp [dot, Separator])

theorem ups_shape (n : Nat) (tsuf : Bytes) :
    let ups := [dot, dot] ++ (List.replicate n [Separator, dot, dot]).flatten
    (ups = [dot, dot] ∨ [dot, dot, Separator] <+: ups) ∧
      [dot, dot, Separator] <+: ups ++ [Separator] ++ tsuf := by
  rcases n with _ | n
  · simp
  · simp [List.replicate_succ]

/-- Function `Rel` between two cleaned rooted paths: the elements that follow the base when the
base's elements lead the target's, a path that starts by going up otherwise. -/
theorem Rel_renderAbs (as bs : List Bytes) (has : ∀ s ∈ as, Normal s)
    (hbs : ∀ s ∈ bs, Normal s) :
    ∃ rel, Rel (renderAbs as) (renderAbs bs) = (rel, none) ∧
      ((as <+: bs ∧ rel ≠ [dot, dot] ∧ ¬ [dot, dot, Separator] <+: rel ∧
          ((rel = [dot] ∧ as = bs) ∨
           (as ≠ bs ∧ rel = stringsJoin (bs.drop as.length) [Separator]))) ∨
       (¬ as <+: bs ∧ (rel = [dot, dot] ∨ [dot, dot, Separator] <+: rel))) := by
  unfold Rel
  simp only [Clean_renderAbs as has, Clean_renderAbs bs hbs]
  by_cases heq : renderAbs bs = renderAbs as
  · have := renderAbs_inj bs as hbs has heq
    subst this
    refine ⟨[dot], by simp, Or.inl ⟨List.prefix_refl _, by decide, by decide, Or.inl ⟨rfl, rfl⟩⟩⟩
  · have hne : as ≠ bs := fun e => heq (by rw [e])
    rw [if_neg heq]
    have hnd : renderAbs as ≠ [dot] := by simp [renderAbs, dot, Separator]
    rw [if_neg hnd]
    have hsl : ∀ l : List Bytes,
        decide ((renderAbs l).length > 0 ∧ (renderAbs l).getD 0 0 = Separator) = true := by
      intro l; simp [renderAbs]
    rw [hsl as, hsl bs]
    simp only [ne_eq, not_true_eq_false, if_false]
    -- the first iteration skips the leading separator
    have hfirst : relLoop ((renderAbs as).length + 1) (renderAbs as) (renderAbs bs)
        = relLoop (renderAbs as).length (stringsJoin as [Separator])
            (stringsJoin bs [Separator]) := by
      rw [relLoop]
      simp [renderAbs]
    obtain ⟨seg, hloop, hseg⟩ := relLoop_join as bs (renderAbs as).length has hbs
      (by simp [renderAbs])
    rw [hfirst, hloop]
    have hsegdd : seg ≠ [dot, dot] := by
      rcases hseg with rfl | h
      · simp
      · exact h.2.2.2
    simp only [hsegdd, if_false]
    obtain ⟨common, hc1, hc2⟩ := stripCommon_spec as bs
    obtain ⟨hm1, hm2⟩ := stripCommon_mem as bs
    by_cases hfst : (stripCommon as bs).1 = []
    · have hpre := (stripCommon_fst_nil_iff as bs).1 hfst
      rw [hfst]
      simp only [stringsJoin, List.length_nil, ne_eq, not_true_eq_false, if_false]
      have hdrop : (stripCommon as bs).2 = bs.drop as.length := by
        rw [hfst, List.append_nil] at hc1
        rw [← hc1] at hc2
        conv_rhs => rw [hc2]
        simp
      have hnorm : ∀ s ∈ (stripCommon as bs).2, Normal s := fun s h => hbs s (hm2 s h)
      obtain ⟨j1, j2⟩ := join_not_dotdot _ hnorm
      exact ⟨_, rfl, Or.inl ⟨hpre, j1, j2, Or.inr ⟨hne, by rw [hdrop]⟩⟩⟩
    · have hpre : ¬ as <+: bs := fun h => hfst ((stripCommon_fst_nil_iff as bs).2 h)
      have hpos := stringsJoin_length_pos _ [Separator] hfst (fun s h => (has s (hm1 s h)).1)
      have hlen : (stringsJoin (stripCommon as bs).1 [Separator]).length ≠ 0 := by omega
      simp only [ne_eq, hlen, not_false_eq_true, if_true]
      obtain ⟨u1, u2⟩ := ups_shape
        ((stringsJoin (stripCommon as bs).1 [Separator]).count Separator)
        (stringsJoin (stripCommon as bs).2 [Separator])
      by_cases ht : (stringsJoin (stripCommon as bs).2 [Separator]).length = 0
      · simp only [ht, not_true_eq_false, if_false]
        exact ⟨_, rfl, Or.inr ⟨hpre, u1⟩⟩
      · simp only [ht, not_false_eq_true, if_true]
        exact ⟨_, rfl, Or.inr ⟨hpre, Or.inr u2⟩⟩

end filepath

namespace pathsafe
open filepath

/-- Function `isWithin` for a rooted base and a cleaned rooted destination: whether the elements
of the cleaned base lead the elements of the destination. -/
theorem isWithin_abs (getwd : Bytes × Option transform.Error) (b' : Bytes) (bs : List Bytes)
    (hbs : ∀ s ∈ bs, Normal s) :
    isWithin getwd (Separator :: b') (renderAbs bs)
      = (decide (normSegs [] b' <+: bs), none) := by
  have has : ∀ s ∈ normSegs [] b', Normal s := normSegs_normal [] b' (by simp)
  obtain ⟨rel, hrel, hcase⟩ := Rel_renderAbs (normSegs [] b') bs has hbs
  have hA1 : Abs getwd (Separator :: b') = (renderAbs (normSegs [] b'), none) := by
    simp [Abs, IsAbs, Clean_rooted]
  have hA2 : Abs getwd (renderAbs bs) = (renderAbs bs, none) := by
    have : IsAbs (renderAbs bs) = true := by simp [IsAbs, renderAbs]
    simp [Abs, this, Clean_renderAbs bs hbs]
  unfold isWithin
  simp only [hA1, hA2, hrel]
  rcases hcase with ⟨hp, h1, h2, -⟩ | ⟨hp, h⟩
  · have h2' : ([dot, dot] ++ [Separator]).isPrefixOf rel = false := by
      rw [Bool.eq_false_iff]
      intro e
      exact h2 (by simpa using List.isPrefixOf_iff_prefix.mp e)
    simp [h1, h2, hp]
  · rcases h with h | h
    · simp [h, hp]
    · have h2' : ([dot, dot] ++ [Separator]).isPrefixOf rel = true :=
        List.isPrefixOf_iff_prefix.mpr (by simpa using h)
      by_cases h1 : rel = [dot, dot]
      · simp [h1, hp]
      · simp [h1, h, hp]

/-- Function `pathsafe.Join` against a rooted base: an absolute cleaned name is refused;
otherwise the destination is the cleaned join, accepted exactly when the elements of
the cleaned base lead its elements. -/
theorem Join_abs (getwd : Bytes × Option transform.Error) (b' name : Bytes) :
    Join getwd (Separator :: b') name =
      if IsAbs (Clean name) then ([], some ErrOutsideBase)
      else if normSegs [] b' <+: normSegs (normSegs [] b') (Clean name)
        then (renderAbs (normSegs (normSegs [] b') (Clean name)), none)
        else ([], some ErrOutsideBase) := by
  unfold Join
  by_cases ha : IsAbs (Clean name) = true
  · simp [ha]
  · simp only [ha, Bool.false_eq_true, if_false]
    rw [Join_rooted]
    have hbs : ∀ s ∈ normSegs (normSegs [] b') (Clean name), Normal s :=
      normSegs_normal _ _ (normSegs_normal [] b' (by simp))
    rw [isWithin_abs getwd b' _ hbs]
    by_cases hp : normSegs [] b' <+: normSegs (normSegs [] b') (Clean name)
    · simp [hp]
    · simp [hp]

end pathsafe
end Ooxmlx

namespace Ooxmlx
namespace filepath

theorem join_splitSep (p : Bytes) : stringsJoin (splitSep p) [Separator] = p := by
  induction p with
  | nil => simp [splitSep, stringsJoin]
  | cons c t ih =>
    have hne := splitSep_ne_nil t
    rcases hs : splitSep t with _ | ⟨s, ss⟩
    · exact absurd hs hne
    · rw [hs] at ih
      by_cases h : c = Separator
      · subst h
        rw [splitSep_sep, hs, stringsJoin_cons_cons, ih]
        simp
      · rw [splitSep_cons_ne c t h, hs]
        simp only [List.head!_cons, List.tail_cons]
        rcases ss with _ | ⟨s2, ss⟩
        · simp only [stringsJoin] at ih ⊢
          rw [ih]
        · rw [stringsJoin_cons_cons] at ih ⊢
          rw [← ih]
          simp

theorem foldl_stepR_push (segs : List Bytes) :
    ∀ acc : List Bytes, (∀ s ∈ segs, Normal s) → segs.foldl stepR acc = acc ++ segs := by
  induction segs with
  | nil => intro acc _; simp
  | cons a l ih =>
    intro acc hs
    rw [List.foldl_cons, stepR_push _ _ (hs a (by simp)), ih _ (fun s h => hs s (by simp [h]))]
    simp

theorem normSegs_ordinary (acc : List Bytes) (name : Bytes) (h : Ordinary name) :
    normSegs acc name = acc ++ splitSep name :=
  foldl_stepR_push _ acc h

theorem stringsJoin_append (as more : List Bytes) (h1 : as ≠ []) (h2 : more ≠ []) :
    stringsJoin (as ++ more) [Separator]
      = stringsJoin as [Separator] ++ Separator :: stringsJoin more [Separator] := by
  induction as with
  | nil => exact absurd rfl h1
  | cons a l ih =>
    rcases l with _ | ⟨b, l⟩
    · rcases more with _ | ⟨m, more⟩
      · exact absurd rfl h2
      · simp [stringsJoin]
    · have := ih (by simp)
      simp only [List.cons_append] at this ⊢
      rw [stringsJoin_cons_cons, this, stringsJoin_cons_cons]
      simp

/-- The loop of `Clean` on a relative path made of ordinary elements copies them. -/
theorem cleanLoop_ordinary (segs : List Bytes) :
    ∀ (stack : List Bytes) (fuel : Nat), (∀ s ∈ segs, Normal s) → (∀ s ∈ stack, Normal s) →
      (stringsJoin segs [Separator]).length ≤ fuel →
      cleanLoop false fuel (stringsJoin segs [Separator]) (stringsJoin stack [Separator]) 0
        = stringsJoin (stack ++ segs) [Separator] := by
  induction segs with
  | nil =>
    intro stack fuel _ _ _
    rcases fuel with _ | n <;> simp [stringsJoin, cleanLoop]
  | cons a l ih =>
    intro stack fuel hs hst hf
    have ha := hs a (by simp)
    obtain ⟨c, a', rfl⟩ : ∃ c a', a = c :: a' := by
      rcases a with _ | ⟨c, a'⟩
      · exact absurd rfl ha.1
      · exact ⟨c, a', rfl⟩
    have hc : c ≠ Separator := fun e => ha.2.1 (by simp [e])
    have hc' : IsPathSeparator c = false := by simp [IsPathSeparator, hc]
    have hpush : (if (False ∧ (stringsJoin stack [Separator]).length ≠ 1) ∨
          ((!false) = true ∧ (stringsJoin stack [Separator]).length ≠ 0)
          then stringsJoin stack [Separator] ++ [Separator] else stringsJoin stack [Separator])
          ++ (c :: a') = stringsJoin (stack ++ [c :: a']) [Separator] := by
      by_cases hemp : stack = []
      · subst hemp; simp [stringsJoin]
      · have := stringsJoin_length_pos stack [Separator] hemp (fun s h => (hst s h).1)
        have h0 : (stringsJoin stack [Separator]).length ≠ 0 := by omega
        rw [stringsJoin_snoc _ _ _ hemp]
        simp [h0]
    have hst' : ∀ s ∈ stack ++ [c :: a'], Normal s := by
      intro s h
      rcases List.mem_append.mp h with h | h
      · exact hst s h
      · simp only [List.mem_singleton] at h; subst h; exact ha
    rcases l with _ | ⟨b, l⟩
    · -- last element
      obtain ⟨-, -, e1, e2⟩ := takeWhile_sepfree (c :: a') [] ha.2.1
      have hrest : stringsJoin [c :: a'] [Separator] = c :: a' := rfl
      rw [hrest] at hf ⊢
      obtain ⟨n, rfl⟩ : ∃ n, fuel = n + 1 :=
        ⟨fuel - 1, by simp only [List.length_cons] at hf; omega⟩
      unfold cleanLoop
      simp only [hc', Bool.false_eq_true, if_false]
      have h2 : ¬ (c = dot ∧ (a'.length = 0 ∨ IsPathSeparator (a'.getD 0 0) = true)) := by
        intro h
        exact ha.2.2.1 (by rw [← e1]; exact ((cond_dot c a' hc).1 h).1)
      have h3 : ¬ (c = dot ∧ a'.getD 0 0 = dot ∧
          (a'.length = 1 ∨ IsPathSeparator (a'.getD 1 0) = true)) := by
        intro h
        exact ha.2.2.2 (by rw [← e1]; exact ((cond_dotdot c a' hc).1 h).1)
      rw [if_neg h2, if_neg h3, e1, e2, hpush]
      rcases n with _ | n <;> simp [cleanLoop]
    · have hj : stringsJoin ((c :: a') :: b :: l) [Separator]
          = (c :: a') ++ Separator :: stringsJoin (b :: l) [Separator] := by
        rw [stringsJoin_cons_cons]; simp
      obtain ⟨e1, e2, -, -⟩ :=
        takeWhile_sepfree (c :: a') (stringsJoin (b :: l) [Separator]) ha.2.1
      rw [hj] at hf ⊢
      obtain ⟨n, rfl⟩ : ∃ n, fuel = n + 2 :=
        ⟨fuel - 2, by simp only [List.length_append, List.length_cons] at hf; omega⟩
      rw [List.cons_append] at e1 e2 ⊢
      unfold cleanLoop
      simp only [hc', Bool.false_eq_true, if_false]
      have h2 : ¬ (c = dot ∧ ((a' ++ Separator :: stringsJoin (b :: l) [Separator]).length = 0 ∨
          IsPathSeparator ((a' ++ Separator :: stringsJoin (b :: l) [Separator]).getD 0 0)
            = true)) := by
        intro h
        exact ha.2.2.1 (by rw [← e1]; exact ((cond_dot c _ hc).1 h).1)
      have h3 : ¬ (c = dot ∧ (a' ++ Separator :: stringsJoin (b :: l) [Separator]).getD 0 0 = dot ∧
          ((a' ++ Separator :: stringsJoin (b :: l) [Separator]).length = 1 ∨
            IsPathSeparator ((a' ++ Separator :: stringsJoin (b :: l) [Separator]).getD 1 0)
              = true)) := by
        intro h
        exact ha.2.2.2 (by rw [← e1]; exact ((cond_dotdot c _ hc).1 h).1)
      rw [if_neg h2, if_neg h3, e1, e2, hpush]
      unfold cleanLoop
      simp only [IsPathSeparator, decide_True, if_true]
      have := ih (stack ++ [c :: a']) n (fun s h => hs s (by simp [h])) hst'
        (by simp only [List.length_append, List.length_cons] at hf; omega)
      rw [this]
      simp

/-- Function `Clean` leaves an ordinary relative name as it is. -/
theorem Clean_ordinary (name : Bytes) (h : Ordinary name) : Clean name = name := by
  have hj := join_splitSep name
  have hne := splitSep_ne_nil name
  have hpos := stringsJoin_length_pos (splitSep name) [Separator] hne (fun s hs => (h s hs).1)
  rw [hj] at hpos
  have hloop := cleanLoop_ordinary (splitSep name) [] name.length h (by simp) (by rw [hj])
  rw [hj] at hloop
  simp only [stringsJoin, List.nil_append] at hloop
  obtain ⟨c, t, rfl⟩ : ∃ c t, name = c :: t := by
    rcases name with _ | ⟨c, t⟩
    · simp at hpos
    · exact ⟨c, t, rfl⟩
  have hc : c ≠ Separator := by
    intro e
    subst e
    have := h [] (by rw [splitSep_sep]; simp)
    exact this.1 rfl
  unfold Clean
  simp only [List.cons_ne_nil, if_false, List.getD_cons_zero, IsPathSeparator, hc, decide_False,
    Bool.false_eq_true, hloop]
  rw [hj]
  simp

theorem IsAbs_ordinary (name : Bytes) (h : Ordinary name) : IsAbs name = false := by
  rcases name with _ | ⟨c, t⟩
  · simp [IsAbs]
  · by_cases hc : c = Separator
    · subst hc
      have := h [] (by rw [splitSep_sep]; simp)
      exact absurd rfl this.1
    · simp [IsAbs, hc]

end filepath
end Ooxmlx

namespace Ooxmlx
namespace pathsafe
open filepath

theorem renderAbs_append (as more : List Bytes) (h2 : more ≠ []) :
    renderAbs (as ++ more)
      = (if as = [] then [Separator] else renderAbs as ++ [Separator])
          ++ stringsJoin more [Separator] := by
  by_cases h1 : as = []
  · subst h1; simp [renderAbs]
  · simp [renderAbs, stringsJoin_append as more h1 h2, h1]

/-- C1, amended: when `pathsafe.Join` returns a path for an absolute base and any entry
name, the path lies inside the base: the relative path from the cleaned base to it is
neither `..` nor begins with `../`, and the path is the cleaned base, or has the cleaned
base followed by a separator as a prefix, or the cleaned base is the root `/` and the
path begins with it. -/
theorem Join_inside_base (getwd : Bytes × Option transform.Error) (base name p : Bytes)
    (hb : IsAbs base = true) (h : Join getwd base name = (p, none)) :
    (∃ rel, Rel (Clean base) p = (rel, none) ∧ rel ≠ [dot, dot] ∧
        ¬ [dot, dot, Separator] <+: rel) ∧
    (p = Clean base ∨ (Clean base ++ [Separator]) <+: p ∨
      (Clean base = [Separator] ∧ [Separator] <+: p)) := by
  obtain ⟨b', rfl⟩ := (IsAbs_iff base).1 hb
  rw [Join_abs] at h
  have has : ∀ s ∈ normSegs [] b', Normal s := normSegs_normal [] b' (by simp)
  have hbs : ∀ s ∈ normSegs (normSegs [] b') (Clean name), Normal s := normSegs_normal _ _ has
  by_cases ha : IsAbs (Clean name) = true
  · rw [if_pos ha] at h; simp at h
  · rw [if_neg ha] at h
    by_cases hp : normSegs [] b' <+: normSegs (normSegs [] b') (Clean name)
    · rw [if_pos hp] at h
      simp only [Prod.mk.injEq, and_true] at h
      subst h
      rw [Clean_rooted]
      constructor
      · obtain ⟨rel, hrel, hcase⟩ := Rel_renderAbs _ _ has hbs
        rcases hcase with ⟨-, h1, h2, -⟩ | ⟨hn, -⟩
        · exact ⟨rel, hrel, h1, h2⟩
        · exact absurd hp hn
      · obtain ⟨more, hmore⟩ := hp
        rw [← hmore]
        by_cases hm : more = []
        · left; simp [hm]
        · right
          rw [renderAbs_append _ _ hm]
          by_cases he : normSegs [] b' = []
          · right
            rw [he]
            simp [renderAbs, stringsJoin]
          · left
            rw [if_neg he]
            exact List.prefix_append _ _
    · rw [if_neg hp] at h; simp at h

/-- C1, witness: base `/tmp/out`, entry name `a/../b`. -/
theorem Join_inside_base_witness :
    Join ([], none) (lit "/tmp/out") (lit "a/../b") = (lit "/tmp/out/b", none) ∧
    (Clean (lit "/tmp/out") ++ [Separator]) <+: lit "/tmp/out/b" :=
  ⟨by decide,
    ((Join_inside_base ([], none) (lit "/tmp/out") (lit "a/../b") (lit "/tmp/out/b")
      (by decide) (by decide)).2.resolve_left (by decide)).resolve_right (by decide)⟩

/-- C1, counterexample: against the root base `/` the entry `foo` is accepted as `/foo`,
which is not the cleaned base `/` and does not have `//` as a prefix. -/
theorem Join_root_counterexample :
    IsAbs (lit "/") = true ∧
    Join ([], none) (lit "/") (lit "foo") = (lit "/foo", none) ∧
    ¬ (lit "/foo" = Clean (lit "/") ∨ (Clean (lit "/") ++ [Separator]) <+: lit "/foo") := by
  decide

/-- C8: for an absolute base and an ordinary relative entry name, `pathsafe.Join`
succeeds and returns `filepath.Join(base, name)`, which is the cleaned base, a separator
(none after the root) and the name: a strict descendant of the base, at the relative
path `name`. -/
theorem Join_ordinary_name (getwd : Bytes × Option transform.Error) (base name : Bytes)
    (hb : IsAbs base = true) (hn : Ordinary name) :
    Join getwd base name = (filepath.Join [base, name], none) ∧
    filepath.Join [base, name]
      = (if Clean base = [Separator] then Clean base else Clean base ++ [Separator]) ++ name ∧
    filepath.Join [base, name] ≠ Clean base ∧
    Rel (Clean base) (filepath.Join [base, name]) = (name, none) := by
  obtain ⟨b', rfl⟩ := (IsAbs_iff base).1 hb
  have has : ∀ s ∈ normSegs [] b', Normal s := normSegs_normal [] b' (by simp)
  have hne := splitSep_ne_nil name
  have hj := join_splitSep name
  have hbs : ∀ s ∈ normSegs [] b' ++ splitSep name, Normal s := by
    intro s h
    rcases List.mem_append.mp h with h | h
    · exact has s h
    · exact hn s h
  have hpos := stringsJoin_length_pos (splitSep name) [Separator] hne (fun s hs => (hn s hs).1)
  rw [hj] at hpos
  have hJ : filepath.Join [Separator :: b', name]
      = renderAbs (normSegs [] b' ++ splitSep name) := by
    rw [Join_rooted, normSegs_ordinary _ _ hn]
  have hshape : renderAbs (normSegs [] b' ++ splitSep name)
      = (if renderAbs (normSegs [] b') = [Separator] then renderAbs (normSegs [] b')
          else renderAbs (normSegs [] b') ++ [Separator]) ++ name := by
    rw [renderAbs_append _ _ hne, hj]
    by_cases he : normSegs [] b' = []
    · simp [he, renderAbs, stringsJoin]
    · have h1 : renderAbs (normSegs [] b') ≠ [Separator] := by
        intro e
        have := (renderAbs_length_eq_one _ (fun s h => (has s h).1)).1 (by rw [e]; rfl)
        exact he this
      rw [if_neg he, if_neg h1]
  have hneq : renderAbs (normSegs [] b' ++ splitSep name) ≠ renderAbs (normSegs [] b') := by
    intro e
    have := renderAbs_inj _ _ hbs has e
    have hl := congrArg List.length this
    have : (splitSep name).length = 0 := by simp only [List.length_append] at hl; omega
    exact hne (List.length_eq_zero.mp this)
  refine ⟨?_, ?_, ?_, ?_⟩
  · rw [Join_abs, Clean_ordinary name hn, IsAbs_ordinary name hn, normSegs_ordinary _ _ hn, hJ]
    simp
  · rw [hJ, Clean_rooted]; exact hshape
  · rw [hJ, Clean_rooted]; exact hneq
  · rw [hJ, Clean_rooted]
    obtain ⟨rel, hrel, hcase⟩ := Rel_renderAbs _ _ has hbs
    rcases hcase with ⟨-, -, -, ⟨-, e⟩ | ⟨-, e⟩⟩ | ⟨hnp, -⟩
    · exact absurd (congrArg renderAbs e.symm) hneq
    · rw [hrel, e]
      simp [hj]
    · exact absurd (List.prefix_append _ _) hnp

/-- C8, witness: base `/tmp/out` and name `folder/nested.xml` give
`/tmp/out/folder/nested.xml`. -/
theorem Join_ordinary_name_witness :
    IsAbs (lit "/tmp/out") = true ∧ Ordinary (lit "folder/nested.xml") ∧
    Join ([], none) (lit "/tmp/out") (lit "folder/nested.xml")
      = (lit "/tmp/out/folder/nested.xml", none) :=
  ⟨by decide, by decide,
    (Join_ordinary_name ([], none) (lit "/tmp/out") (lit "folder/nested.xml")
      (by decide) (by decide)).1.trans (by decide)⟩

end pathsafe
end Ooxmlx

namespace Ooxmlx
namespace utf8

theorem DecodeRune_size_le (p0 : Nat) (rest : Bytes) :
    (DecodeRune (p0 :: rest)).2 ≤ rest.length + 1 := by
  rcases DecodeRune_cons p0 rest with ⟨h, _⟩ | h | ⟨_, _, rfl, _, _, _, h⟩ |
    ⟨_, _, _, _, rfl, _, _, _, _, h⟩ | ⟨_, _, _, _, _, rfl, _, _, _, _, _, h⟩ <;>
    rw [h] <;> simp

/-- One iteration of the loop of `Valid` agrees with `DecodeRune`. -/
theorem validLoop_cons (fuel : Nat) (pi : Nat) (rest : Bytes) :
    validLoop (fuel + 1) (pi :: rest) =
      if (DecodeRune (pi :: rest)).1 = RuneError ∧ (DecodeRune (pi :: rest)).2 = 1 then false
      else validLoop fuel ((pi :: rest).drop (DecodeRune (pi :: rest)).2) := by
  obtain ⟨c1, c2, ⟨c3, c4⟩, ⟨c5, c6⟩, ⟨c7, c8⟩, ⟨c9, c10⟩, ⟨c11, c12⟩, ⟨c13, c14⟩, c15, c16⟩ :=
    bits_consts
  conv_lhs => rw [validLoop]
  unfold DecodeRune
  rcases first_cases pi with ⟨h, hf⟩ | ⟨h, hf⟩ | ⟨h, h', hf⟩ | ⟨h, hf⟩ | ⟨h, h', h'', hf⟩ |
    ⟨h, hf⟩ | ⟨h, hf⟩ | ⟨h, h', hf⟩ | ⟨h, hf⟩
  · have : pi ≠ RuneError := by simp only [RuneError]; omega
    simp [hf, as, c1, h, RuneSelf, this]
  · have : ¬ pi < RuneSelf := by simp only [RuneSelf]; omega
    simp [hf, as, c2, this, xx]
  · -- two bytes
    have hn : ¬ pi < RuneSelf := by simp only [RuneSelf]; omega
    simp only [hf, as, xx, c3, c4, acceptRanges, locb, hicb, hn]
    rcases rest with _ | ⟨b1, t⟩
    · simp
    · by_cases hb : b1 < 0x80 ∨ 0xBF < b1
      · simp [hb]
      · have hl : ¬ (t.length + 1 + 1 < 2) := by omega
        simp [hb, hl]
  · -- three bytes
    have hn : ¬ pi < RuneSelf := by simp only [RuneSelf]; omega
    simp only [hf, as, xx, c5, c6, acceptRanges, locb, hicb, hn]
    rcases rest with _ | ⟨b1, _ | ⟨b2, t⟩⟩
    · simp
    · simp
    · by_cases hb : b1 < 0xA0 ∨ 0xBF < b1
      · simp [hb]
      · by_cases hb2 : b2 < 0x80 ∨ 0xBF < b2
        · simp [hb, hb2]
        · have hl : ¬ (t.length + 1 + 1 + 1 < 3) := by omega
          simp [hb, hb2, hl]
  · -- three bytes
    have hn : ¬ pi < RuneSelf := by simp only [RuneSelf]; omega
    simp only [hf, as, xx, c7, c8, acceptRanges, locb, hicb, hn]
    rcases rest with _ | ⟨b1, _ | ⟨b2, t⟩⟩
    · simp
    · simp
    · by_cases hb : b1 < 0x80 ∨ 0xBF < b1
      · simp [hb]
      · by_cases hb2 : b2 < 0x80 ∨ 0xBF < b2
        · simp [hb, hb2]
        · have hl : ¬ (t.length + 1 + 1 + 1 < 3) := by omega
          simp [hb, hb2, hl]
  · -- three bytes
    have hn : ¬ pi < RuneSelf := by simp only [RuneSelf]; omega
    simp only [hf, as, xx, c9, c10, acceptRanges, locb, hicb, hn]
    rcases rest with _ | ⟨b1, _ | ⟨b2, t⟩⟩
    · simp
    · simp
    · by_cases hb : b1 < 0x80 ∨ 0x9F < b1
      · simp [hb]
      · by_cases hb2 : b2 < 0x80 ∨ 0xBF < b2
        · simp [hb, hb2]
        · have hl : ¬ (t.length + 1 + 1 + 1 < 3) := by omega
          simp [hb, hb2, hl]
  · -- four bytes
    have hn : ¬ pi < RuneSelf := by simp only [RuneSelf]; omega
    simp only [hf, as, xx, c11, c12, acceptRanges, locb, hicb, hn]
    rcases rest with _ | ⟨b1, _ | ⟨b2, _ | ⟨b3, t⟩⟩⟩
    · simp
    · simp
    · simp
    · by_cases hb : b1 < 0x90 ∨ 0xBF < b1
      · simp [hb]
      · by_cases hb2 : b2 < 0x80 ∨ 0xBF < b2
        · simp [hb, hb2]
        · by_cases hb3 : b3 < 0x80 ∨ 0xBF < b3
          · simp [hb, hb2, hb3]
          · have hl : ¬ (t.length + 1 + 1 + 1 + 1 < 4) := by omega
            simp [hb, hb2, hb3, hl]
  · -- four bytes
    have hn : ¬ pi < RuneSelf := by simp only [RuneSelf]; omega
    simp only [hf, as, xx, c13, c14, acceptRanges, locb, hicb, hn]
    rcases rest with _ | ⟨b1, _ | ⟨b2, _ | ⟨b3, t⟩⟩⟩
    · simp
    · simp
    · simp
    · by_cases hb : b1 < 0x80 ∨ 0xBF < b1
      · simp [hb]
      · by_cases hb2 : b2 < 0x80 ∨ 0xBF < b2
        · simp [hb, hb2]
        · by_cases hb3 : b3 < 0x80 ∨ 0xBF < b3
          · simp [hb, hb2, hb3]
          · have hl : ¬ (t.length + 1 + 1 + 1 + 1 < 4) := by omega
            simp [hb, hb2, hb3, hl]
  · -- four bytes
    have hn : ¬ pi < RuneSelf := by simp only [RuneSelf]; omega
    simp only [hf, as, xx, c15, c16, acceptRanges, locb, hicb, hn]
    rcases rest with _ | ⟨b1, _ | ⟨b2, _ | ⟨b3, t⟩⟩⟩
    · simp
    · simp
    · simp
    · by_cases hb : b1 < 0x80 ∨ 0x8F < b1
      · simp [hb]
      · by_cases hb2 : b2 < 0x80 ∨ 0xBF < b2
        · simp [hb, hb2]
        · by_cases hb3 : b3 < 0x80 ∨ 0xBF < b3
          · simp [hb, hb2, hb3]
          · have hl : ¬ (t.length + 1 + 1 + 1 + 1 < 4) := by omega
            simp [hb, hb2, hb3, hl]

end utf8

namespace xmlutil
open utf8 transform

theorem ValidUTF8_nil : ValidUTF8 [] := by
  intro u hu
  simp [units] at hu

theorem ValidUTF8_cons (b : Nat) (rest : Bytes) :
    ValidUTF8 (b :: rest) ↔
      ¬ ((DecodeRune (b :: rest)).1 = RuneError ∧ (DecodeRune (b :: rest)).2 = 1) ∧
        ValidUTF8 ((b :: rest).drop (DecodeRune (b :: rest)).2) := by
  have hs := DecodeRune_size_pos b rest
  have hle := DecodeRune_size_le b rest
  obtain ⟨-, h2⟩ := take_size b rest _ hs
  have hlen : (b :: rest.take ((DecodeRune (b :: rest)).2 - 1)).length = (DecodeRune (b :: rest)).2 := by
    simp only [List.length_cons, List.length_take]; omega
  unfold ValidUTF8
  rw [units_cons, h2]
  simp only [List.mem_cons, forall_eq_or_imp, hlen]

theorem validLoop_iff (fuel : Nat) :
    ∀ p : Bytes, p.length ≤ fuel → (validLoop fuel p = true ↔ ValidUTF8 p) := by
  induction fuel with
  | zero =>
    intro p h
    have : p = [] := List.length_eq_zero.mp (by omega)
    subst this
    simp [validLoop, ValidUTF8_nil]
  | succ n ih =>
    intro p h
    rcases p with _ | ⟨b, rest⟩
    · simp [validLoop, ValidUTF8_nil]
    · have hs := DecodeRune_size_pos b rest
      have hlen : ((b :: rest).drop (DecodeRune (b :: rest)).2).length ≤ n := by
        simp only [List.length_drop, List.length_cons] at h ⊢; omega
      rw [validLoop_cons, ValidUTF8_cons]
      by_cases he : (DecodeRune (b :: rest)).1 = RuneError ∧ (DecodeRune (b :: rest)).2 = 1
      · simp [he]
      · rw [if_neg he, ih _ hlen]
        simp [he]

theorem ValidUTF8_ascii_append (pre q : Bytes) (h : ∀ b ∈ pre, b < RuneSelf) :
    ValidUTF8 (pre ++ q) ↔ ValidUTF8 q := by
  induction pre with
  | nil => simp
  | cons b t ih =>
    have hb : b < 0x80 := h b (by simp)
    rw [List.cons_append, ValidUTF8_cons, DecodeRune_ascii b _ hb]
    have : b ≠ RuneError := by simp only [RuneError]; omega
    simp [this, ih (fun x hx => h x (by simp [hx]))]

theorem skipASCII8_spec (fuel : Nat) :
    ∀ p : Bytes, ∃ pre, p = pre ++ skipASCII8 fuel p ∧ ∀ b ∈ pre, b < RuneSelf := by
  induction fuel with
  | zero => intro p; exact ⟨[], by simp [skipASCII8]⟩
  | succ n ih =>
    intro p
    unfold skipASCII8
    by_cases h8 : 8 ≤ p.length
    · rw [if_pos h8]
      by_cases ha : (p.take 8).any (fun b => decide (RuneSelf ≤ b)) = true
      · rw [if_pos ha]; exact ⟨[], by simp⟩
      · rw [if_neg ha]
        obtain ⟨pre, hp, hpre⟩ := ih (p.drop 8)
        refine ⟨p.take 8 ++ pre, ?_, ?_⟩
        · rw [List.append_assoc, ← hp, List.take_append_drop]
        · intro b hb
          rcases List.mem_append.mp hb with hb | hb
          · simp only [List.any_eq_true, decide_eq_true_eq, not_exists, not_and, not_le] at ha
            exact ha b hb
          · exact hpre b hb
    · rw [if_neg h8]; exact ⟨[], by simp⟩

/-- Function `utf8.Valid` accepts exactly the byte strings without an invalid byte. -/
theorem Valid_iff (p : Bytes) : Valid p = true ↔ ValidUTF8 p := by
  obtain ⟨pre, hp, hpre⟩ := skipASCII8_spec p.length p
  unfold Valid
  simp only
  rw [validLoop_iff _ _ (Nat.le_refl _)]
  conv_rhs => rw [hp]
  rw [ValidUTF8_ascii_append pre _ hpre]

theorem TrimLeftFunc_eq (fuel : Nat) :
    ∀ s : Bytes, s.length ≤ fuel →
      strings.TrimLeftFunc isSpaceRune fuel s = trimLeadingSpace s := by
  induction fuel with
  | zero =>
    intro s h
    have : s = [] := List.length_eq_zero.mp (by omega)
    subst this
    simp [strings.TrimLeftFunc, trimLeadingSpace]
  | succ n ih =>
    intro s h
    rcases s with _ | ⟨b, t⟩
    · simp [strings.TrimLeftFunc, trimLeadingSpace]
    · have hlt : t.length ≤ n := by simp only [List.length_cons] at h; omega
      unfold strings.TrimLeftFunc
      simp only [List.length_cons, Nat.add_one_ne_zero, if_false]
      by_cases hb : b < 0x80
      · rw [DecodeRune_ascii b t hb]
        simp only [List.drop_succ_cons, List.drop_zero]
        by_cases hsp : isSpaceRune b = true
        · rw [if_pos hsp, ih t hlt]
          have : (b = 0x20 ∨ b = 0x09 ∨ b = 0x0D ∨ b = 0x0A) := by
            simp only [isSpaceRune, Bool.or_eq_true, decide_eq_true_eq, Bool.decide_or] at hsp
            omega
          simp [trimLeadingSpace, List.dropWhile, this]
        · rw [if_neg hsp]
          have : ¬ (b = 0x20 ∨ b = 0x09 ∨ b = 0x0D ∨ b = 0x0A) := by
            simp only [isSpaceRune, Bool.or_eq_true, decide_eq_true_eq, Bool.decide_or] at hsp
            omega
          simp [trimLeadingSpace, List.dropWhile, this]
      · have hr := DecodeRune_nonascii b t (by omega)
        have hsp : ¬ isSpaceRune (DecodeRune (b :: t)).1 = true := by
          simp only [isSpaceRune, Bool.or_eq_true, decide_eq_true_eq, Bool.decide_or]
          omega
        have : ¬ (b = 0x20 ∨ b = 0x09 ∨ b = 0x0D ∨ b = 0x0A) := by omega
        rw [if_neg hsp]
        simp [trimLeadingSpace, List.dropWhile, this]

theorem stringsIndex_single (s : Bytes) (c : Nat) :
    (xml.stringsIndex s [c]).isSome = true ↔ c ∈ s := by
  induction s with
  | nil => simp [xml.stringsIndex]
  | cons x t ih =>
    unfold xml.stringsIndex
    by_cases hx : x = c
    · subst hx; simp [List.isPrefixOf]
    · have : ([c].isPrefixOf (x :: t)) = false := by
        simp [List.isPrefixOf, Ne.symm hx]
      have hx' : ¬ c = x := fun e => hx e.symm
      simp only [this, Bool.false_eq_true, if_false, Option.isSome_map', ih, List.mem_cons, hx',
        false_or]

/-- Function `looksLikeXML` decides the property `LikelyXML`. -/
theorem looksLikeXML_iff (data : Bytes) : looksLikeXML data = true ↔ LikelyXML data := by
  unfold looksLikeXML LikelyXML
  rw [TrimLeftFunc_eq _ _ (Nat.le_refl _)]
  by_cases hv : Valid data = true
  · have hv' := (Valid_iff data).1 hv
    simp only [hv, Bool.not_true, Bool.false_eq_true, if_false, hv', true_and]
    rcases ht : trimLeadingSpace data with _ | ⟨c, t⟩
    · simp [lit]
    · simp only [List.cons_ne_nil, if_false, strings.HasPrefix, strings.Contains,
        xml.bytesContains, List.head?_cons, List.tail_cons, Option.some.injEq]
      by_cases hp : (lit "<?xml").isPrefixOf (c :: t) = true
      · simp [hp, List.isPrefixOf_iff_prefix.mp hp]
      · have hp' : ¬ lit "<?xml" <+: c :: t := fun e => hp (List.isPrefixOf_iff_prefix.mpr e)
        simp only [hp, Bool.false_eq_true, if_false, hp', false_or]
        have hlt : (lit ">") = [0x3E] := by decide
        have hl : (lit "<").isPrefixOf (c :: t) = true ↔ c = 0x3C := by
          have : lit "<" = [0x3C] := by decide
          rw [this]
          constructor
          · intro e
            have := List.isPrefixOf_iff_prefix.mp e
            simpa using (List.cons_prefix_cons.mp this).1.symm
          · rintro rfl
            exact List.isPrefixOf_iff_prefix.mpr (by simp)
        rw [hlt]
        by_cases hc : c = 0x3C
        · subst hc
          have h1 : (xml.stringsIndex (0x3C :: t) [0x3E]).isSome = true ↔ 0x3E ∈ t := by
            rw [stringsIndex_single]; simp
          simp [hl, h1]
        · simp [hl, hc]
  · have hv' : ¬ ValidUTF8 data := fun e => hv ((Valid_iff data).2 e)
    simp [hv, hv']

/-- C7: for every byte sequence that is not likely XML - it is not valid UTF-8, or after
its leading spaces, tabs, carriage returns and newlines it neither starts with `<?xml`
nor starts with `<` with a `>` somewhere after it - `TryPrettify` returns the input
unchanged with `applied = false` and no error, whatever the options. -/
theorem TryPrettify_not_xml (name data : Bytes) (opts : Options) (h : ¬ LikelyXML data) :
    TryPrettify name data opts = (data, false, none) := by
  have hl : looksLikeXML data = false := by
    rw [Bool.eq_false_iff]
    exact fun e => h ((looksLikeXML_iff data).1 e)
  simp [TryPrettify, hl]

/-- C7, witness: the input `plain text` with the zero `Options`. -/
theorem TryPrettify_not_xml_witness :
    ¬ LikelyXML (lit "plain text") ∧
    TryPrettify (lit "text.txt") (lit "plain text")
        { Indent := [], Encoding := [], IncludeDeclaration := false }
      = (lit "plain text", false, none) :=
  have h : ¬ LikelyXML (lit "plain text") := fun hl => by
    have := hl.2
    revert this
    decide
  ⟨h, TryPrettify_not_xml _ _ _ h⟩

end xmlutil
end Ooxmlx

namespace Ooxmlx
namespace extract
open transform (Error)
open filepath

/-- C3, amended: when `TryPrettify` returns an error on the transformed bytes of a file
entry, `processFile` returns that error in the state the transform left: the parent
directory is made, nothing is written and nothing is logged; `Extract` stops at the
entry with the error wrapped in `extract <name>: `. -/
theorem processFile_parse_error {σ : Type} (os : OS σ) (ctx : Nat → Option Error)
    (file : zipwrap.File) (rest : List zipwrap.File) (opts : Options σ)
    (tr : transform.Transformer σ) (i : Nat) (s s1 s2 : σ)
    (safePath data transformed junk : Bytes) (applied : Bool) (err : Error)
    (hj : pathsafe.Join (os.Getwd s) opts.Destination file.Name = (safePath, none))
    (hd : file.IsDir = false)
    (hm : os.MkdirAll (Dir safePath) 0o755 s = (none, s1))
    (ho : file.Open = ((data, none), none))
    (ht : tr.Transform file.Name data s1 = ((transformed, none), s2))
    (hp : xmlutil.TryPrettify file.Name transformed
            { Indent := opts.Indent, Encoding := opts.Encoding,
              IncludeDeclaration := hasXMLDeclaration transformed }
          = (junk, applied, some err))
    (hc : ctx i = none) :
    processFile os file opts tr s = (some err, s2) ∧
    extractLoop os ctx opts tr i (file :: rest) s
      = (some (Error.Wrap ("extract " ++ String.mk (file.Name.map Char.ofNat)) err), s2) := by
  have h1 : processFile os file opts tr s = (some err, s2) := by
    simp [processFile, hj, hd, hm, ho, ht, hp]
  exact ⟨h1, by simp [extractLoop, hc, h1]⟩

/-- C3, witness: the entry `bad.xml` with content `<a><b></a>`. -/
theorem processFile_parse_error_witness :
    processFile (recordingOS []) (fileEntry (lit "bad.xml") (lit "<a><b></a>"))
        (testOptions (lit "/tmp/out")) (transform.Nop _) []
      = (some (xml.syntaxError "element closed by another"),
          [Effect.MkdirAll (lit "/tmp/out") 0o755]) :=
  (processFile_parse_error (recordingOS []) (fun _ => none)
    (fileEntry (lit "bad.xml") (lit "<a><b></a>")) [] (testOptions (lit "/tmp/out"))
    (transform.Nop _) 0 [] [Effect.MkdirAll (lit "/tmp/out") 0o755]
    [Effect.MkdirAll (lit "/tmp/out") 0o755] (lit "/tmp/out/bad.xml") (lit "<a><b></a>")
    (lit "<a><b></a>") (lit "<a><b></a>") false (xml.syntaxError "element closed by another")
    (by decide) (by decide) (by decide) (by decide) (by decide) (by decide) rfl).1

/-- C3, counterexample: on `<a><b></a>` `TryPrettify` returns a parse error, and
`processFile` returns it: the only call recorded is the `MkdirAll` of the parent
directory, no file is written. -/
theorem processFile_malformed_counterexample :
    xmlutil.TryPrettify (lit "bad.xml") (lit "<a><b></a>")
        { Indent := lit "  ", Encoding := lit "utf-8", IncludeDeclaration := false }
      = (lit "<a><b></a>", false, some (xml.syntaxError "element closed by another")) ∧
    processFile (recordingOS []) (fileEntry (lit "bad.xml") (lit "<a><b></a>"))
        (testOptions (lit "/tmp/out")) (transform.Nop _) []
      = (some (xml.syntaxError "element closed by another"),
          [Effect.MkdirAll (lit "/tmp/out") 0o755]) ∧
    (Extract (recordingOS [fileEntry (lit "bad.xml") (lit "<a><b></a>")]) (fun _ => none)
        (lit "sample.zip") (testOptions (lit "/tmp/out")) []).1
      = some (Error.Wrap "extract bad.xml" (xml.syntaxError "element closed by another")) := by
  decide

end extract
end Ooxmlx

namespace Ooxmlx
namespace xml
open transform (Error)
open utf8

/-! ### The encoder only appends -/

theorem WriteString_w (p : Encoder) (s : Bytes) : (p.WriteString s).w = p.w ++ s := rfl

theorem WriteByte_w (p : Encoder) (c : Nat) : (p.WriteByte c).w = p.w ++ [c] := rfl

theorem EscapeString_w (p : Encoder) (s : Bytes) :
    (p.EscapeString s).w = p.w ++ escapeText s true := rfl

theorem writeIndent_w (p : Encoder) (up : Bool) : p.w <+: (p.writeIndent up).w := by
  rcases p with ⟨w, pfx, indent, depth, indentedIn, putNewline, tags, seq, ans, apf, prs⟩
  cases up <;> cases indentedIn <;> cases putNewline <;> rcases pfx with _ | ⟨a, pfx⟩ <;>
    rcases indent with _ | ⟨b, indent⟩ <;>
    simp [Encoder.writeIndent, Encoder.WriteByte, Encoder.WriteString]

theorem createAttrPrefix_w (p q : Encoder) (url pr : Bytes)
    (h : p.createAttrPrefix url = .ok (q, pr)) : p.w <+: q.w := by
  unfold Encoder.createAttrPrefix at h
  split_ifs at h
  · simp only [Except.ok.injEq, Prod.mk.injEq] at h
    rw [← h.1]
  · simp only [Except.ok.injEq, Prod.mk.injEq] at h
    rw [← h.1]
  · dsimp only at h
    split_ifs at h
    all_goals
      split at h
      · simp at h
      · simp only [Except.ok.injEq, Prod.mk.injEq] at h
        rw [← h.1]
        simp [Encoder.WriteString, Encoder.EscapeString]

theorem popPrefixLoop_w (l : List Bytes) : ∀ p : Encoder, (popPrefixLoop p l).w = p.w := by
  induction l with
  | nil => intro p; rfl
  | cons a rest ih =>
    intro p
    simp only [popPrefixLoop]
    split_ifs
    · rfl
    · rw [ih]; rfl

theorem popPrefix_w (p : Encoder) : p.popPrefix.w = p.w := popPrefixLoop_w _ _

theorem writeAttrs_w (attr : List Attr) :
    ∀ (p q : Encoder) (e : Option Error), p.writeAttrs attr = (q, e) → p.w <+: q.w := by
  induction attr with
  | nil =>
    intro p q e h
    simp only [Encoder.writeAttrs, Prod.mk.injEq] at h
    rw [← h.1]
  | cons a rest ih =>
    intro p q e h
    unfold Encoder.writeAttrs at h
    by_cases h1 : a.Name.Local = []
    · rw [if_pos h1] at h
      exact ih p q e h
    · rw [if_neg h1] at h
      simp only at h
      by_cases h2 : a.Name.Space ≠ []
      · rw [if_pos h2] at h
        cases hc : (p.WriteByte 0x20).createAttrPrefix a.Name.Space with
        | error err =>
          rw [hc] at h
          simp only [Prod.mk.injEq] at h
          rw [← h.1]
          simp [Encoder.WriteByte]
        | ok r =>
          obtain ⟨p2, pr⟩ := r
          rw [hc] at h
          simp only at h
          have h3 := createAttrPrefix_w _ _ _ _ hc
          have h4 := ih _ q e h
          refine List.IsPrefix.trans ?_ h4
          simp only [WriteByte_w, WriteString_w, EscapeString_w, List.append_assoc]
          refine List.IsPrefix.trans ?_ (List.prefix_append _ _)
          refine List.IsPrefix.trans ?_ h3
          simp [Encoder.WriteByte]
      · rw [if_neg h2] at h
        simp only at h
        have h4 := ih _ q e h
        refine List.IsPrefix.trans ?_ h4
        simp [Encoder.WriteByte, Encoder.WriteString, Encoder.EscapeString]

theorem writeStart_w (p q : Encoder) (nm : Name) (attr : List Attr) (e : Option Error)
    (h : p.writeStart nm attr = (q, e)) : p.w <+: q.w := by
  unfold Encoder.writeStart at h
  by_cases h1 : nm.Local = []
  · rw [if_pos h1] at h
    simp only [Prod.mk.injEq] at h
    rw [← h.1]
  · rw [if_neg h1] at h
    simp only at h
    have hi := writeIndent_w { p with tags := nm :: p.tags, prefixes := [] :: p.prefixes } true
    have hi' : p.w <+: (Encoder.writeIndent
      { p with tags := nm :: p.tags, prefixes := [] :: p.prefixes } true).w := hi
    split at h
    · rename_i p4 err ha
      simp only [Prod.mk.injEq] at h
      rw [← h.1]
      refine List.IsPrefix.trans ?_ (writeAttrs_w _ _ _ _ ha)
      split_ifs
      · simp only [WriteByte_w, WriteString_w, EscapeString_w, List.append_assoc]
        exact List.IsPrefix.trans hi' (List.prefix_append _ _)
      · simp only [WriteByte_w, WriteString_w, List.append_assoc]
        exact List.IsPrefix.trans hi' (List.prefix_append _ _)
    · rename_i p4 ha
      simp only [Prod.mk.injEq] at h
      rw [← h.1]
      refine List.IsPrefix.trans ?_ (List.IsPrefix.trans (writeAttrs_w _ _ _ _ ha) ?_)
      · split_ifs
        · simp only [WriteByte_w, WriteString_w, EscapeString_w, List.append_assoc]
          exact List.IsPrefix.trans hi' (List.prefix_append _ _)
        · simp only [WriteByte_w, WriteString_w, List.append_assoc]
          exact List.IsPrefix.trans hi' (List.prefix_append _ _)
      · simp [WriteByte_w]

theorem writeEnd_w (p q : Encoder) (nm : Name) (e : Option Error)
    (h : p.writeEnd nm = (q, e)) : p.w <+: q.w := by
  unfold Encoder.writeEnd at h
  by_cases h1 : nm.Local = []
  · rw [if_pos h1] at h
    simp only [Prod.mk.injEq] at h
    rw [← h.1]
  · rw [if_neg h1] at h
    rcases ht : p.tags with _ | ⟨top, tags⟩
    · rw [ht] at h
      simp only [Prod.mk.injEq] at h
      rw [← h.1]
    · rw [ht] at h
      simp only at h
      split_ifs at h
      · simp only [Prod.mk.injEq] at h; rw [← h.1]
      · simp only [Prod.mk.injEq] at h; rw [← h.1]
      · simp only [Prod.mk.injEq] at h
        rw [← h.1]
        have hi := writeIndent_w { p with tags := tags } false
        have hi' : p.w <+: (Encoder.writeIndent { p with tags := tags } false).w := hi
        simp only [popPrefix_w, WriteByte_w, WriteString_w, List.append_assoc]
        exact List.IsPrefix.trans hi' (List.prefix_append _ _)

/-- Function `EncodeToken` only appends to the bytes written; for character data it appends
`escapeText` of the data. -/
theorem EncodeToken_w (p q : Encoder) (t : Token) (e : Option Error)
    (h : p.EncodeToken t = (q, e)) :
    p.w <+: q.w ∧ ∀ D, t = Token.CharData D → q.w = p.w ++ escapeText D false := by
  rcases t with ⟨nm, attr⟩ | nm | data | data | ⟨target, inst⟩ | data
  · exact ⟨writeStart_w p q nm attr e h, fun D hD => by simp at hD⟩
  · exact ⟨writeEnd_w p q nm e h, fun D hD => by simp at hD⟩
  · simp only [Encoder.EncodeToken, Prod.mk.injEq] at h
    rw [← h.1]
    refine ⟨by simp [WriteString_w], fun D hD => ?_⟩
    simp only [Token.CharData.injEq] at hD
    rw [hD, WriteString_w]
  · refine ⟨?_, fun D hD => by simp at hD⟩
    simp only [Encoder.EncodeToken] at h
    split_ifs at h <;> simp only [Prod.mk.injEq] at h <;> rw [← h.1]
    simp [WriteString_w]
  · refine ⟨?_, fun D hD => by simp at hD⟩
    simp only [Encoder.EncodeToken] at h
    split_ifs at h <;> simp only [Prod.mk.injEq] at h <;> rw [← h.1] <;>
      simp [WriteString_w, WriteByte_w]
  · refine ⟨?_, fun D hD => by simp at hD⟩
    simp only [Encoder.EncodeToken] at h
    split_ifs at h <;> simp only [Prod.mk.injEq] at h <;> rw [← h.1]
    simp [WriteString_w]

end xml
end Ooxmlx

namespace Ooxmlx
namespace xml
open transform (Error)
open utf8

theorem text_check (q : Option Nat) (c : Bool) (input data rest : Bytes)
    (h : text q c input = .ok (data, rest)) : checkChars data.length data = none := by
  unfold text at h
  split at h
  · simp at h
  · rename_i d r _
    split at h
    · simp at h
    · rename_i hc
      simp only [Except.ok.injEq, Prod.mk.injEq] at h
      rw [← h.1]; exact hc

theorem rawToken_chardata (d d' : Decoder) (D : Bytes)
    (h : d.rawToken = Next.tok (Token.CharData D) d') : checkChars D.length D = none := by
  unfold Decoder.rawToken at h
  repeat' split at h
  all_goals first
    | (simp at h; done)
    | (simp only [Next.tok.injEq, Token.CharData.injEq] at h
       rename_i ht
       rw [← h.1]
       exact text_check _ _ _ _ _ ht)

theorem Token_chardata (d d' : Decoder) (D : Bytes)
    (h : d.Token = Next.tok (Token.CharData D) d') : checkChars D.length D = none := by
  unfold Decoder.Token at h
  split at h
  · split at h <;> simp at h
  · simp at h
  · simp at h
  · repeat' split at h
    all_goals simp at h
  · rename_i t d1 _ _ hr
    simp only [Next.tok.injEq] at h
    rw [h.1] at hr
    exact rawToken_chardata _ _ _ hr

theorem tokens_chardata (fuel : Nat) :
    ∀ (d : Decoder) (D : Bytes), Token.CharData D ∈ (tokens fuel d).1 →
      checkChars D.length D = none := by
  induction fuel with
  | zero => intro d D h; simp [tokens] at h
  | succ n ih =>
    intro d D h
    unfold tokens at h
    split at h
    · simp at h
    · simp at h
    · rename_i t d1 ht
      simp only [List.mem_cons] at h
      rcases h with h | h
      · rw [← h] at ht
        exact Token_chardata _ _ _ ht
      · exact ih _ _ h

end xml
end Ooxmlx

namespace Ooxmlx
namespace xml
open transform (Error)
open utf8

theorem checkChars_cons (n b : Nat) (t : Bytes) (h : checkChars (n + 1) (b :: t) = none) :
    ¬ ((DecodeRune (b :: t)).1 = RuneError ∧ (DecodeRune (b :: t)).2 = 1) ∧
    isInCharacterRange (DecodeRune (b :: t)).1 = true ∧
    checkChars n ((b :: t).drop (DecodeRune (b :: t)).2) = none := by
  unfold checkChars at h
  simp only [List.length_cons, Nat.add_one_ne_zero, if_false] at h
  by_cases h1 : (DecodeRune (b :: t)).1 = RuneError ∧ (DecodeRune (b :: t)).2 = 1
  · rw [if_pos h1] at h; simp at h
  · rw [if_neg h1] at h
    by_cases h2 : isInCharacterRange (DecodeRune (b :: t)).1 = true
    · simp only [h2, Bool.not_true, Bool.false_eq_true, if_false] at h
      exact ⟨h1, h2, h⟩
    · simp [h2] at h

/-- Function `escapeText` without newline escaping leaves text alone that passed the character
check of the decoder and holds none of the bytes `"`, `'`, `&`, `<`, `>`, tab and
carriage return. -/
theorem escapeLoop_plain (n : Nat) :
    ∀ (s out : Bytes), s.length ≤ n → checkChars n s = none →
      (∀ b ∈ s, b ≠ 0x22 ∧ b ≠ 0x27 ∧ b ≠ 0x26 ∧ b ≠ 0x3C ∧ b ≠ 0x3E ∧ b ≠ 0x09 ∧ b ≠ 0x0D) →
      escapeLoop false n s out = out ++ s := by
  induction n with
  | zero =>
    intro s out h _ _
    have : s = [] := List.length_eq_zero.mp (by omega)
    subst this
    simp [escapeLoop]
  | succ n ih =>
    intro s out h hc hp
    rcases s with _ | ⟨b, t⟩
    · simp [escapeLoop]
    · obtain ⟨c1, c2, c3⟩ := checkChars_cons n b t hc
      have hs := DecodeRune_size_pos b t
      have hlen : ((b :: t).drop (DecodeRune (b :: t)).2).length ≤ n := by
        simp only [List.length_drop, List.length_cons] at h ⊢; omega
      have hb := hp b (by simp)
      have hr : (DecodeRune (b :: t)).1 ≠ 0x22 ∧ (DecodeRune (b :: t)).1 ≠ 0x27 ∧
          (DecodeRune (b :: t)).1 ≠ 0x26 ∧ (DecodeRune (b :: t)).1 ≠ 0x3C ∧
          (DecodeRune (b :: t)).1 ≠ 0x3E ∧ (DecodeRune (b :: t)).1 ≠ 0x09 ∧
          (DecodeRune (b :: t)).1 ≠ 0x0D := by
        by_cases hlt : b < 0x80
        · rw [DecodeRune_ascii b t hlt]; exact hb
        · have := DecodeRune_nonascii b t (by omega)
          omega
      have hesc : escapeOf false (DecodeRune (b :: t)).1 (DecodeRune (b :: t)).2 = none := by
        unfold escapeOf
        rw [if_neg hr.1, if_neg hr.2.1, if_neg hr.2.2.1, if_neg hr.2.2.2.1, if_neg hr.2.2.2.2.1,
          if_neg hr.2.2.2.2.2.1]
        by_cases hnl : (DecodeRune (b :: t)).1 = 0x0A
        · rw [if_pos hnl]; simp
        · rw [if_neg hnl, if_neg hr.2.2.2.2.2.2]
          have : ¬ (DecodeRune (b :: t)).1 = 0xFFFD ∨ ¬ (DecodeRune (b :: t)).2 = 1 := by
            by_contra hcon
            simp only [not_or, not_not] at hcon
            exact c1 ⟨hcon.1, hcon.2⟩
          rw [if_neg]
          simp only [c2, Bool.not_true, Bool.false_eq_true, false_or, not_and]
          intro e1 e2
          exact c1 ⟨e1, e2⟩
      unfold escapeLoop
      simp only [List.length_cons, Nat.add_one_ne_zero, if_false, hesc]
      rw [ih _ _ hlen c3 (fun x hx => hp x (List.mem_of_mem_drop hx)), List.append_assoc,
        List.take_append_drop]

theorem escapeText_plain (D : Bytes) (hc : checkChars D.length D = none)
    (hp : ∀ b ∈ D, b ≠ 0x22 ∧ b ≠ 0x27 ∧ b ≠ 0x26 ∧ b ≠ 0x3C ∧ b ≠ 0x3E ∧ b ≠ 0x09 ∧ b ≠ 0x0D) :
    escapeText D false = D := by
  unfold escapeText
  rw [escapeLoop_plain _ _ _ (Nat.le_refl _) hc hp]
  simp

end xml

namespace xmlutil
open transform (Error)
open xml

/-- The loop of `TryPrettify` writes, for every character data token of the document,
its `escapeText` into the output. -/
theorem tokenLoop_chardata (fuel : Nat) :
    ∀ (dec : Decoder) (enc enc' : Encoder), tokenLoop fuel dec enc = (none, enc') →
      enc.w <+: enc'.w ∧
      ∀ D, Token.CharData D ∈ (tokens fuel dec).1 →
        ∃ pre post, enc'.w = enc.w ++ pre ++ escapeText D false ++ post := by
  induction fuel with
  | zero => intro dec enc enc' h; simp [tokenLoop] at h
  | succ n ih =>
    intro dec enc enc' h
    unfold tokenLoop at h
    unfold tokens
    rcases ht : dec.Token with _ | e | ⟨t, dec1⟩
    · rw [ht] at h
      simp only [Prod.mk.injEq, true_and] at h
      subst h
      exact ⟨List.prefix_refl _, fun D hD => by simp at hD⟩
    · rw [ht] at h; simp at h
    · rw [ht] at h
      simp only at h ⊢
      rcases he : enc.EncodeToken t with ⟨enc1, _ | e⟩
      · rw [he] at h
        simp only at h
        obtain ⟨i1, i2⟩ := ih dec1 enc1 enc' h
        obtain ⟨e1, e2⟩ := EncodeToken_w enc enc1 t none he
        refine ⟨List.IsPrefix.trans e1 i1, fun D hD => ?_⟩
        rcases List.mem_cons.mp hD with hD | hD
        · obtain ⟨post, hpost⟩ := i1
          refine ⟨[], post, ?_⟩
          rw [← hpost, e2 D hD.symm]
          simp
        · obtain ⟨pre, post, hpp⟩ := i2 D hD
          obtain ⟨added, hadd⟩ := e1
          refine ⟨added ++ pre, post, ?_⟩
          rw [hpp, ← hadd]
          simp
      · rw [he] at h; simp at h

end xmlutil
end Ooxmlx

/-! ## The loops never run out of fuel

Every loop of the decoder consumes input at every turn, so its result is the same for
every amount of fuel above the length of the input: the fuel given by the callers is
enough on every input. -/

namespace Ooxmlx
namespace xml
open transform (Error)
open utf8

theorem space_length (i : Bytes) : (space i).length ≤ i.length := by
  induction i with
  | nil => simp [space]
  | cons b t ih =>
    rw [space]
    split_ifs
    · simp only [List.length_cons]; omega
    · simp

theorem space_cons_length (i r : Bytes) (e : Nat) (h : space i = e :: r) :
    r.length < i.length := by
  have := space_length i
  rw [h] at this
  simp only [List.length_cons] at this
  omega

theorem readNameLoop_length (i : Bytes) : ∀ (acc s rest : Bytes),
    readNameLoop i acc = some (s, rest) → rest.length ≤ i.length := by
  induction i with
  | nil => intro acc s rest h; simp [readNameLoop] at h
  | cons b t ih =>
    intro acc s rest h
    rw [readNameLoop] at h
    split_ifs at h
    · simp only [Option.some.injEq, Prod.mk.injEq] at h
      rw [← h.2]
    · have := ih _ _ _ h
      simp only [List.length_cons]; omega

theorem readName_length (i s rest : Bytes) (h : readName i = ReadName.name s rest) :
    rest.length < i.length := by
  cases i with
  | nil => simp [readName] at h
  | cons b t =>
    simp only [readName] at h
    split_ifs at h
    cases hr : readNameLoop t [b] with
    | none => simp [hr] at h
    | some p =>
      obtain ⟨s1, rest1⟩ := p
      simp only [hr, ReadName.name.injEq] at h
      have := readNameLoop_length _ _ _ _ hr
      rw [← h.2]
      simp only [List.length_cons]; omega

theorem name_length (i s rest : Bytes) (h : name i = .ok (some (s, rest))) :
    rest.length < i.length := by
  unfold name at h
  split at h
  · simp at h
  · simp at h
  · rename_i s1 rest1 hr
    split_ifs at h
    simp only [Except.ok.injEq, Option.some.injEq, Prod.mk.injEq] at h
    rw [← h.2]
    exact readName_length _ _ _ hr

theorem nsname_length (i rest : Bytes) (nm : Name) (h : nsname i = .ok (some (nm, rest))) :
    rest.length < i.length := by
  unfold nsname at h
  split at h
  · simp at h
  · simp at h
  · rename_i s1 rest1 hr
    dsimp only at h
    split_ifs at h
    all_goals first
      | (simp at h; done)
      | (simp only [Except.ok.injEq, Option.some.injEq, Prod.mk.injEq] at h
         rw [← h.2]
         exact name_length _ _ _ hr)

theorem digitsLoop_length (base16 : Bool) (i : Bytes) : ∀ (acc s rest : Bytes) (e : Nat),
    digitsLoop base16 i acc = some (s, e, rest) → rest.length < i.length := by
  induction i with
  | nil => intro acc s rest e h; simp [digitsLoop] at h
  | cons b t ih =>
    intro acc s rest e h
    rw [digitsLoop] at h
    split_ifs at h
    · have := ih _ _ _ _ h
      simp only [List.length_cons]; omega
    · simp only [Option.some.injEq, Prod.mk.injEq] at h
      rw [← h.2.2]
      simp

theorem readEntity_length (i txt rest : Bytes) (h : readEntity i = .ok (txt, rest)) :
    rest.length < i.length := by
  cases i with
  | nil => simp [readEntity] at h
  | cons b t =>
    simp only [readEntity] at h
    by_cases hb : b = 0x23
    · rw [if_pos hb] at h
      cases t with
      | nil => simp at h
      | cons b1 t1 =>
        simp only at h
        by_cases h16 : (decide (b1 = 0x78) = true ∧ t1 = [])
        · rw [if_pos h16] at h; simp at h
        · rw [if_neg h16] at h
          cases hd : digitsLoop (decide (b1 = 0x78))
              (if decide (b1 = 0x78) = true then t1 else b1 :: t1) [] with
          | none => rw [hd] at h; simp at h
          | some p =>
            obtain ⟨s, e, r⟩ := p
            rw [hd] at h
            simp only at h
            have h1 := digitsLoop_length _ _ _ _ _ _ hd
            split_ifs at h <;>
              (simp only [Except.ok.injEq, Prod.mk.injEq] at h
               rw [← h.2]
               split_ifs at h1 <;> simp only [List.length_cons] at h1 ⊢ <;> omega)
    · rw [if_neg hb] at h
      cases hr : readName (b :: t) with
      | eof => rw [hr] at h; simp at h
      | notName => rw [hr] at h; simp at h
      | name s r =>
        rw [hr] at h
        simp only at h
        have h1 := readName_length _ _ _ hr
        cases r with
        | nil => simp at h
        | cons e r1 =>
          simp only at h
          split_ifs at h
          cases he : entity s with
          | none => rw [he] at h; simp at h
          | some v =>
            rw [he] at h
            simp only [Except.ok.injEq, Prod.mk.injEq] at h
            rw [← h.2]
            simp only [List.length_cons] at h1 ⊢
            omega

/-- The loop of `d.text` gives the same result for every amount of fuel above the
length of the input. -/
theorem textLoop_fuel (q : Option Nat) (c : Bool) : ∀ (f1 f2 : Nat) (input buf : Bytes)
    (b0 b1 : Nat), input.length < f1 → input.length < f2 →
    textLoop q c f1 input buf b0 b1 = textLoop q c f2 input buf b0 b1 := by
  intro f1
  induction f1 with
  | zero => intro f2 input buf b0 b1 h; omega
  | succ n ih =>
    intro f2 input buf b0 b1 h1 h2
    cases f2 with
    | zero => omega
    | succ m =>
      cases input with
      | nil => simp [textLoop]
      | cons b t =>
        simp only [List.length_cons] at h1 h2
        simp only [textLoop]
        split_ifs
        all_goals first
          | rfl
          | (apply ih <;> omega)
          | (cases hr : readEntity t with
             | error e => rfl
             | ok p =>
               obtain ⟨txt, rest⟩ := p
               have hl := readEntity_length _ _ _ hr
               simp only
               apply ih <;> omega)

/-- The input left by the loop of `d.text` is no longer than the input given. -/
theorem textLoop_length (q : Option Nat) (c : Bool) : ∀ (f : Nat) (input buf : Bytes)
    (b0 b1 : Nat) (data rest : Bytes),
    textLoop q c f input buf b0 b1 = .ok (data, rest) → rest.length ≤ input.length := by
  intro f
  induction f with
  | zero => intro input buf b0 b1 data rest h; simp [textLoop] at h
  | succ n ih =>
    intro input buf b0 b1 data rest h
    cases input with
    | nil =>
      simp only [textLoop] at h
      split_ifs at h
      simp only [Except.ok.injEq, Prod.mk.injEq] at h
      rw [← h.2]
    | cons b t =>
      simp only [textLoop] at h
      split_ifs at h
      all_goals first
        | (simp only [Except.ok.injEq, Prod.mk.injEq] at h
           obtain ⟨-, rfl⟩ := h
           first | exact Nat.le_refl _ | (simp only [List.length_cons]; omega))
        | (have hi := ih _ _ _ _ _ _ h
           simp only [List.length_cons]
           omega)
        | (cases hr : readEntity t with
           | error e => rw [hr] at h; simp at h
           | ok p =>
             obtain ⟨txt, r⟩ := p
             rw [hr] at h
             have hl := readEntity_length _ _ _ hr
             have := ih _ _ _ _ _ _ h
             simp only [List.length_cons]
             omega)

theorem text_length (q : Option Nat) (c : Bool) (input data rest : Bytes)
    (h : text q c input = .ok (data, rest)) : rest.length ≤ input.length := by
  unfold text at h
  split at h
  · simp at h
  · rename_i d r ht
    split at h
    · simp at h
    · simp only [Except.ok.injEq, Prod.mk.injEq] at h
      rw [← h.2]
      exact textLoop_length _ _ _ _ _ _ _ _ _ ht

/-- A text section that does not begin with `<` consumes its first byte. -/
theorem text_length_lt (b : Nat) (t data rest : Bytes) (hb : b ≠ 0x3C)
    (h : text none false (b :: t) = .ok (data, rest)) : rest.length ≤ t.length := by
  unfold text at h
  split at h
  · simp at h
  · rename_i d r ht
    split at h
    · simp at h
    · simp only [Except.ok.injEq, Prod.mk.injEq] at h
      rw [← h.2]
      rw [textLoop] at ht
      split_ifs at ht
      all_goals first
        | (simp at ht; done)
        | (simp_all; done)
        | exact textLoop_length _ _ _ _ _ _ _ _ _ ht
        | (cases hr : readEntity t with
           | error e => rw [hr] at ht; simp at ht
           | ok p =>
             obtain ⟨txt, r1⟩ := p
             rw [hr] at ht
             have hl := readEntity_length _ _ _ hr
             have := textLoop_length _ _ _ _ _ _ _ _ _ ht
             omega)

theorem attrval_length (input data rest : Bytes) (h : attrval input = .ok (data, rest)) :
    rest.length < input.length := by
  cases input with
  | nil => simp [attrval] at h
  | cons b t =>
    simp only [attrval] at h
    split_ifs at h
    have := text_length _ _ _ _ _ h
    simp only [List.length_cons]
    omega

theorem commentLoop_length (i : Bytes) : ∀ (buf : Bytes) (b0 b1 : Nat) (data rest : Bytes),
    commentLoop i buf b0 b1 = .ok (data, rest) → rest.length < i.length := by
  induction i with
  | nil => intro buf b0 b1 data rest h; simp [commentLoop] at h
  | cons b t ih =>
    intro buf b0 b1 data rest h
    rw [commentLoop] at h
    split_ifs at h
    · simp only [Except.ok.injEq, Prod.mk.injEq] at h
      rw [← h.2]; simp
    · have := ih _ _ _ _ _ h
      simp only [List.length_cons]; omega

theorem procInstLoop_length (i : Bytes) : ∀ (buf : Bytes) (b0 : Nat) (data rest : Bytes),
    procInstLoop i buf b0 = .ok (data, rest) → rest.length < i.length := by
  induction i with
  | nil => intro buf b0 data rest h; simp [procInstLoop] at h
  | cons b t ih =>
    intro buf b0 data rest h
    rw [procInstLoop] at h
    split_ifs at h
    · simp only [Except.ok.injEq, Prod.mk.injEq] at h
      rw [← h.2]; simp
    · have := ih _ _ _ _ h
      simp only [List.length_cons]; omega

/-- The loop over the attributes of a start tag gives the same result for every amount
of fuel above the length of the input. -/
theorem attrLoop_fuel : ∀ (f1 f2 : Nat) (input : Bytes) (attr : List Attr),
    input.length < f1 → input.length < f2 →
    attrLoop f1 input attr = attrLoop f2 input attr := by
  intro f1
  induction f1 with
  | zero => intro f2 input attr h; omega
  | succ n ih =>
    intro f2 input attr h1 h2
    cases f2 with
    | zero => omega
    | succ m =>
      simp only [attrLoop]
      cases hs : space input with
      | nil => rfl
      | cons b t =>
        have hl := space_cons_length _ _ _ hs
        simp only
        split_ifs
        · rfl
        · rfl
        · cases hn : nsname (b :: t) with
          | error e => rfl
          | ok o =>
            cases o with
            | none => rfl
            | some p =>
              obtain ⟨aname, rest⟩ := p
              have hl1 := nsname_length _ _ _ hn
              simp only
              cases hs1 : space rest with
              | nil => rfl
              | cons e rest1 =>
                have hl2 := space_cons_length _ _ _ hs1
                simp only
                split_ifs
                all_goals first
                  | rfl
                  | (cases hv : attrval (space rest1) with
                     | error err => rfl
                     | ok q =>
                       obtain ⟨value, rest2⟩ := q
                       have hl3 := attrval_length _ _ _ hv
                       have hl4 := space_length rest1
                       simp only [List.length_cons] at hl1
                       simp only
                       apply ih <;> omega)

/-- The loop over the attributes of a start tag consumes input. -/
theorem attrLoop_length : ∀ (f : Nat) (input : Bytes) (attr attr1 : List Attr) (empty : Bool)
    (rest : Bytes), attrLoop f input attr = .ok (attr1, empty, rest) →
    rest.length < input.length := by
  intro f
  induction f with
  | zero => intro input attr attr1 empty rest h; simp [attrLoop] at h
  | succ n ih =>
    intro input attr attr1 empty rest h
    simp only [attrLoop] at h
    cases hs : space input with
    | nil => rw [hs] at h; simp at h
    | cons b t =>
      have hl := space_cons_length _ _ _ hs
      rw [hs] at h
      simp only at h
      split_ifs at h
      · cases t with
        | nil => simp at h
        | cons b1 t1 =>
          simp only at h
          split_ifs at h
          simp only [Except.ok.injEq, Prod.mk.injEq] at h
          rw [← h.2.2]
          simp only [List.length_cons] at hl
          omega
      · simp only [Except.ok.injEq, Prod.mk.injEq] at h
        rw [← h.2.2]
        omega
      · cases hn : nsname (b :: t) with
        | error e => rw [hn] at h; simp at h
        | ok o =>
          cases o with
          | none => rw [hn] at h; simp at h
          | some p =>
            obtain ⟨aname, rest0⟩ := p
            have hl1 := nsname_length _ _ _ hn
            rw [hn] at h
            simp only at h
            cases hs1 : space rest0 with
            | nil => rw [hs1] at h; simp at h
            | cons e rest1 =>
              have hl2 := space_cons_length _ _ _ hs1
              rw [hs1] at h
              simp only at h
              split_ifs at h
              all_goals
                cases hv : attrval (space rest1) with
                | error err => rw [hv] at h; simp at h
                | ok q =>
                  obtain ⟨value, rest2⟩ := q
                  have hl3 := attrval_length _ _ _ hv
                  have hl4 := space_length rest1
                  rw [hv] at h
                  simp only at h
                  first
                    | (simp at h; done)
                    | (have hi := ih _ _ _ _ _ h
                       simp only [List.length_cons] at hl1
                       omega)

theorem procInstLoop_space_length (r buf data rest : Bytes) (b0 : Nat)
    (h : procInstLoop (space r) buf b0 = .ok (data, rest)) : rest.length < r.length := by
  have h1 := procInstLoop_length _ _ _ _ _ h
  have h2 := space_length r
  omega

theorem directiveComment_length (i : Bytes) : ∀ (b0 b1 : Nat) (rest : Bytes),
    directiveComment i b0 b1 = some rest → rest.length < i.length := by
  induction i with
  | nil => intro b0 b1 rest h; simp [directiveComment] at h
  | cons b t ih =>
    intro b0 b1 rest h
    rw [directiveComment] at h
    split_ifs at h
    · simp only [Option.some.injEq] at h
      rw [← h]; simp
    · have hi := ih _ _ _ h
      simp only [List.length_cons]; omega

/-- The loop that reads a directive consumes input. -/
theorem directiveLoop_length : ∀ (f : Nat) (handle : Bool) (input buf : Bytes) (iq depth : Nat)
    (data rest : Bytes), directiveLoop f handle input buf iq depth = .ok (data, rest) →
    rest.length < input.length := by
  intro f
  induction f with
  | zero => intro handle input buf iq depth data rest h; simp [directiveLoop] at h
  | succ n ih =>
    intro handle input buf iq depth data rest h
    cases input with
    | nil => simp [directiveLoop] at h
    | cons b t =>
      simp only [directiveLoop] at h
      repeat' split at h
      all_goals first
        | (simp at h; done)
        | (simp only [Except.ok.injEq, Prod.mk.injEq] at h
           rw [← h.2]
           simp; done)
        | (have hi := ih _ _ _ _ _ _ _ h
           simp only [List.length_cons] at hi ⊢
           omega)
        | (have hi := ih _ _ _ _ _ _ _ h
           have hc := directiveComment_length _ _ _ _ (by assumption)
           simp only [List.length_cons] at hi ⊢
           omega)

/-- A token read by `rawToken` uses up input, or the pending end of a self-closing
element. -/
theorem rawToken_measure (d d1 : Decoder) (t : Token) (h : d.rawToken = Next.tok t d1) :
    2 * d1.input.length + (if d1.needClose then 1 else 0)
      < 2 * d.input.length + (if d.needClose then 1 else 0) := by
  unfold Decoder.rawToken at h
  by_cases hc : d.needClose = true
  · rw [if_pos hc] at h
    simp only [Next.tok.injEq] at h
    rw [← h.2, hc]
    simp
  · rw [if_neg hc] at h
    rw [if_neg hc]
    have key : d1.input.length < d.input.length := by
      rcases d with ⟨input, stk, nc, tc, ns⟩
      simp only at h hc ⊢
      repeat' split at h
      all_goals first
        | (simp at h; done)
        | (simp only [Next.tok.injEq] at h
           obtain ⟨-, rfl⟩ := h
           simp only [List.length_cons]
           first
             | (have h1 := text_length_lt _ _ _ _ (by assumption) (by assumption); omega)
             | (have h1 := nsname_length _ _ _ (by assumption)
                have h2 := space_cons_length _ _ _ (by assumption)
                omega)
             | (have h1 := name_length _ _ _ (by assumption)
                have h2 := procInstLoop_space_length _ _ _ _ _ (by assumption)
                omega)
             | (have h1 := commentLoop_length _ _ _ _ _ _ (by assumption); omega)
             | (have h1 := text_length _ _ _ _ _ (by assumption)
                simp only [List.length_drop] at h1
                omega)
             | (have h1 := directiveLoop_length _ _ _ _ _ _ _ _ (by assumption); omega)
             | (have h1 := nsname_length _ _ _ (by assumption)
                have h2 := attrLoop_length _ _ _ _ _ _ (by assumption)
                simp only [List.length_cons] at h1
                omega))
    split_ifs <;> omega

theorem bindAttrs_input (attr : List Attr) : ∀ d : Decoder,
    (d.bindAttrs attr).input = d.input ∧ (d.bindAttrs attr).needClose = d.needClose ∧
      (d.bindAttrs attr).toClose = d.toClose := by
  induction attr with
  | nil => intro d; exact ⟨rfl, rfl, rfl⟩
  | cons a rest ih =>
    intro d
    simp only [Decoder.bindAttrs]
    split_ifs <;> simp [ih, Decoder.pushNs]

/-- A token read by `Token` is the token read by `rawToken` up to the translation of its
names, and leaves the input and the pending end that `rawToken` left. -/
theorem Token_rawToken (d d1 : Decoder) (t : Token) (h : d.Token = Next.tok t d1) :
    ∃ t2 d2, d.rawToken = Next.tok t2 d2 ∧ d1.input = d2.input ∧ d1.needClose = d2.needClose ∧
      (∀ D, t = Token.CharData D → t2 = Token.CharData D) := by
  unfold Decoder.Token at h
  split at h
  · split at h <;> simp at h
  · simp at h
  · rename_i nm attr d2 hr
    refine ⟨_, _, hr, ?_, ?_, ?_⟩
    · simp only [Next.tok.injEq] at h
      rw [← h.2]
      exact (bindAttrs_input attr d2).1
    · simp only [Next.tok.injEq] at h
      rw [← h.2]
      exact (bindAttrs_input attr d2).2.1
    · intro D hD
      simp only [Next.tok.injEq] at h
      rw [hD] at h
      simp at h
  · rename_i nm d2 hr
    refine ⟨_, _, hr, ?_⟩
    repeat' split at h
    all_goals first
      | (simp at h; done)
      | (simp only [Next.tok.injEq] at h
         obtain ⟨h1, h2⟩ := h
         rw [← h2]
         refine ⟨rfl, rfl, ?_⟩
         intro D hD
         rw [hD] at h1
         simp at h1)
  · rename_i t2 d2 _ _ hr
    simp only [Next.tok.injEq] at h
    refine ⟨_, _, hr, ?_⟩
    rw [← h.2, ← h.1]
    exact ⟨rfl, rfl, fun D hD => hD⟩

/-- A token read by `Token` uses up input, or the pending end of a self-closing
element. -/
theorem Token_measure (d d1 : Decoder) (t : Token) (h : d.Token = Next.tok t d1) :
    2 * d1.input.length + (if d1.needClose then 1 else 0)
      < 2 * d.input.length + (if d.needClose then 1 else 0) := by
  obtain ⟨t2, d2, hr, h1, h2, -⟩ := Token_rawToken d d1 t h
  rw [h1, h2]
  exact rawToken_measure _ _ _ hr

/-- The token list of a document is the same for every amount of fuel above twice the
length of the input. -/
theorem tokens_fuel : ∀ (f1 f2 : Nat) (d : Decoder),
    2 * d.input.length + (if d.needClose then 1 else 0) < f1 →
    2 * d.input.length + (if d.needClose then 1 else 0) < f2 →
    tokens f1 d = tokens f2 d := by
  intro f1
  induction f1 with
  | zero => intro f2 d h; omega
  | succ n ih =>
    intro f2 d h1 h2
    cases f2 with
    | zero => omega
    | succ m =>
      simp only [tokens]
      cases ht : d.Token with
      | eof => rfl
      | err e => rfl
      | tok t d1 =>
        have := Token_measure _ _ _ ht
        simp only
        rw [ih m d1 (by omega) (by omega)]

end xml

namespace xmlutil
open xml

/-- The loop of `TryPrettify` gives the same result for every amount of fuel above
twice the length of the input: it never stops for lack of fuel. -/
theorem tokenLoop_fuel : ∀ (f1 f2 : Nat) (d : Decoder) (enc : Encoder),
    2 * d.input.length + (if d.needClose then 1 else 0) < f1 →
    2 * d.input.length + (if d.needClose then 1 else 0) < f2 →
    tokenLoop f1 d enc = tokenLoop f2 d enc := by
  intro f1
  induction f1 with
  | zero => intro f2 d enc h; omega
  | succ n ih =>
    intro f2 d enc h1 h2
    cases f2 with
    | zero => omega
    | succ m =>
      simp only [tokenLoop]
      cases ht : d.Token with
      | eof => rfl
      | err e => rfl
      | tok t d1 =>
        have := Token_measure _ _ _ ht
        simp only
        rcases he : enc.EncodeToken t with ⟨enc1, _ | err⟩
        · simp only
          exact ih m d1 enc1 (by omega) (by omega)
        · rfl

/-- The fuel that `TryPrettify` gives to its loop is enough on every document. -/
theorem tokenLoop_fuel_enough (data : Bytes) (enc : Encoder) (k : Nat) :
    tokenLoop (2 * data.length + 2 + k) (NewDecoder data) enc
      = tokenLoop (2 * data.length + 2) (NewDecoder data) enc :=
  tokenLoop_fuel _ _ _ _ (by simp [NewDecoder]; omega) (by simp [NewDecoder])

end xmlutil

namespace xml
end xml
end Ooxmlx

namespace Ooxmlx
namespace filepath

/-- The loop of `Clean` gives the same result for every amount of fuel that is at least
the length of the unread input. -/
theorem cleanLoop_fuel (rooted : Bool) : ∀ (f1 f2 : Nat) (rest out : Bytes) (dotdot : Nat),
    rest.length ≤ f1 → rest.length ≤ f2 →
    cleanLoop rooted f1 rest out dotdot = cleanLoop rooted f2 rest out dotdot := by
  intro f1
  induction f1 with
  | zero =>
    intro f2 rest out dotdot h1 _
    have : rest = [] := List.length_eq_zero.mp (by omega)
    subst this
    cases f2 <;> simp [cleanLoop]
  | succ n ih =>
    intro f2 rest out dotdot h1 h2
    cases f2 with
    | zero =>
      have : rest = [] := List.length_eq_zero.mp (by omega)
      subst this
      simp [cleanLoop]
    | succ m =>
      rcases rest with _ | ⟨c, t⟩
      · simp [cleanLoop]
      · simp only [List.length_cons] at h1 h2
        have hd : (t.drop 1).length ≤ t.length := by simp only [List.length_drop]; omega
        simp only [cleanLoop]
        by_cases hc : IsPathSeparator c = true
        · rw [if_pos hc, if_pos hc]
          exact ih _ _ _ _ (by omega) (by omega)
        · rw [if_neg hc, if_neg hc]
          have hw : ((c :: t).dropWhile (fun b => !IsPathSeparator b)).length ≤ t.length := by
            rw [List.dropWhile_cons_of_pos (by simpa using hc)]
            exact dropWhile_length_le t
          split_ifs <;> exact ih _ _ _ _ (by omega) (by omega)

/-- The loop of `Rel` gives the same result for every amount of fuel that is at least
the length of what is left of the base. -/
theorem relLoop_fuel : ∀ (f1 f2 : Nat) (bsuf tsuf : Bytes),
    bsuf.length ≤ f1 → bsuf.length ≤ f2 → relLoop f1 bsuf tsuf = relLoop f2 bsuf tsuf := by
  intro f1
  induction f1 with
  | zero =>
    intro f2 bsuf tsuf h1 _
    have : bsuf = [] := List.length_eq_zero.mp (by omega)
    subst this
    cases f2 <;> simp [relLoop]
  | succ n ih =>
    intro f2 bsuf tsuf h1 h2
    cases f2 with
    | zero =>
      have : bsuf = [] := List.length_eq_zero.mp (by omega)
      subst this
      simp [relLoop]
    | succ m =>
      simp only [relLoop]
      split_ifs with h3 h4
      · rfl
      · have hd : ((bsuf.drop (bsuf.takeWhile (fun b => b ≠ Separator)).length).drop 1).length
            ≤ bsuf.length - 1 := by
          simp only [List.length_drop]; omega
        exact ih _ _ _ (by omega) (by omega)
      · rfl

end filepath

namespace strings
open utf8

/-- The loop of `TrimLeftFunc` gives the same result for every amount of fuel that is
at least the length of the string. -/
theorem TrimLeftFunc_fuel (f : Nat → Bool) : ∀ (f1 f2 : Nat) (s : Bytes),
    s.length ≤ f1 → s.length ≤ f2 → TrimLeftFunc f f1 s = TrimLeftFunc f f2 s := by
  intro f1
  induction f1 with
  | zero =>
    intro f2 s h1 _
    have : s = [] := List.length_eq_zero.mp (by omega)
    subst this
    cases f2 <;> simp [TrimLeftFunc]
  | succ n ih =>
    intro f2 s h1 h2
    cases f2 with
    | zero =>
      have : s = [] := List.length_eq_zero.mp (by omega)
      subst this
      simp [TrimLeftFunc]
    | succ m =>
      rcases s with _ | ⟨c, t⟩
      · simp [TrimLeftFunc]
      · have hp := DecodeRune_size_pos c t
        simp only [List.length_cons] at h1 h2
        have hd : ((c :: t).drop (DecodeRune (c :: t)).2).length ≤ t.length := by
          simp only [List.length_drop, List.length_cons]; omega
        simp only [TrimLeftFunc]
        split_ifs
        all_goals first
          | rfl
          | exact ih _ _ (by omega) (by omega)

end strings

namespace xml
open utf8

/-- The check of the characters of a text gives the same result for every amount of
fuel that is at least the length of the text. -/
theorem checkChars_fuel : ∀ (f1 f2 : Nat) (buf : Bytes), buf.length ≤ f1 → buf.length ≤ f2 →
    checkChars f1 buf = checkChars f2 buf := by
  intro f1
  induction f1 with
  | zero =>
    intro f2 buf h1 _
    have : buf = [] := List.length_eq_zero.mp (by omega)
    subst this
    cases f2 <;> simp [checkChars]
  | succ n ih =>
    intro f2 buf h1 h2
    cases f2 with
    | zero =>
      have : buf = [] := List.length_eq_zero.mp (by omega)
      subst this
      simp [checkChars]
    | succ m =>
      rcases buf with _ | ⟨c, t⟩
      · simp [checkChars]
      · have hp := DecodeRune_size_pos c t
        simp only [List.length_cons] at h1 h2
        have hd : ((c :: t).drop (DecodeRune (c :: t)).2).length ≤ t.length := by
          simp only [List.length_drop, List.length_cons]; omega
        simp only [checkChars]
        split_ifs
        all_goals first
          | rfl
          | exact ih _ _ (by omega) (by omega)

/-- The loop of `escapeText` gives the same result for every amount of fuel that is at
least the length of the text. -/
theorem escapeLoop_fuel (nl : Bool) : ∀ (f1 f2 : Nat) (s out : Bytes),
    s.length ≤ f1 → s.length ≤ f2 → escapeLoop nl f1 s out = escapeLoop nl f2 s out := by
  intro f1
  induction f1 with
  | zero =>
    intro f2 s out h1 _
    have : s = [] := List.length_eq_zero.mp (by omega)
    subst this
    cases f2 <;> simp [escapeLoop]
  | succ n ih =>
    intro f2 s out h1 h2
    cases f2 with
    | zero =>
      have : s = [] := List.length_eq_zero.mp (by omega)
      subst this
      simp [escapeLoop]
    | succ m =>
      rcases s with _ | ⟨c, t⟩
      · simp [escapeLoop]
      · have hp := DecodeRune_size_pos c t
        simp only [List.length_cons] at h1 h2
        have hd : ((c :: t).drop (DecodeRune (c :: t)).2).length ≤ t.length := by
          simp only [List.length_drop, List.length_cons]; omega
        simp only [escapeLoop]
        split_ifs
        · simp at *
        · cases escapeOf nl (DecodeRune (c :: t)).1 (DecodeRune (c :: t)).2 with
          | none => exact ih _ _ _ (by omega) (by omega)
          | some esc => exact ih _ _ _ (by omega) (by omega)

end xml
end Ooxmlx

/-! ## The decoder reads the input from left to right

What a step of the decoder leaves unread is a suffix of what it was given. -/

namespace Ooxmlx
namespace xml
open transform (Error)
open utf8

theorem space_suffix (i : Bytes) : space i <:+ i := by
  induction i with
  | nil => simp [space]
  | cons b t ih =>
    rw [space]
    split_ifs
    · exact ih.trans (List.suffix_cons _ _)
    · exact List.suffix_refl _

theorem space_cons_suffix (i r : Bytes) (e : Nat) (h : space i = e :: r) : r <:+ i := by
  have h1 := space_suffix i
  rw [h] at h1
  exact (List.suffix_cons _ _).trans h1

theorem readNameLoop_suffix (i : Bytes) : ∀ (acc s rest : Bytes),
    readNameLoop i acc = some (s, rest) → rest <:+ i := by
  induction i with
  | nil => intro acc s rest h; simp [readNameLoop] at h
  | cons b t ih =>
    intro acc s rest h
    rw [readNameLoop] at h
    split_ifs at h
    · simp only [Option.some.injEq, Prod.mk.injEq] at h
      rw [← h.2]
    · exact (ih _ _ _ h).trans (List.suffix_cons _ _)

theorem readName_suffix (i s rest : Bytes) (h : readName i = ReadName.name s rest) :
    rest <:+ i := by
  cases i with
  | nil => simp [readName] at h
  | cons b t =>
    simp only [readName] at h
    split_ifs at h
    cases hr : readNameLoop t [b] with
    | none => simp [hr] at h
    | some p =>
      obtain ⟨s1, rest1⟩ := p
      simp only [hr, ReadName.name.injEq] at h
      rw [← h.2]
      exact (readNameLoop_suffix _ _ _ _ hr).trans (List.suffix_cons _ _)

theorem name_suffix (i s rest : Bytes) (h : name i = .ok (some (s, rest))) : rest <:+ i := by
  unfold name at h
  split at h
  · simp at h
  · simp at h
  · rename_i s1 rest1 hr
    split_ifs at h
    simp only [Except.ok.injEq, Option.some.injEq, Prod.mk.injEq] at h
    rw [← h.2]
    exact readName_suffix _ _ _ hr

theorem nsname_suffix (i rest : Bytes) (nm : Name) (h : nsname i = .ok (some (nm, rest))) :
    rest <:+ i := by
  unfold nsname at h
  split at h
  · simp at h
  · simp at h
  · rename_i s1 rest1 hr
    dsimp only at h
    split_ifs at h
    all_goals first
      | (simp at h; done)
      | (simp only [Except.ok.injEq, Option.some.injEq, Prod.mk.injEq] at h
         rw [← h.2]
         exact name_suffix _ _ _ hr)

theorem digitsLoop_suffix (base16 : Bool) (i : Bytes) : ∀ (acc s rest : Bytes) (e : Nat),
    digitsLoop base16 i acc = some (s, e, rest) → rest <:+ i := by
  induction i with
  | nil => intro acc s rest e h; simp [digitsLoop] at h
  | cons b t ih =>
    intro acc s rest e h
    rw [digitsLoop] at h
    split_ifs at h
    · exact (ih _ _ _ _ h).trans (List.suffix_cons _ _)
    · simp only [Option.some.injEq, Prod.mk.injEq] at h
      rw [← h.2.2]
      exact List.suffix_cons _ _

theorem readEntity_suffix (i txt rest : Bytes) (h : readEntity i = .ok (txt, rest)) :
    rest <:+ i := by
  cases i with
  | nil => simp [readEntity] at h
  | cons b t =>
    simp only [readEntity] at h
    by_cases hb : b = 0x23
    · rw [if_pos hb] at h
      cases t with
      | nil => simp at h
      | cons b1 t1 =>
        simp only at h
        by_cases h16 : (decide (b1 = 0x78) = true ∧ t1 = [])
        · rw [if_pos h16] at h; simp at h
        · rw [if_neg h16] at h
          cases hd : digitsLoop (decide (b1 = 0x78))
              (if decide (b1 = 0x78) = true then t1 else b1 :: t1) [] with
          | none => rw [hd] at h; simp at h
          | some p =>
            obtain ⟨s, e, r⟩ := p
            rw [hd] at h
            simp only at h
            have h1 := digitsLoop_suffix _ _ _ _ _ _ hd
            have h2 : r <:+ b :: b1 :: t1 := by
              split_ifs at h1
              · exact (h1.trans (List.suffix_cons _ _)).trans (List.suffix_cons _ _)
              · exact h1.trans (List.suffix_cons _ _)
            split_ifs at h <;>
              (simp only [Except.ok.injEq, Prod.mk.injEq] at h
               rw [← h.2]
               exact h2)
    · rw [if_neg hb] at h
      cases hr : readName (b :: t) with
      | eof => rw [hr] at h; simp at h
      | notName => rw [hr] at h; simp at h
      | name s r =>
        rw [hr] at h
        simp only at h
        have h1 := readName_suffix _ _ _ hr
        cases r with
        | nil => simp at h
        | cons e r1 =>
          simp only at h
          split_ifs at h
          cases he : entity s with
          | none => rw [he] at h; simp at h
          | some v =>
            rw [he] at h
            simp only [Except.ok.injEq, Prod.mk.injEq] at h
            rw [← h.2]
            exact (List.suffix_cons _ _).trans h1

theorem textLoop_suffix (q : Option Nat) (c : Bool) : ∀ (f : Nat) (input buf : Bytes)
    (b0 b1 : Nat) (data rest : Bytes),
    textLoop q c f input buf b0 b1 = .ok (data, rest) → rest <:+ input := by
  intro f
  induction f with
  | zero => intro input buf b0 b1 data rest h; simp [textLoop] at h
  | succ n ih =>
    intro input buf b0 b1 data rest h
    cases input with
    | nil =>
      simp only [textLoop] at h
      split_ifs at h
      simp only [Except.ok.injEq, Prod.mk.injEq] at h
      rw [← h.2]
    | cons b t =>
      simp only [textLoop] at h
      split_ifs at h
      all_goals first
        | (simp only [Except.ok.injEq, Prod.mk.injEq] at h
           obtain ⟨-, rfl⟩ := h
           first | exact List.suffix_refl _ | exact List.suffix_cons _ _)
        | exact (ih _ _ _ _ _ _ h).trans (List.suffix_cons _ _)
        | (cases hr : readEntity t with
           | error e => rw [hr] at h; simp at h
           | ok p =>
             obtain ⟨txt, r⟩ := p
             rw [hr] at h
             exact ((ih _ _ _ _ _ _ h).trans (readEntity_suffix _ _ _ hr)).trans
               (List.suffix_cons _ _))

theorem text_suffix (q : Option Nat) (c : Bool) (input data rest : Bytes)
    (h : text q c input = .ok (data, rest)) : rest <:+ input := by
  unfold text at h
  split at h
  · simp at h
  · rename_i d r ht
    split at h
    · simp at h
    · simp only [Except.ok.injEq, Prod.mk.injEq] at h
      rw [← h.2]
      exact textLoop_suffix _ _ _ _ _ _ _ _ _ ht

theorem attrval_suffix (input data rest : Bytes) (h : attrval input = .ok (data, rest)) :
    rest <:+ input := by
  cases input with
  | nil => simp [attrval] at h
  | cons b t =>
    simp only [attrval] at h
    split_ifs at h
    exact (text_suffix _ _ _ _ _ h).trans (List.suffix_cons _ _)

theorem commentLoop_suffix (i : Bytes) : ∀ (buf : Bytes) (b0 b1 : Nat) (data rest : Bytes),
    commentLoop i buf b0 b1 = .ok (data, rest) → rest <:+ i := by
  induction i with
  | nil => intro buf b0 b1 data rest h; simp [commentLoop] at h
  | cons b t ih =>
    intro buf b0 b1 data rest h
    rw [commentLoop] at h
    split_ifs at h
    · simp only [Except.ok.injEq, Prod.mk.injEq] at h
      rw [← h.2]; exact List.suffix_cons _ _
    · exact (ih _ _ _ _ _ h).trans (List.suffix_cons _ _)

theorem procInstLoop_suffix (i : Bytes) : ∀ (buf : Bytes) (b0 : Nat) (data rest : Bytes),
    procInstLoop i buf b0 = .ok (data, rest) → rest <:+ i := by
  induction i with
  | nil => intro buf b0 data rest h; simp [procInstLoop] at h
  | cons b t ih =>
    intro buf b0 data rest h
    rw [procInstLoop] at h
    split_ifs at h
    · simp only [Except.ok.injEq, Prod.mk.injEq] at h
      rw [← h.2]; exact List.suffix_cons _ _
    · exact (ih _ _ _ _ h).trans (List.suffix_cons _ _)

theorem procInstLoop_space_suffix (r buf data rest : Bytes) (b0 : Nat)
    (h : procInstLoop (space r) buf b0 = .ok (data, rest)) : rest <:+ r :=
  (procInstLoop_suffix _ _ _ _ _ h).trans (space_suffix r)

theorem directiveComment_suffix (i : Bytes) : ∀ (b0 b1 : Nat) (rest : Bytes),
    directiveComment i b0 b1 = some rest → rest <:+ i := by
  induction i with
  | nil => intro b0 b1 rest h; simp [directiveComment] at h
  | cons b t ih =>
    intro b0 b1 rest h
    rw [directiveComment] at h
    split_ifs at h
    · simp only [Option.some.injEq] at h
      rw [← h]; exact List.suffix_cons _ _
    · exact (ih _ _ _ h).trans (List.suffix_cons _ _)

theorem suffix_cons2 {r t : Bytes} (a b : Nat) (h : r <:+ t) : r <:+ a :: b :: t :=
  (h.trans (List.suffix_cons _ _)).trans (List.suffix_cons _ _)

theorem suffix_cons3 {r t : Bytes} (a b c : Nat) (h : r <:+ t) : r <:+ a :: b :: c :: t :=
  (suffix_cons2 b c h).trans (List.suffix_cons _ _)

theorem suffix_cons4 {r t : Bytes} (a b c d : Nat) (h : r <:+ t) :
    r <:+ a :: b :: c :: d :: t :=
  (suffix_cons3 b c d h).trans (List.suffix_cons _ _)

theorem directiveLoop_suffix : ∀ (f : Nat) (handle : Bool) (input buf : Bytes) (iq depth : Nat)
    (data rest : Bytes), directiveLoop f handle input buf iq depth = .ok (data, rest) →
    rest <:+ input := by
  intro f
  induction f with
  | zero => intro handle input buf iq depth data rest h; simp [directiveLoop] at h
  | succ n ih =>
    intro handle input buf iq depth data rest h
    cases input with
    | nil => simp [directiveLoop] at h
    | cons b t =>
      simp only [directiveLoop] at h
      repeat' split at h
      all_goals first
        | (simp at h; done)
        | (simp only [Except.ok.injEq, Prod.mk.injEq] at h
           rw [← h.2]
           exact List.suffix_cons _ _)
        | exact (ih _ _ _ _ _ _ _ h).trans (List.suffix_cons _ _)
        | exact suffix_cons2 _ _ (ih _ _ _ _ _ _ _ h)
        | exact suffix_cons3 _ _ _ (ih _ _ _ _ _ _ _ h)
        | exact suffix_cons4 _ _ _ _
            ((ih _ _ _ _ _ _ _ h).trans (directiveComment_suffix _ _ _ _ (by assumption)))

theorem attrLoop_suffix : ∀ (f : Nat) (input : Bytes) (attr attr1 : List Attr) (empty : Bool)
    (rest : Bytes), attrLoop f input attr = .ok (attr1, empty, rest) → rest <:+ input := by
  intro f
  induction f with
  | zero => intro input attr attr1 empty rest h; simp [attrLoop] at h
  | succ n ih =>
    intro input attr attr1 empty rest h
    simp only [attrLoop] at h
    cases hs : space input with
    | nil => rw [hs] at h; simp at h
    | cons b t =>
      have hl := space_suffix input
      rw [hs] at hl
      rw [hs] at h
      simp only at h
      split_ifs at h
      · cases t with
        | nil => simp at h
        | cons b1 t1 =>
          simp only at h
          split_ifs at h
          simp only [Except.ok.injEq, Prod.mk.injEq] at h
          rw [← h.2.2]
          exact (suffix_cons2 _ _ (List.suffix_refl _)).trans hl
      · simp only [Except.ok.injEq, Prod.mk.injEq] at h
        rw [← h.2.2]
        exact (List.suffix_cons _ _).trans hl
      · cases hn : nsname (b :: t) with
        | error e => rw [hn] at h; simp at h
        | ok o =>
          cases o with
          | none => rw [hn] at h; simp at h
          | some p =>
            obtain ⟨aname, rest0⟩ := p
            have hl1 := nsname_suffix _ _ _ hn
            rw [hn] at h
            simp only at h
            cases hs1 : space rest0 with
            | nil => rw [hs1] at h; simp at h
            | cons e rest1 =>
              have hl2 := space_cons_suffix _ _ _ hs1
              rw [hs1] at h
              simp only at h
              split_ifs at h
              all_goals
                cases hv : attrval (space rest1) with
                | error err => rw [hv] at h; simp at h
                | ok q =>
                  obtain ⟨value, rest2⟩ := q
                  have hl3 := attrval_suffix _ _ _ hv
                  have hl4 := space_suffix rest1
                  rw [hv] at h
                  simp only at h
                  first
                    | (simp at h; done)
                    | exact (((((ih _ _ _ _ _ h).trans hl3).trans hl4).trans hl2).trans hl1).trans hl

/-- What `rawToken` leaves unread is a suffix of the input it was given. -/
theorem rawToken_suffix (d d1 : Decoder) (t : Token) (h : d.rawToken = Next.tok t d1) :
    d1.input <:+ d.input := by
  unfold Decoder.rawToken at h
  by_cases hc : d.needClose = true
  · rw [if_pos hc] at h
    simp only [Next.tok.injEq] at h
    rw [← h.2]
  · rw [if_neg hc] at h
    rcases d with ⟨input, stk, nc, tc, ns⟩
    simp only at h hc ⊢
    repeat' split at h
    all_goals first
      | (simp at h; done)
      | (simp only [Next.tok.injEq] at h
         obtain ⟨-, rfl⟩ := h
         simp only
         first
           | exact text_suffix _ _ _ _ _ (by assumption)
           | exact suffix_cons2 _ _ ((space_cons_suffix _ _ _ (by assumption)).trans
               (nsname_suffix _ _ _ (by assumption)))
           | exact suffix_cons2 _ _ ((procInstLoop_space_suffix _ _ _ _ _ (by assumption)).trans
               (name_suffix _ _ _ (by assumption)))
           | exact suffix_cons4 _ _ _ _ (commentLoop_suffix _ _ _ _ _ _ (by assumption))
           | exact suffix_cons3 _ _ _ ((text_suffix _ _ _ _ _ (by assumption)).trans
               (List.drop_suffix _ _))
           | exact suffix_cons3 _ _ _ (directiveLoop_suffix _ _ _ _ _ _ _ _ (by assumption))
           | exact ((attrLoop_suffix _ _ _ _ _ _ (by assumption)).trans
               (nsname_suffix _ _ _ (by assumption))).trans (List.suffix_cons _ _))

/-- What `Token` leaves unread is a suffix of the input it was given. -/
theorem Token_suffix (d d1 : Decoder) (t : Token) (h : d.Token = Next.tok t d1) :
    d1.input <:+ d.input := by
  obtain ⟨t2, d2, hr, h1, -, -⟩ := Token_rawToken d d1 t h
  rw [h1]
  exact rawToken_suffix _ _ _ hr

end xml
end Ooxmlx

/-! ## Character data goes through the formatter -/

namespace Ooxmlx
namespace xml
open transform (Error)
open utf8

/-- The decoder after `k` tokens has a suffix of the input left, and `k` is at most
twice the number of bytes read. -/
theorem after_suffix : ∀ (k : Nat) (d0 d : Decoder), d0.after k = some d →
    d.input <:+ d0.input ∧
      2 * d.input.length + (if d.needClose then 1 else 0) + k
        ≤ 2 * d0.input.length + (if d0.needClose then 1 else 0) := by
  intro k
  induction k with
  | zero =>
    intro d0 d h
    simp only [Decoder.after, Option.some.injEq] at h
    subst h
    exact ⟨List.suffix_refl _, Nat.le_refl _⟩
  | succ n ih =>
    intro d0 d h
    simp only [Decoder.after] at h
    cases ht : d0.Token with
    | eof => rw [ht] at h; simp at h
    | err e => rw [ht] at h; simp at h
    | tok t d1 =>
      rw [ht] at h
      simp only at h
      obtain ⟨h1, h2⟩ := ih d1 d h
      have h3 := Token_suffix _ _ _ ht
      have h4 := Token_measure _ _ _ ht
      exact ⟨h1.trans h3, by omega⟩

/-- Text without `<`, `&` and carriage return is read as it stands, up to the next `<`
or the end of the input. -/
theorem textLoop_raw (D : Bytes) : ∀ (fuel : Nat) (buf : Bytes) (b0 b1 : Nat)
    (rest data r : Bytes), (∀ b ∈ D, b ≠ 0x3C ∧ b ≠ 0x26 ∧ b ≠ 0x0D) → b1 ≠ 0x0D →
    (∀ b, rest.head? = some b → b = 0x3C) →
    textLoop none false fuel (D ++ rest) buf b0 b1 = .ok (data, r) →
    data = buf ++ D ∧ r = rest := by
  induction D with
  | nil =>
    intro fuel buf b0 b1 rest data r _ _ hr h
    cases fuel with
    | zero => simp [textLoop] at h
    | succ n =>
      cases rest with
      | nil =>
        simp [textLoop] at h
        simp [h.1, h.2]
      | cons b t =>
        have hb : b = 0x3C := hr b rfl
        subst hb
        simp [textLoop] at h
        simp [h.1, h.2]
  | cons b D' ih =>
    intro fuel buf b0 b1 rest data r hD hb1 hr h
    cases fuel with
    | zero => simp [textLoop] at h
    | succ n =>
      obtain ⟨h1, h2, h3⟩ := hD b (List.mem_cons_self _ _)
      simp only [List.cons_append, textLoop] at h
      by_cases hc : True ∧ b0 = 0x5D ∧ b1 = 0x5D ∧ b = 0x3E
      · rw [if_pos hc] at h
        simp at h
      · rw [if_neg hc] at h
        have e2 : ¬ (b = 0x3C ∧ (!false) = true) := fun hx => h1 hx.1
        have e3 : ¬ ((none : Option Nat) = some b) := by simp
        have e4 : ¬ (b = 0x26 ∧ (!false) = true) := fun hx => h2 hx.1
        have e6 : ¬ (b1 = 0x0D ∧ b = 0x0A) := fun hx => hb1 hx.1
        rw [if_neg e2, if_neg e3, if_neg e4, if_neg h3, if_neg e6] at h
        obtain ⟨i1, i2⟩ := ih n (buf ++ [b]) b1 b rest data r
          (fun x hx => hD x (List.mem_cons_of_mem _ hx)) h3 hr h
        exact ⟨by simp [i1], i2⟩

/-- At a run of text the decoder returns the run as one character-data token. -/
theorem Token_text (d : Decoder) (D rest : Bytes) (hc : d.needClose = false)
    (hi : d.input = D ++ rest) (hD : D ≠ [])
    (hs : ∀ b ∈ D, b ≠ 0x3C ∧ b ≠ 0x26 ∧ b ≠ 0x0D)
    (hr : ∀ b, rest.head? = some b → b = 0x3C)
    (hne : ∀ e, d.Token ≠ Next.err e) :
    d.Token = Next.tok (Token.CharData D) { d with input := rest } := by
  rcases d with ⟨input, stk, nc, tc, ns⟩
  simp only at hc hi
  subst hc hi
  rcases D with _ | ⟨b, D'⟩
  · exact absurd rfl hD
  have hb : b ≠ 0x3C := (hs b (List.mem_cons_self _ _)).1
  have hraw : ∀ x, Decoder.rawToken ⟨b :: D' ++ rest, stk, false, tc, ns⟩ = x →
      Decoder.Token ⟨b :: D' ++ rest, stk, false, tc, ns⟩ =
        (match x with
          | Next.tok (Token.CharData c) d1 => Next.tok (Token.CharData c) d1
          | Next.err e => Next.err e
          | y => y) ∨ ¬ (∃ c d1, x = Next.tok (Token.CharData c) d1) ∧ ¬ (∃ e, x = Next.err e) := by
    intro x hx
    unfold Decoder.Token
    rw [hx]
    rcases x with _ | e | ⟨t, d1⟩
    · right; simp
    · left; rfl
    · rcases t with ⟨nm, attr⟩ | nm | data | data | ⟨target, inst⟩ | data
      · right; simp
      · right; simp
      · left; rfl
      · right; simp
      · right; simp
      · right; simp
  cases ht : text none false (b :: (D' ++ rest)) with
  | error e =>
    have hrt : Decoder.rawToken ⟨b :: D' ++ rest, stk, false, tc, ns⟩ = Next.err e := by
      simp [Decoder.rawToken, hb, ht]
    rcases hraw _ hrt with h | ⟨-, h⟩
    · exact absurd h (hne e)
    · exact absurd ⟨e, rfl⟩ h
  | ok p =>
    obtain ⟨data, r⟩ := p
    have hrt : Decoder.rawToken ⟨b :: D' ++ rest, stk, false, tc, ns⟩ =
        Next.tok (Token.CharData data) ⟨r, stk, false, tc, ns⟩ := by
      simp [Decoder.rawToken, hb, ht]
    rcases hraw _ hrt with h | ⟨h, -⟩
    · simp only at h
      rw [h]
      unfold text at ht
      split at ht
      · simp at ht
      · rename_i d2 r2 htl
        split at ht
        · simp at ht
        · simp only [Except.ok.injEq, Prod.mk.injEq] at ht
          obtain ⟨i1, i2⟩ := textLoop_raw (b :: D') _ [] 0 0 rest d2 r2 hs (by decide) hr htl
          rw [← ht.1, ← ht.2, i1, i2]
          simp
    · exact absurd ⟨_, _, rfl⟩ h

end xml

namespace xmlutil
open xml

/-- When the loop of `TryPrettify` ends without error, it has passed through the state
of the decoder after `k` tokens, for every `k` tokens that can be read. -/
theorem tokenLoop_after : ∀ (k fuel : Nat) (d0 d : Decoder) (enc enc' : Encoder),
    tokenLoop fuel d0 enc = (none, enc') → d0.after k = some d → k < fuel →
    ∃ enck, tokenLoop (fuel - k) d enck = (none, enc') := by
  intro k
  induction k with
  | zero =>
    intro fuel d0 d enc enc' h hk _
    simp only [Decoder.after, Option.some.injEq] at hk
    subst hk
    exact ⟨enc, h⟩
  | succ n ih =>
    intro fuel d0 d enc enc' h hk hf
    cases fuel with
    | zero => omega
    | succ m =>
      simp only [Decoder.after] at hk
      simp only [tokenLoop] at h
      cases ht : d0.Token with
      | eof => rw [ht] at hk; simp at hk
      | err e => rw [ht] at hk; simp at hk
      | tok t d1 =>
        rw [ht] at hk h
        simp only at hk h
        rcases he : enc.EncodeToken t with ⟨enc1, _ | err⟩
        · rw [he] at h
          simp only at h
          obtain ⟨enck, hk2⟩ := ih m d1 d enc1 enc' h hk (by omega)
          exact ⟨enck, by rw [Nat.succ_sub_succ]; exact hk2⟩
        · rw [he] at h; simp at h

/-- When the loop of `TryPrettify` ends without error from a decoder that stands at a
run of text, the run is written through `escapeText`. -/
theorem tokenLoop_text (fuel : Nat) (d : Decoder) (enc enc' : Encoder) (D rest : Bytes)
    (h : tokenLoop fuel d enc = (none, enc')) (hf : 0 < fuel)
    (hc : d.needClose = false) (hi : d.input = D ++ rest) (hD : D ≠ [])
    (hs : ∀ b ∈ D, b ≠ 0x3C ∧ b ≠ 0x26 ∧ b ≠ 0x0D)
    (hr : ∀ b, rest.head? = some b → b = 0x3C) :
    d.Token = Next.tok (Token.CharData D) { d with input := rest } ∧
      escapeText D false <:+: enc'.w := by
  cases fuel with
  | zero => omega
  | succ m =>
    have hne : ∀ e, d.Token ≠ Next.err e := by
      intro e he
      simp [tokenLoop, he] at h
    have ht := Token_text d D rest hc hi hD hs hr hne
    refine ⟨ht, ?_⟩
    simp only [tokenLoop, ht] at h
    rcases he : enc.EncodeToken (Token.CharData D) with ⟨enc1, _ | err⟩
    · rw [he] at h
      simp only at h
      obtain ⟨-, e2⟩ := EncodeToken_w enc enc1 _ none he
      obtain ⟨i1, -⟩ := tokenLoop_chardata m _ enc1 enc' h
      obtain ⟨post, hpost⟩ := i1
      refine ⟨enc.w, post, ?_⟩
      rw [← hpost, e2 D rfl]
    · rw [he] at h; simp at h

end xmlutil
end Ooxmlx

/-! ## Reading back what the encoder wrote -/

namespace Ooxmlx
namespace xml
open transform (Error)
open utf8

theorem escapeLoop_acc (nl : Bool) : ∀ (f : Nat) (s out : Bytes),
    escapeLoop nl f s out = out ++ escapeLoop nl f s [] := by
  intro f
  induction f with
  | zero => intro s out; simp [escapeLoop]
  | succ n ih =>
    intro s out
    simp only [escapeLoop]
    split_ifs
    · simp
    · cases escapeOf nl (DecodeRune s).1 (DecodeRune s).2 with
      | none =>
        simp only
        rw [ih _ (out ++ _), ih _ ([] ++ _)]
        simp
      | some esc =>
        simp only
        rw [ih _ (out ++ esc), ih _ ([] ++ esc)]
        simp

/-- On an ASCII byte `escapeText` writes the escape of the byte, or the byte. -/
theorem escapeText_cons (nl : Bool) (b : Nat) (V : Bytes) (hb : b < 0x80) :
    escapeText (b :: V) nl = (escapeOf nl b 1).getD [b] ++ escapeText V nl := by
  unfold escapeText
  simp only [List.length_cons, escapeLoop, Nat.add_one_ne_zero, if_false]
  rw [DecodeRune_ascii b V hb]
  cases escapeOf nl b 1 with
  | none =>
    simp only [List.drop_succ_cons, List.drop_zero, Option.getD_none]
    rw [escapeLoop_acc]
    simp
  | some esc =>
    simp only [List.drop_succ_cons, List.drop_zero, Option.getD_some]
    rw [escapeLoop_acc]
    simp

theorem escapeText_nil (nl : Bool) : escapeText [] nl = [] := by
  simp [escapeText, escapeLoop]

/-- The escape of a printable ASCII byte. -/
theorem escapeOf_printable (nl : Bool) (b : Nat) (hb : 0x20 ≤ b ∧ b ≤ 0x7E) :
    (b = 0x22 ∧ escapeOf nl b 1 = some (lit "&#34;")) ∨
    (b = 0x27 ∧ escapeOf nl b 1 = some (lit "&#39;")) ∨
    (b = 0x26 ∧ escapeOf nl b 1 = some (lit "&amp;")) ∨
    (b = 0x3C ∧ escapeOf nl b 1 = some (lit "&lt;")) ∨
    (b = 0x3E ∧ escapeOf nl b 1 = some (lit "&gt;")) ∨
    (b ≠ 0x22 ∧ b ≠ 0x27 ∧ b ≠ 0x26 ∧ b ≠ 0x3C ∧ b ≠ 0x3E ∧ escapeOf nl b 1 = none) := by
  by_cases h1 : b = 0x22
  · left; subst h1; exact ⟨rfl, rfl⟩
  by_cases h2 : b = 0x27
  · right; left; subst h2; exact ⟨rfl, rfl⟩
  by_cases h3 : b = 0x26
  · right; right; left; subst h3; exact ⟨rfl, rfl⟩
  by_cases h4 : b = 0x3C
  · right; right; right; left; subst h4; exact ⟨rfl, rfl⟩
  by_cases h5 : b = 0x3E
  · right; right; right; right; left; subst h5; exact ⟨rfl, rfl⟩
  right; right; right; right; right
  refine ⟨h1, h2, h3, h4, h5, ?_⟩
  have h6 : ¬ b = 0x09 := by omega
  have h7 : ¬ b = 0x0A := by omega
  have h8 : ¬ b = 0x0D := by omega
  have h9 : isInCharacterRange b = true := by
    simp only [isInCharacterRange, Bool.or_eq_true, Bool.decide_or, Bool.decide_and,
      Bool.and_eq_true, decide_eq_true_eq]
    omega
  have h10 : ¬ ((!isInCharacterRange b) = true ∨ (b = 0xFFFD ∧ 1 = 1)) := by
    rw [h9]
    simp only [Bool.not_true, Bool.false_eq_true, false_or, and_true]
    omega
  unfold escapeOf
  rw [if_neg h1, if_neg h2, if_neg h3, if_neg h4, if_neg h5, if_neg h6, if_neg h7, if_neg h8,
    if_neg h10]

/-- One turn of the loop of `d.text` on the escape of a printable byte reads the byte
back. -/
theorem textLoop_escaped_step (q : Option Nat) (nl : Bool) (b : Nat) (X buf : Bytes)
    (b0 b1 f : Nat) (hq : q = none ∨ q = some 0x22) (hb : 0x20 ≤ b ∧ b ≤ 0x7E) :
    ∃ c0 c1, textLoop q false (f + 1) ((escapeOf nl b 1).getD [b] ++ X) buf b0 b1
      = textLoop q false f X (buf ++ [b]) c0 c1 := by
  rcases escapeOf_printable nl b hb with ⟨rfl, h⟩ | ⟨rfl, h⟩ | ⟨rfl, h⟩ | ⟨rfl, h⟩ | ⟨rfl, h⟩ |
    ⟨h1, h2, h3, h4, h5, h⟩
  · refine ⟨0, 0, ?_⟩
    rw [h]
    rcases hq with rfl | rfl <;>
      simp [textLoop, lit, readEntity, digitsLoop, parseUint, digitVal, encodeRune, MaxRune]
  · refine ⟨0, 0, ?_⟩
    rw [h]
    rcases hq with rfl | rfl <;>
      simp [textLoop, lit, readEntity, digitsLoop, parseUint, digitVal, encodeRune, MaxRune]
  · refine ⟨0, 0, ?_⟩
    rw [h]
    rcases hq with rfl | rfl <;>
      simp [textLoop, lit, readEntity, readName, readNameLoop, isNameByte, RuneSelf, entity,
        encodeRune]
  · refine ⟨0, 0, ?_⟩
    rw [h]
    rcases hq with rfl | rfl <;>
      simp [textLoop, lit, readEntity, readName, readNameLoop, isNameByte, RuneSelf, entity,
        encodeRune]
  · refine ⟨0, 0, ?_⟩
    rw [h]
    rcases hq with rfl | rfl <;>
      simp [textLoop, lit, readEntity, readName, readNameLoop, isNameByte, RuneSelf, entity,
        encodeRune]
  · refine ⟨b1, b, ?_⟩
    rw [h]
    have e1 : ¬ (q = none ∧ b0 = 0x5D ∧ b1 = 0x5D ∧ b = 0x3E) := fun hx => h5 hx.2.2.2
    have e2 : ¬ (b = 0x3C ∧ (!false) = true) := fun hx => h4 hx.1
    have e3 : ¬ (q = some b) := by
      rcases hq with rfl | rfl
      · simp
      · simp only [Option.some.injEq]; omega
    have e4 : ¬ (b = 0x26 ∧ (!false) = true) := fun hx => h3 hx.1
    have e5 : ¬ b = 0x0D := by omega
    have e6 : ¬ (b1 = 0x0D ∧ b = 0x0A) := by omega
    simp only [Option.getD_none, List.singleton_append, textLoop, if_neg e1, if_neg e2,
      if_neg e3, if_neg e4, if_neg e5, if_neg e6]

/-- The loop of `d.text` on escaped text, outside quotes: the text is read back. -/
theorem textLoop_escaped_text (nl : Bool) (V : Bytes) : ∀ (fuel : Nat) (buf : Bytes)
    (b0 b1 : Nat) (rest : Bytes), (∀ b ∈ V, 0x20 ≤ b ∧ b ≤ 0x7E) → V.length < fuel →
    textLoop none false fuel (escapeText V nl ++ 0x3C :: rest) buf b0 b1
      = .ok (buf ++ V, 0x3C :: rest) := by
  induction V with
  | nil =>
    intro fuel buf b0 b1 rest _ hf
    obtain ⟨n, rfl⟩ : ∃ n, fuel = n + 1 := ⟨fuel - 1, by simp at hf; omega⟩
    simp [escapeText_nil, textLoop]
  | cons b V' ih =>
    intro fuel buf b0 b1 rest hV hf
    obtain ⟨n, rfl⟩ : ∃ n, fuel = n + 1 := ⟨fuel - 1, by simp at hf; omega⟩
    have hb := hV b (List.mem_cons_self _ _)
    rw [escapeText_cons nl b V' (by omega), List.append_assoc]
    obtain ⟨c0, c1, hstep⟩ := textLoop_escaped_step none nl b (escapeText V' nl ++ 0x3C :: rest)
      buf b0 b1 n (Or.inl rfl) hb
    rw [hstep, ih n _ c0 c1 rest (fun x hx => hV x (List.mem_cons_of_mem _ hx))
      (by simp at hf; omega)]
    simp

/-- The loop of `d.text` on an escaped value in double quotes: the value is read
back. -/
theorem textLoop_escaped_attr (nl : Bool) (V : Bytes) : ∀ (fuel : Nat) (buf : Bytes)
    (b0 b1 : Nat) (rest : Bytes), (∀ b ∈ V, 0x20 ≤ b ∧ b ≤ 0x7E) → V.length < fuel →
    textLoop (some 0x22) false fuel (escapeText V nl ++ 0x22 :: rest) buf b0 b1
      = .ok (buf ++ V, rest) := by
  induction V with
  | nil =>
    intro fuel buf b0 b1 rest _ hf
    obtain ⟨n, rfl⟩ : ∃ n, fuel = n + 1 := ⟨fuel - 1, by simp at hf; omega⟩
    simp [escapeText_nil, textLoop]
  | cons b V' ih =>
    intro fuel buf b0 b1 rest hV hf
    obtain ⟨n, rfl⟩ : ∃ n, fuel = n + 1 := ⟨fuel - 1, by simp at hf; omega⟩
    have hb := hV b (List.mem_cons_self _ _)
    rw [escapeText_cons nl b V' (by omega), List.append_assoc]
    obtain ⟨c0, c1, hstep⟩ := textLoop_escaped_step (some 0x22) nl b
      (escapeText V' nl ++ 0x22 :: rest) buf b0 b1 n (Or.inr rfl) hb
    rw [hstep, ih n _ c0 c1 rest (fun x hx => hV x (List.mem_cons_of_mem _ hx))
      (by simp at hf; omega)]
    simp

/-- The loop of `d.text` on a quoted value without `<`, `&` and the quote. -/
theorem textLoop_quoted (qc : Nat) (V : Bytes) : ∀ (fuel : Nat) (buf : Bytes)
    (b0 b1 : Nat) (rest : Bytes),
    (∀ b ∈ V, 0x20 ≤ b ∧ b ≤ 0x7E ∧ b ≠ 0x3C ∧ b ≠ 0x26 ∧ b ≠ qc) → qc ≠ 0x3C →
    V.length < fuel →
    textLoop (some qc) false fuel (V ++ qc :: rest) buf b0 b1 = .ok (buf ++ V, rest) := by
  induction V with
  | nil =>
    intro fuel buf b0 b1 rest _ hq hf
    obtain ⟨n, rfl⟩ : ∃ n, fuel = n + 1 := ⟨fuel - 1, by simp at hf; omega⟩
    simp [textLoop, hq]
  | cons b V' ih =>
    intro fuel buf b0 b1 rest hV hq hf
    obtain ⟨n, rfl⟩ : ∃ n, fuel = n + 1 := ⟨fuel - 1, by simp at hf; omega⟩
    obtain ⟨h1, h2, h3, h4, h5⟩ := hV b (List.mem_cons_self _ _)
    have e1 : ¬ ((some qc : Option Nat) = none ∧ b0 = 0x5D ∧ b1 = 0x5D ∧ b = 0x3E) := by simp
    have e2 : ¬ (b = 0x3C ∧ (!false) = true) := fun hx => h3 hx.1
    have e3 : ¬ ((some qc : Option Nat) = some b) := by
      simp only [Option.some.injEq]; exact fun hx => h5 hx.symm
    have e4 : ¬ (b = 0x26 ∧ (!false) = true) := fun hx => h4 hx.1
    have e5 : ¬ b = 0x0D := by omega
    have e6 : ¬ (b1 = 0x0D ∧ b = 0x0A) := by omega
    simp only [List.cons_append, textLoop, if_neg e1, if_neg e2, if_neg e3, if_neg e4,
      if_neg e5, if_neg e6]
    rw [ih n _ _ _ rest (fun x hx => hV x (List.mem_cons_of_mem _ hx)) hq (by simp at hf; omega)]
    simp

/-- The loop of `d.text` on text without `<` and `&` in which `]]>` does not occur. -/
theorem textLoop_source (D : Bytes) : ∀ (fuel : Nat) (buf : Bytes) (b0 b1 : Nat) (rest : Bytes),
    (∀ b ∈ D, 0x20 ≤ b ∧ b ≤ 0x7E ∧ b ≠ 0x3C ∧ b ≠ 0x26) →
    ¬ lit "]]>" <:+: (b0 :: b1 :: D) → D.length < fuel →
    textLoop none false fuel (D ++ 0x3C :: rest) buf b0 b1 = .ok (buf ++ D, 0x3C :: rest) := by
  induction D with
  | nil =>
    intro fuel buf b0 b1 rest _ _ hf
    obtain ⟨n, rfl⟩ : ∃ n, fuel = n + 1 := ⟨fuel - 1, by simp at hf; omega⟩
    simp [textLoop]
  | cons b D' ih =>
    intro fuel buf b0 b1 rest hD hcd hf
    obtain ⟨n, rfl⟩ : ∃ n, fuel = n + 1 := ⟨fuel - 1, by simp at hf; omega⟩
    obtain ⟨h1, h2, h3, h4⟩ := hD b (List.mem_cons_self _ _)
    have e1 : ¬ ((none : Option Nat) = none ∧ b0 = 0x5D ∧ b1 = 0x5D ∧ b = 0x3E) := by
      rintro ⟨-, rfl, rfl, rfl⟩
      exact hcd ⟨[], D', rfl⟩
    have e2 : ¬ (b = 0x3C ∧ (!false) = true) := fun hx => h3 hx.1
    have e3 : ¬ ((none : Option Nat) = some b) := by simp
    have e4 : ¬ (b = 0x26 ∧ (!false) = true) := fun hx => h4 hx.1
    have e5 : ¬ b = 0x0D := by omega
    have e6 : ¬ (b1 = 0x0D ∧ b = 0x0A) := by omega
    have hcd' : ¬ lit "]]>" <:+: (b1 :: b :: D') := by
      rintro ⟨pre, post, hp⟩
      exact hcd ⟨b0 :: pre, post, by simp [← hp]⟩
    have e1' : ¬ (True ∧ b0 = 0x5D ∧ b1 = 0x5D ∧ b = 0x3E) := fun hx => e1 ⟨rfl, hx.2⟩
    have e1'' : ¬ (b0 = 0x5D ∧ b1 = 0x5D ∧ b = 0x3E) := fun hx => e1 ⟨rfl, hx⟩
    simp only [List.cons_append, textLoop, true_and, if_neg e1'', if_neg e2, if_neg e3,
      if_neg e4, if_neg e5, if_neg e6]
    rw [ih n _ _ _ rest (fun x hx => hD x (List.mem_cons_of_mem _ hx)) hcd' (by simp at hf; omega)]
    simp

end xml
end Ooxmlx

/-! ## Documents that are one element -/

namespace Ooxmlx
namespace xml
open transform (Error)
open utf8

theorem isNameByte_of_first (b : Nat) (h : isFirstASCII b = true ∨ isSecondASCII b = true) :
    b < RuneSelf ∧ isNameByte b = true := by
  simp only [isFirstASCII, isSecondASCII, isNameByte, RuneSelf, Bool.or_eq_true,
    Bool.decide_or, Bool.decide_and, Bool.and_eq_true, decide_eq_true_eq] at h ⊢
  omega

theorem PlainName_bytes (n : Bytes) (h : PlainName n) :
    ∃ c n', n = c :: n' ∧ isFirstASCII c = true ∧ c ≠ 0x3A ∧
      ∀ b ∈ n, b < RuneSelf ∧ isNameByte b = true := by
  obtain ⟨h1, h2⟩ := h
  rcases n with _ | ⟨c, n'⟩
  · simp [isNameASCII] at h1
  · simp only [isNameASCII, Bool.and_eq_true, List.all_eq_true, Bool.or_eq_true] at h1
    refine ⟨c, n', rfl, h1.1, fun e => h2 (by simp [e]), ?_⟩
    intro b hb
    rcases List.mem_cons.mp hb with rfl | hb
    · exact isNameByte_of_first _ (Or.inl h1.1)
    · exact isNameByte_of_first _ (h1.2 b hb)

theorem first_not_markup (c : Nat) (h : isFirstASCII c = true) :
    c ≠ 0x2F ∧ c ≠ 0x3F ∧ c ≠ 0x21 ∧ c ≠ 0x3C ∧ c ≠ 0x20 ∧ c ≠ 0x09 ∧ c ≠ 0x0D ∧ c ≠ 0x0A ∧
      c ≠ 0x3E := by
  simp only [isFirstASCII, Bool.or_eq_true, Bool.decide_or, Bool.decide_and, Bool.and_eq_true,
    decide_eq_true_eq] at h
  omega

theorem readNameLoop_name (n : Bytes) :
    ∀ (acc : Bytes) (e : Nat) (r : Bytes), (∀ b ∈ n, b < RuneSelf ∧ isNameByte b = true) →
      e < RuneSelf → isNameByte e = false →
      readNameLoop (n ++ e :: r) acc = some (acc ++ n, e :: r) := by
  induction n with
  | nil => intro acc e r _ h1 h2; simp [readNameLoop, h1, h2]
  | cons b t ih =>
    intro acc e r hn h1 h2
    have hb := hn b (by simp)
    rw [List.cons_append, readNameLoop]
    simp only [hb.2, Bool.not_true, Bool.false_eq_true, and_false, if_false]
    rw [ih _ e r (fun x hx => hn x (by simp [hx])) h1 h2]
    simp

/-- A plain name followed by a byte that ends it is read as a local name. -/
theorem nsname_name (n : Bytes) (e : Nat) (r : Bytes) (hn : PlainName n)
    (h1 : e < RuneSelf) (h2 : isNameByte e = false) :
    nsname (n ++ e :: r) = .ok (some ({ Space := [], Local := n }, e :: r)) := by
  obtain ⟨c, n', rfl, hc, hcol, hb⟩ := PlainName_bytes n hn
  have hcb := hb c (by simp)
  have hloop := readNameLoop_name n' [c] e r (fun x hx => hb x (by simp [hx])) h1 h2
  have hany : (c :: n').any (fun b => decide (RuneSelf ≤ b)) = false := by
    rw [List.any_eq_false]
    intro x hx
    have := (hb x hx).1
    simp only [decide_eq_true_eq]; omega
  have hcount : ¬ (List.count 0x3A (c :: n') > 1) := by
    rw [List.count_eq_zero_of_not_mem hn.2]
    omega
  have hmem : ¬ (0x3A ∈ c :: n') := hn.2
  simp only [List.singleton_append] at hloop
  simp only [nsname, name, readName, List.cons_append, hcb.2, Bool.not_true, Bool.false_eq_true,
    and_false, if_false, hloop, hany, hn.1, if_neg hcount]
  rw [if_pos (Or.inl hmem)]

theorem checkChars_plain (n : Nat) :
    ∀ s : Bytes, (∀ b ∈ s, 0x20 ≤ b ∧ b ≤ 0x7E) → checkChars n s = none := by
  induction n with
  | zero => intro s _; simp [checkChars]
  | succ n ih =>
    intro s h
    rcases s with _ | ⟨b, t⟩
    · simp [checkChars]
    · have hb := h b (by simp)
      unfold checkChars
      rw [DecodeRune_ascii b t (by omega)]
      have h1 : ¬ (b = RuneError ∧ True) := by simp only [RuneError]; omega
      have h2 : isInCharacterRange b = true := by
        simp only [isInCharacterRange, Bool.or_eq_true, Bool.decide_or, Bool.decide_and,
          Bool.and_eq_true, decide_eq_true_eq]
        omega
      simp only [List.length_cons, Nat.add_one_ne_zero, if_false, h1, h2, Bool.not_true,
        Bool.false_eq_true, List.drop_succ_cons, List.drop_zero]
      exact ih t (fun x hx => h x (by simp [hx]))

/-- A quoted value without `<`, `&` and the quote is read as it stands. -/
theorem attrval_quoted (qc : Nat) (V rest : Bytes) (hq : qc = 0x22 ∨ qc = 0x27)
    (hV : ∀ b ∈ V, 0x20 ≤ b ∧ b ≤ 0x7E ∧ b ≠ 0x3C ∧ b ≠ 0x26 ∧ b ≠ qc) :
    attrval (qc :: (V ++ qc :: rest)) = .ok (V, rest) := by
  have hq3 : qc ≠ 0x3C := by omega
  simp only [attrval, if_pos hq, text]
  rw [textLoop_quoted qc V _ [] 0 0 rest hV hq3
    (by simp only [List.length_append, List.length_cons]; omega)]
  simp only [List.nil_append]
  rw [checkChars_plain _ V (fun b hb => ⟨(hV b hb).1, (hV b hb).2.1⟩)]

/-- An escaped value in double quotes is read back. -/
theorem attrval_escaped (V rest : Bytes) (hV : ∀ b ∈ V, 0x20 ≤ b ∧ b ≤ 0x7E) :
    attrval (0x22 :: (escapeText V true ++ 0x22 :: rest)) = .ok (V, rest) := by
  have hlen : V.length ≤ (escapeText V true).length := by
    clear rest
    induction V with
    | nil => simp
    | cons b V' ih =>
      have hb := hV b (List.mem_cons_self _ _)
      rw [escapeText_cons true b V' (by omega)]
      have := ih (fun x hx => hV x (List.mem_cons_of_mem _ hx))
      rcases escapeOf_printable true b hb with ⟨-, h⟩ | ⟨-, h⟩ | ⟨-, h⟩ | ⟨-, h⟩ | ⟨-, h⟩ |
        ⟨-, -, -, -, -, h⟩ <;> rw [h] <;> simp [lit] <;> omega
  simp only [attrval, text, true_or, if_true]
  rw [textLoop_escaped_attr true V _ [] 0 0 rest hV
    (by simp only [List.length_append, List.length_cons]; omega)]
  simp only [List.nil_append]
  rw [checkChars_plain _ V hV]

/-- Text without `<` and `&` in which `]]>` does not occur is read as it stands. -/
theorem text_source (D rest : Bytes)
    (hD : ∀ b ∈ D, 0x20 ≤ b ∧ b ≤ 0x7E ∧ b ≠ 0x3C ∧ b ≠ 0x26) (hcd : ¬ lit "]]>" <:+: D) :
    text none false (D ++ 0x3C :: rest) = .ok (D, 0x3C :: rest) := by
  have hcd' : ¬ lit "]]>" <:+: (0 :: 0 :: D) := by
    rintro ⟨pre, post, hp⟩
    rcases pre with _ | ⟨x, pre⟩
    · simp [lit] at hp
    rcases pre with _ | ⟨y, pre⟩
    · simp [lit] at hp
    · simp only [List.cons_append, List.cons.injEq] at hp
      exact hcd ⟨pre, post, hp.2.2⟩
  unfold text
  rw [textLoop_source D _ [] 0 0 rest hD hcd'
    (by simp only [List.length_append, List.length_cons]; omega)]
  simp only [List.nil_append]
  rw [checkChars_plain _ D (fun b hb => ⟨(hD b hb).1, (hD b hb).2.1⟩)]

/-- Escaped text is read back. -/
theorem text_escaped (D rest : Bytes) (hD : ∀ b ∈ D, 0x20 ≤ b ∧ b ≤ 0x7E) :
    text none false (escapeText D false ++ 0x3C :: rest) = .ok (D, 0x3C :: rest) := by
  have hlen : D.length ≤ (escapeText D false).length := by
    clear rest
    induction D with
    | nil => simp
    | cons b V' ih =>
      have hb := hD b (List.mem_cons_self _ _)
      rw [escapeText_cons false b V' (by omega)]
      have := ih (fun x hx => hD x (List.mem_cons_of_mem _ hx))
      rcases escapeOf_printable false b hb with ⟨-, h⟩ | ⟨-, h⟩ | ⟨-, h⟩ | ⟨-, h⟩ | ⟨-, h⟩ |
        ⟨-, -, -, -, -, h⟩ <;> rw [h] <;> simp [lit] <;> omega
  unfold text
  rw [textLoop_escaped_text false D _ [] 0 0 rest hD
    (by simp only [List.length_append, List.length_cons]; omega)]
  simp only [List.nil_append]
  rw [checkChars_plain _ D hD]

/-- The loop over the attributes reads a list of attributes, each written after one
space with a plain name and a quoted value that `attrval` reads as `p.2`. -/
theorem attrLoop_attrs (l : List (xmlutil.AttrSrc × Bytes)) :
    ∀ (fuel : Nat) (acc : List Attr) (tail : Bytes),
    (∀ p ∈ l, PlainName p.1.name ∧
      ∀ rest, attrval (p.1.quote :: (p.1.value ++ p.1.quote :: rest)) = .ok (p.2, rest)) →
    (∀ p ∈ l, p.1.quote = 0x22 ∨ p.1.quote = 0x27) →
    (l.flatMap (fun p => p.1.render) ++ tail).length < fuel →
    attrLoop fuel (l.flatMap (fun p => p.1.render) ++ tail) acc
      = attrLoop (tail.length + 1) tail
          (acc ++ l.map (fun p => { Name := { Space := [], Local := p.1.name }, Value := p.2 })) := by
  induction l with
  | nil =>
    intro fuel acc tail _ _ hf
    simp only [List.flatMap_nil, List.nil_append, List.map_nil, List.append_nil] at hf ⊢
    exact attrLoop_fuel _ _ _ _ hf (by omega)
  | cons p l' ih =>
    intro fuel acc tail hl hq hf
    obtain ⟨n, rfl⟩ : ∃ n, fuel = n + 1 := ⟨fuel - 1, by omega⟩
    obtain ⟨hn, hv⟩ := hl p (List.mem_cons_self _ _)
    have hqp := hq p (List.mem_cons_self _ _)
    obtain ⟨c, n', hcn, hc, -, -⟩ := PlainName_bytes _ hn
    obtain ⟨m1, -, -, -, m5, m6, m7, m8, m9⟩ := first_not_markup c hc
    have hshape : (p :: l').flatMap (fun p => p.1.render) ++ tail
        = 0x20 :: (p.1.name ++ 0x3D :: p.1.quote ::
            (p.1.value ++ p.1.quote :: (l'.flatMap (fun p => p.1.render) ++ tail))) := by
      simp [List.flatMap_cons, xmlutil.AttrSrc.render]
    rw [hshape] at hf ⊢
    have hns := nsname_name p.1.name 0x3D (p.1.quote ::
      (p.1.value ++ p.1.quote :: (l'.flatMap (fun p => p.1.render) ++ tail))) hn
      (by decide) (by decide)
    have hrec := ih n (acc ++ [{ Name := { Space := [], Local := p.1.name }, Value := p.2 }]) tail
      (fun x hx => hl x (List.mem_cons_of_mem _ hx)) (fun x hx => hq x (List.mem_cons_of_mem _ hx))
      (by simp only [List.length_cons, List.length_append] at hf ⊢; omega)
    have hsp1 : space (0x20 :: (p.1.name ++ 0x3D :: p.1.quote ::
        (p.1.value ++ p.1.quote :: (l'.flatMap (fun p => p.1.render) ++ tail))))
        = c :: (n' ++ 0x3D :: p.1.quote ::
        (p.1.value ++ p.1.quote :: (l'.flatMap (fun p => p.1.render) ++ tail))) := by
      rw [hcn]
      simp [space, m5, m6, m7, m8]
    have hsp3 : space (p.1.quote ::
        (p.1.value ++ p.1.quote :: (l'.flatMap (fun p => p.1.render) ++ tail)))
        = p.1.quote :: (p.1.value ++ p.1.quote :: (l'.flatMap (fun p => p.1.render) ++ tail)) := by
      rcases hqp with h | h <;> rw [h] <;> simp [space]
    rw [hcn] at hns
    simp only [List.cons_append] at hns
    rw [attrLoop, hsp1]
    simp only [if_neg m1, if_neg m9, hns]
    have hsp2 : ∀ r : Bytes, space (0x3D :: r) = 0x3D :: r := fun r => by simp [space]
    rw [hsp2]
    simp only [ne_eq, not_true_eq_false, if_false]
    rw [hsp3, hv]
    simp only [← hcn]
    rw [hrec]
    simp

/-- The attributes are translated to themselves when none declares a name space. -/
theorem bindAttrs_plain (attr : List Attr) (d : Decoder)
    (h : ∀ a ∈ attr, a.Name.Space = [] ∧ a.Name.Local ≠ xmlnsPrefix) :
    d.bindAttrs attr = d := by
  induction attr with
  | nil => rfl
  | cons a rest ih =>
    obtain ⟨h1, h2⟩ := h a (List.mem_cons_self _ _)
    have e1 : ¬ a.Name.Space = xmlnsPrefix := by rw [h1]; decide
    have e2 : ¬ (a.Name.Space = [] ∧ a.Name.Local = xmlnsPrefix) := fun hx => h2 hx.2
    simp only [Decoder.bindAttrs, if_neg e1, if_neg e2]
    exact ih (fun x hx => h x (List.mem_cons_of_mem _ hx))

/-- The encoder writes attributes without name space one after the other. -/
theorem writeAttrs_plain (attr : List Attr) : ∀ (p : Encoder),
    (∀ a ∈ attr, a.Name.Space = [] ∧ a.Name.Local ≠ []) →
    p.writeAttrs attr = ({ p with w := p.w ++ attr.flatMap (fun a =>
      0x20 :: (a.Name.Local ++ 0x3D :: 0x22 :: (escapeText a.Value true ++ [0x22]))) }, none) := by
  induction attr with
  | nil => intro p _; simp [Encoder.writeAttrs]
  | cons a rest ih =>
    intro p h
    obtain ⟨h1, h2⟩ := h a (List.mem_cons_self _ _)
    have e1 : ¬ (a.Name.Space ≠ []) := by rw [h1]; simp
    simp only [Encoder.writeAttrs, if_neg h2, if_neg e1]
    rw [ih _ (fun x hx => h x (List.mem_cons_of_mem _ hx))]
    simp [Encoder.WriteByte, Encoder.WriteString, Encoder.EscapeString, lit]

/-- A name without prefix is translated to itself when no default name space is
declared. -/
theorem translate_local (d : Decoder) (a : Bytes) (b : Bool) (hd : d.ns [] = none) :
    d.translate ⟨[], a⟩ b = ⟨[], a⟩ := by
  have e1 : ¬ (([] : Bytes) = xmlnsPrefix) := by decide
  have e3 : ¬ (([] : Bytes) = xmlPrefix) := by decide
  simp only [Decoder.translate, if_neg e1, if_neg e3, hd]
  split_ifs <;> rfl

/-- The decoder reads a start tag with a plain name and attributes of the kind above;
`empty` tells whether the tag ends in `/>`. -/
theorem Token_start (n : Bytes) (l : List (xmlutil.AttrSrc × Bytes)) (rest : Bytes)
    (empty : Bool) (tc : Name) (ns : Bytes → Option Bytes) (hn : PlainName n)
    (hl : ∀ p ∈ l, PlainName p.1.name ∧
      ∀ rest, attrval (p.1.quote :: (p.1.value ++ p.1.quote :: rest)) = .ok (p.2, rest))
    (hq : ∀ p ∈ l, p.1.quote = 0x22 ∨ p.1.quote = 0x27)
    (hx : ∀ p ∈ l, p.1.name ≠ xmlnsPrefix) (hns : ns [] = none) :
    Decoder.Token ⟨0x3C :: (n ++ (l.flatMap (fun p => p.1.render) ++
        ((if empty then [0x2F, 0x3E] else [0x3E]) ++ rest))), [], false, tc, ns⟩
      = Next.tok (Token.StartElement ⟨[], n⟩
          (l.map (fun p => { Name := { Space := [], Local := p.1.name }, Value := p.2 })))
          ⟨rest, [StackEntry.start ⟨[], n⟩], empty, if empty then ⟨[], n⟩ else tc, ns⟩ := by
  obtain ⟨c, n', hcn, hc, -, -⟩ := PlainName_bytes n hn
  obtain ⟨m1, m2, m3, -⟩ := first_not_markup c hc
  have hX : ∃ e r, l.flatMap (fun p => p.1.render) ++
      ((if empty then [0x2F, 0x3E] else [0x3E]) ++ rest) = e :: r ∧ e < RuneSelf ∧
      isNameByte e = false := by
    rcases l with _ | ⟨p, l'⟩
    · cases empty
      · exact ⟨0x3E, rest, by simp, by decide, by decide⟩
      · exact ⟨0x2F, 0x3E :: rest, by simp, by decide, by decide⟩
    · exact ⟨0x20, _, by simp [List.flatMap_cons, xmlutil.AttrSrc.render]; rfl, by decide,
        by decide⟩
  obtain ⟨e, r, hXe, he1, he2⟩ := hX
  have hnsn := nsname_name n e r hn he1 he2
  rw [← hXe] at hnsn
  have hattr := attrLoop_attrs l
    ((l.flatMap (fun p => p.1.render) ++ ((if empty then [0x2F, 0x3E] else [0x3E]) ++ rest)).length + 1)
    [] ((if empty then [0x2F, 0x3E] else [0x3E]) ++ rest) hl hq (by omega)
  have htail : attrLoop (((if empty then [0x2F, 0x3E] else [0x3E]) ++ rest).length + 1)
      ((if empty then [0x2F, 0x3E] else [0x3E]) ++ rest)
      ([] ++ l.map (fun p => { Name := { Space := [], Local := p.1.name }, Value := p.2 }))
      = .ok (l.map (fun p => { Name := { Space := [], Local := p.1.name }, Value := p.2 }),
          empty, rest) := by
    cases empty <;> simp [attrLoop, space]
  rw [htail] at hattr
  have hraw : Decoder.rawToken ⟨0x3C :: (n ++ (l.flatMap (fun p => p.1.render) ++
        ((if empty then [0x2F, 0x3E] else [0x3E]) ++ rest))), [], false, tc, ns⟩
      = Next.tok (Token.StartElement ⟨[], n⟩
          (l.map (fun p => { Name := { Space := [], Local := p.1.name }, Value := p.2 })))
          ⟨rest, [], empty, if empty then ⟨[], n⟩ else tc, ns⟩ := by
    rw [hcn] at hnsn ⊢
    simp only [List.cons_append] at hnsn ⊢
    simp only [Decoder.rawToken, Bool.false_eq_true, if_false, ne_eq, not_true_eq_false,
      if_neg m1, if_neg m2, if_neg m3, hnsn, hattr]
  have hbind := bindAttrs_plain
    (l.map (fun p => { Name := { Space := [], Local := p.1.name }, Value := p.2 }))
    ⟨rest, [], empty, if empty then ⟨[], n⟩ else tc, ns⟩
    (by
      intro a ha
      obtain ⟨p, hp, rfl⟩ := List.mem_map.mp ha
      exact ⟨rfl, hx p hp⟩)
  unfold Decoder.Token
  rw [hraw]
  simp only [hbind]
  rw [translate_local _ _ _ hns]
  have hmap : ∀ (d : Decoder), d.ns [] = none →
      (l.map (fun p => ({ Name := { Space := [], Local := p.1.name }, Value := p.2 } : Attr))).map
          (fun a => { a with Name := d.translate a.Name false })
        = l.map (fun p => { Name := { Space := [], Local := p.1.name }, Value := p.2 }) := by
    intro d hd
    rw [List.map_map]
    apply List.map_congr_left
    intro p _
    simp only [Function.comp, translate_local _ _ _ hd]
  rw [hmap _ hns]

/-- The decoder reads the end tag that closes the one open element. -/
theorem Token_end (n rest : Bytes) (tc : Name) (ns : Bytes → Option Bytes) (hn : PlainName n)
    (hns : ns [] = none) :
    Decoder.Token ⟨0x3C :: 0x2F :: (n ++ 0x3E :: rest), [StackEntry.start ⟨[], n⟩], false, tc, ns⟩
      = Next.tok (Token.EndElement ⟨[], n⟩) ⟨rest, [], false, tc, ns⟩ := by
  have hnsn := nsname_name n 0x3E rest hn (by decide) (by decide)
  have hraw : Decoder.rawToken
      ⟨0x3C :: 0x2F :: (n ++ 0x3E :: rest), [StackEntry.start ⟨[], n⟩], false, tc, ns⟩
      = Next.tok (Token.EndElement ⟨[], n⟩) ⟨rest, [StackEntry.start ⟨[], n⟩], false, tc, ns⟩ := by
    simp [Decoder.rawToken, hnsn, space]
  unfold Decoder.Token
  rw [hraw]
  simp only [ne_eq, not_true_eq_false, if_false, undoNs]
  rw [translate_local _ _ _ hns]

/-- The decoder returns the pending end of a self-closing element. -/
theorem Token_close (input : Bytes) (nm tc : Name) (ns : Bytes → Option Bytes)
    (hns : ns [] = none) (hnm : nm.Space = []) :
    Decoder.Token ⟨input, [StackEntry.start nm], true, nm, ns⟩
      = Next.tok (Token.EndElement nm) ⟨input, [], false, nm, ns⟩ := by
  rcases nm with ⟨sp, lo⟩
  simp only at hnm
  subst hnm
  unfold Decoder.Token
  simp only [Decoder.rawToken, if_true, ne_eq, not_true_eq_false, if_false, undoNs]
  rw [translate_local _ _ _ hns]

end xml
end Ooxmlx

namespace Ooxmlx
namespace xml
open transform (Error)
open utf8

/-- The decoder reads text that `d.text` reads as `D`. -/
theorem Token_chars (b : Nat) (s r D : Bytes) (stk : List StackEntry) (tc : Name)
    (ns : Bytes → Option Bytes) (hb : b ≠ 0x3C)
    (ht : text none false (b :: (s ++ 0x3C :: r)) = .ok (D, 0x3C :: r)) :
    Decoder.Token ⟨b :: (s ++ 0x3C :: r), stk, false, tc, ns⟩
      = Next.tok (Token.CharData D) ⟨0x3C :: r, stk, false, tc, ns⟩ := by
  have hraw : Decoder.rawToken ⟨b :: (s ++ 0x3C :: r), stk, false, tc, ns⟩
      = Next.tok (Token.CharData D) ⟨0x3C :: r, stk, false, tc, ns⟩ := by
    simp [Decoder.rawToken, hb, ht]
  unfold Decoder.Token
  rw [hraw]

theorem Token_eof (tc : Name) (ns : Bytes → Option Bytes) :
    Decoder.Token ⟨[], [], false, tc, ns⟩ = Next.eof := by
  simp [Decoder.Token, Decoder.rawToken]

/-- The encoder writes the start tag of the first element. -/
theorem EncodeToken_start (n ind : Bytes) (attr : List Attr) (hn : n ≠ []) (hind : ind ≠ [])
    (ha : ∀ a ∈ attr, a.Name.Space = [] ∧ a.Name.Local ≠ []) :
    (NewEncoder.Indent [] ind).EncodeToken (Token.StartElement ⟨[], n⟩ attr)
      = (⟨0x3C :: (n ++ (attr.flatMap (fun a =>
            0x20 :: (a.Name.Local ++ 0x3D :: 0x22 :: (escapeText a.Value true ++ [0x22]))) ++ [0x3E])),
          [], ind, 1, true, true, [⟨[], n⟩], 0, [], [], [[]]⟩, none) := by
  obtain ⟨a, ind', rfl⟩ : ∃ a ind', ind = a :: ind' := by
    rcases ind with _ | ⟨a, ind'⟩
    · exact absurd rfl hind
    · exact ⟨a, ind', rfl⟩
  simp only [Encoder.EncodeToken, Encoder.writeStart, if_neg hn]
  rw [writeAttrs_plain attr _ ha]
  simp [Encoder.writeIndent, NewEncoder, Encoder.Indent, Encoder.WriteByte, Encoder.WriteString]

/-- The encoder writes the end tag of the first element. -/
theorem EncodeToken_end (n ind w : Bytes) (hn : n ≠ []) (hind : ind ≠ []) :
    (⟨w, [], ind, 1, true, true, [⟨[], n⟩], 0, [], [], [[]]⟩ : Encoder).EncodeToken
        (Token.EndElement ⟨[], n⟩)
      = (⟨w ++ 0x3C :: 0x2F :: (n ++ [0x3E]), [], ind, 0, false, true, [], 0, [], [], []⟩,
          none) := by
  obtain ⟨a, ind', rfl⟩ : ∃ a ind', ind = a :: ind' := by
    rcases ind with _ | ⟨a, ind'⟩
    · exact absurd rfl hind
    · exact ⟨a, ind', rfl⟩
  simp [Encoder.EncodeToken, Encoder.writeEnd, hn, Encoder.writeIndent, Encoder.WriteByte,
    Encoder.WriteString, Encoder.popPrefix, popPrefixLoop]

end xml

namespace xmlutil
open transform (Error)
open xml utf8

theorem flatMap_render (l : List (AttrSrc × Bytes)) :
    (l.map Prod.fst).flatMap AttrSrc.render = l.flatMap (fun p => p.1.render) := by
  induction l with
  | nil => rfl
  | cons p l' ih => simp [List.flatMap_cons, ih]

/-- The loop of `TryPrettify` on a document that is one element: each attribute is
given with the value read from it, the text with the character data read from it.  The
output is the element with those values and that text, escaped. -/
theorem tokenLoop_element (n ind : Bytes) (l : List (AttrSrc × Bytes))
    (body : Option (Bytes × Bytes)) (fuel : Nat) (hn : PlainName n)
    (hl : ∀ p ∈ l, PlainName p.1.name ∧
      ∀ rest, attrval (p.1.quote :: (p.1.value ++ p.1.quote :: rest)) = .ok (p.2, rest))
    (hq : ∀ p ∈ l, p.1.quote = 0x22 ∨ p.1.quote = 0x27)
    (hx : ∀ p ∈ l, p.1.name ≠ xmlnsPrefix)
    (hb : ∀ src D, body = some (src, D) → (src = [] ∧ D = []) ∨
      (src.head? ≠ some 0x3C ∧ src ≠ [] ∧
        ∀ rest, text none false (src ++ 0x3C :: rest) = .ok (D, 0x3C :: rest)))
    (hind : ind ≠ []) (hf : 4 ≤ fuel) :
    (tokenLoop fuel (NewDecoder (element n (l.map Prod.fst) (body.map Prod.fst)))
        (NewEncoder.Indent [] ind)).1 = none ∧
    (tokenLoop fuel (NewDecoder (element n (l.map Prod.fst) (body.map Prod.fst)))
        (NewEncoder.Indent [] ind)).2.w
      = element n
          (l.map (fun p => ({ name := p.1.name, quote := 0x22, value := escapeText p.2 true } : AttrSrc)))
          (some (escapeText ((body.map Prod.snd).getD []) false)) := by
  obtain ⟨k, rfl⟩ : ∃ k, fuel = k + 4 := ⟨fuel - 4, by omega⟩
  have hnl : n ≠ [] := by
    obtain ⟨c, n', rfl, -⟩ := PlainName_bytes n hn
    simp
  have hattrs : ∀ a ∈ l.map (fun p => ({ Name := { Space := [], Local := p.1.name }, Value := p.2 } : Attr)), a.Name.Space = [] ∧ a.Name.Local ≠ [] := by
    intro a ha
    obtain ⟨p, hp, rfl⟩ := List.mem_map.mp ha
    obtain ⟨c, n', hcn, -⟩ := PlainName_bytes _ (hl p hp).1
    exact ⟨rfl, by simp [hcn]⟩
  have hout : (l.map (fun p => ({ Name := { Space := [], Local := p.1.name }, Value := p.2 } : Attr))).flatMap (fun a =>
        0x20 :: (a.Name.Local ++ 0x3D :: 0x22 :: (escapeText a.Value true ++ [0x22])))
      = (l.map (fun p => ({ name := p.1.name, quote := 0x22, value := escapeText p.2 true } : AttrSrc))).flatMap AttrSrc.render := by
    clear hl hq hx hattrs
    induction l with
    | nil => rfl
    | cons p l' ih => simp [List.flatMap_cons, AttrSrc.render, ih]
  have hstart := EncodeToken_start n ind _ hnl hind hattrs
  rw [hout] at hstart
  rcases body with _ | ⟨src, D⟩
  · -- the self-closing tag
    have h1 := Token_start n l [] true ⟨[], []⟩ (fun _ => none) hn hl hq hx rfl
    have h2 := Token_close [] ⟨[], n⟩ ⟨[], []⟩ (fun _ => none) rfl rfl
    have h3 := Token_eof ⟨[], n⟩ (fun _ => none)
    have hend := EncodeToken_end n ind (0x3C :: (n ++ ((l.map (fun p =>
      ({ name := p.1.name, quote := 0x22, value := escapeText p.2 true } : AttrSrc))).flatMap
        AttrSrc.render ++ [0x3E]))) hnl hind
    simp only [if_true, List.append_nil] at h1
    simp only [element, NewDecoder, Option.map_none', flatMap_render, tokenLoop, h1, hstart, h2,
      hend, h3, Option.getD_none, escapeText_nil, List.nil_append, true_and]
    simp
  · rcases hb src D rfl with ⟨rfl, rfl⟩ | ⟨hh, hne, ht⟩
    · -- the empty element
      have h1 := Token_start n l (0x3C :: 0x2F :: (n ++ [0x3E])) false ⟨[], []⟩ (fun _ => none)
        hn hl hq hx rfl
      have h2 := Token_end n [] ⟨[], []⟩ (fun _ => none) hn rfl
      have h3 := Token_eof ⟨[], []⟩ (fun _ => none)
      have hend := EncodeToken_end n ind (0x3C :: (n ++ ((l.map (fun p =>
        ({ name := p.1.name, quote := 0x22, value := escapeText p.2 true } : AttrSrc))).flatMap
          AttrSrc.render ++ [0x3E]))) hnl hind
      simp only [Bool.false_eq_true, if_false, List.singleton_append] at h1
      simp only [element, NewDecoder, Option.map_some', flatMap_render, tokenLoop,
        List.nil_append, h1, hstart, h2, hend, h3, Option.getD_some, escapeText_nil, true_and]
      simp
    · -- the element with text
      obtain ⟨b, s, rfl⟩ : ∃ b s, src = b :: s := by
        rcases src with _ | ⟨b, s⟩
        · exact absurd rfl hne
        · exact ⟨b, s, rfl⟩
      have hb3 : b ≠ 0x3C := fun e => hh (by simp [e])
      have h1 := Token_start n l ((b :: s) ++ 0x3C :: 0x2F :: (n ++ [0x3E])) false ⟨[], []⟩
        (fun _ => none) hn hl hq hx rfl
      have h2 := Token_chars b s (0x2F :: (n ++ [0x3E])) D [StackEntry.start ⟨[], n⟩] ⟨[], []⟩
        (fun _ => none) hb3 (ht _)
      have h3 := Token_end n [] ⟨[], []⟩ (fun _ => none) hn rfl
      have h4 := Token_eof ⟨[], []⟩ (fun _ => none)
      have hend := fun W => EncodeToken_end n ind W hnl hind
      have hchar : ∀ W : Bytes,
          (⟨W, [], ind, 1, true, true, [⟨[], n⟩], 0, [], [], [[]]⟩ : Encoder).EncodeToken
              (Token.CharData D)
            = (⟨W ++ escapeText D false, [], ind, 1, true, true, [⟨[], n⟩], 0, [], [], [[]]⟩,
                none) := fun _ => rfl
      simp only [Bool.false_eq_true, if_false, List.singleton_append, List.cons_append,
        List.nil_append] at h1
      simp only [element, NewDecoder, Option.map_some', flatMap_render, tokenLoop,
        List.cons_append, h1, hstart, h2, hchar, hend, h3, h4, Option.getD_some, true_and]
      simp [hend, h4]

end xmlutil
end Ooxmlx

namespace Ooxmlx
namespace xmlutil
open transform (Error)
open xml utf8

/-- The escaped form of printable ASCII is printable ASCII. -/
theorem escapeText_printable (nl : Bool) (V : Bytes) (hV : ∀ b ∈ V, 0x20 ≤ b ∧ b ≤ 0x7E) :
    ∀ b ∈ escapeText V nl, 0x20 ≤ b ∧ b ≤ 0x7E := by
  induction V with
  | nil => intro b hb; simp [escapeText_nil] at hb
  | cons c V' ih =>
    intro b hb
    have hc := hV c (List.mem_cons_self _ _)
    rw [escapeText_cons nl c V' (by omega), List.mem_append] at hb
    rcases hb with hb | hb
    · rcases escapeOf_printable nl c hc with ⟨-, h⟩ | ⟨-, h⟩ | ⟨-, h⟩ | ⟨-, h⟩ | ⟨-, h⟩ |
        ⟨-, -, -, -, -, h⟩ <;> rw [h] at hb <;> simp [lit] at hb <;> omega
    · exact ih (fun x hx => hV x (List.mem_cons_of_mem _ hx)) b hb

/-- The escaped form of text that is not empty is not empty and does not begin with
`<`. -/
theorem escapeText_head (nl : Bool) (c : Nat) (V : Bytes) (hc : 0x20 ≤ c ∧ c ≤ 0x7E) :
    escapeText (c :: V) nl ≠ [] ∧ (escapeText (c :: V) nl).head? ≠ some 0x3C := by
  rw [escapeText_cons nl c V (by omega)]
  rcases escapeOf_printable nl c hc with ⟨-, h⟩ | ⟨-, h⟩ | ⟨-, h⟩ | ⟨-, h⟩ | ⟨-, h⟩ |
    ⟨-, -, -, h4, -, h⟩ <;> rw [h] <;> simp [lit]
  exact h4

/-- A document that is one element of ASCII bytes looks like XML. -/
theorem looksLikeXML_element (n : Bytes) (attrs : List AttrSrc) (body : Option Bytes)
    (h : ∀ b ∈ element n attrs body, b < RuneSelf) :
    looksLikeXML (element n attrs body) = true := by
  rw [looksLikeXML_iff]
  refine ⟨?_, Or.inr ?_⟩
  · have := (ValidUTF8_ascii_append (element n attrs body) [] h).2 ValidUTF8_nil
    simpa using this
  · cases body with
    | none => simp [element, trimLeadingSpace, List.dropWhile]
    | some D => simp [element, trimLeadingSpace, List.dropWhile]

/-- The bytes of a document that is one element. -/
theorem element_bytes (n : Bytes) (attrs : List AttrSrc) (body : Option Bytes) (P : Nat → Prop)
    (h0 : P 0x3C ∧ P 0x3E ∧ P 0x2F ∧ P 0x20 ∧ P 0x3D) (hn : ∀ b ∈ n, P b)
    (ha : ∀ a ∈ attrs, (∀ b ∈ a.name, P b) ∧ P a.quote ∧ ∀ b ∈ a.value, P b)
    (hb : ∀ D, body = some D → ∀ b ∈ D, P b) :
    ∀ b ∈ element n attrs body, P b := by
  have hattrs : ∀ b ∈ attrs.flatMap AttrSrc.render, P b := by
    intro b hb'
    obtain ⟨a, ha', hba⟩ := List.mem_flatMap.mp hb'
    obtain ⟨a1, a2, a3⟩ := ha a ha'
    simp only [AttrSrc.render, List.mem_cons, List.mem_append, List.mem_singleton,
      List.not_mem_nil, or_false] at hba
    rcases hba with rfl | h | rfl | rfl | h | rfl
    · exact h0.2.2.2.1
    · exact a1 b h
    · exact h0.2.2.2.2
    · exact a2
    · exact a3 b h
    · exact a2
  intro b hb'
  cases body with
  | none =>
    simp only [element, List.mem_cons, List.mem_append, List.mem_singleton,
      List.not_mem_nil, or_false] at hb'
    rcases hb' with rfl | h | h | rfl | rfl
    · exact h0.1
    · exact hn b h
    · exact hattrs b h
    · exact h0.2.2.1
    · exact h0.2.1
  | some D =>
    simp only [element, List.mem_cons, List.mem_append, List.mem_singleton,
      List.not_mem_nil, or_false] at hb'
    rcases hb' with rfl | h | h | rfl | h | rfl | rfl | h | rfl
    · exact h0.1
    · exact hn b h
    · exact hattrs b h
    · exact h0.2.1
    · exact hb D rfl b h
    · exact h0.1
    · exact h0.2.2.1
    · exact hn b h
    · exact h0.2.1

/-- The result of `TryPrettify` from the result of its loop. -/
theorem TryPrettify_of_loop (name data out : Bytes) (opts : Options)
    (hl : looksLikeXML data = true) (hI : opts.IncludeDeclaration = false)
    (hloop : ∀ ind : Bytes, ind ≠ [] →
      (tokenLoop (2 * data.length + 2) (NewDecoder data) (NewEncoder.Indent [] ind)).1 = none ∧
      (tokenLoop (2 * data.length + 2) (NewDecoder data) (NewEncoder.Indent [] ind)).2.w = out) :
    TryPrettify name data opts = (out, true, none) := by
  unfold TryPrettify
  simp only [hl, Bool.not_true, Bool.false_eq_true, if_false, hI]
  by_cases hi : opts.Indent = []
  · obtain ⟨e1, e2⟩ := hloop (lit "  ") (by decide)
    rw [if_pos hi]
    rcases hx : tokenLoop (2 * data.length + 2) (NewDecoder data)
      (NewEncoder.Indent [] (lit "  ")) with ⟨e, enc'⟩
    rw [hx] at e1 e2
    simp only at e1 e2
    subst e1
    simp [e2]
  · obtain ⟨e1, e2⟩ := hloop opts.Indent hi
    rw [if_neg hi]
    rcases hx : tokenLoop (2 * data.length + 2) (NewDecoder data)
      (NewEncoder.Indent [] opts.Indent) with ⟨e, enc'⟩
    rw [hx] at e1 e2
    simp only at e1 e2
    subst e1
    simp [e2]

/-- The first pass on a document that is one element writes the canonical form. -/
theorem TryPrettify_element (name n : Bytes) (attrs : List AttrSrc)
    (body : Option Bytes) (opts : Options) (hn : PlainName n)
    (ha : ∀ a ∈ attrs, a.WellFormed) (hb : ∀ D, body = some D → TextSrc D)
    (hI : opts.IncludeDeclaration = false) :
    TryPrettify name (element n attrs body) opts = (canonical n attrs body, true, none) := by
  have hnb : ∀ b ∈ n, b < RuneSelf := by
    obtain ⟨c, n', -, -, -, hbn⟩ := PlainName_bytes n hn
    exact fun b hb' => (hbn b hb').1
  have hname : ∀ a ∈ attrs, ∀ b ∈ a.name, b < RuneSelf := by
    intro a ha' b hb'
    obtain ⟨c, n', -, -, -, hbn⟩ := PlainName_bytes a.name (ha a ha').1
    exact (hbn b hb').1
  have hfuel : ∀ (as : List AttrSrc) (bd : Option Bytes),
      4 ≤ 2 * (element n as bd).length + 2 := by
    intro as bd
    cases bd <;> simp only [element, List.length_cons, List.length_append] <;> omega
  apply TryPrettify_of_loop _ _ _ _ _ hI
  · intro ind hind
    have key := tokenLoop_element n ind (attrs.map (fun a => (a, a.value)))
      (body.map (fun D => (D, D))) (2 * (element n attrs body).length + 2) hn
      (by
        intro p hp
        obtain ⟨a, ha', rfl⟩ := List.mem_map.mp hp
        obtain ⟨w1, -, w3, w4⟩ := ha a ha'
        exact ⟨w1, fun rest => attrval_quoted a.quote a.value rest w3 w4⟩)
      (by
        intro p hp
        obtain ⟨a, ha', rfl⟩ := List.mem_map.mp hp
        exact (ha a ha').2.2.1)
      (by
        intro p hp
        obtain ⟨a, ha', rfl⟩ := List.mem_map.mp hp
        exact (ha a ha').2.1)
      (by
        intro src D hsd
        cases body with
        | none => simp at hsd
        | some D0 =>
          simp only [Option.map_some', Option.some.injEq, Prod.mk.injEq] at hsd
          obtain ⟨rfl, rfl⟩ := hsd
          obtain ⟨t1, t2⟩ := hb D0 rfl
          rcases D0 with _ | ⟨c, D'⟩
          · left; exact ⟨rfl, rfl⟩
          · right
            refine ⟨?_, by simp, fun rest => text_source _ rest t1 t2⟩
            have := (t1 c (List.mem_cons_self _ _)).2.2.1
            simpa using this)
      hind (hfuel _ _)
    have e1 : (attrs.map (fun a => (a, a.value))).map Prod.fst = attrs := by
      rw [List.map_map]; exact List.map_id _
    have e2 : (body.map (fun D => (D, D))).map Prod.fst = body := by
      cases body <;> rfl
    have e3 : ((body.map (fun D => (D, D))).map Prod.snd).getD [] = body.getD [] := by
      cases body <;> rfl
    rw [e1, e2, e3, List.map_map] at key
    exact key
  · apply looksLikeXML_element
    apply element_bytes n attrs body (fun b => b < RuneSelf) (by decide) hnb
    · intro a ha'
      obtain ⟨-, -, w3, w4⟩ := ha a ha'
      refine ⟨hname a ha', ?_, fun b hb' => ?_⟩
      · rcases w3 with h | h <;> rw [h] <;> decide
      · have := (w4 b hb').2.1
        simp only [RuneSelf]; omega
    · intro D hD b hb'
      have := ((hb D hD).1 b hb').2.1
      simp only [RuneSelf]; omega

/-- C4, amended: reformatting is idempotent after the first pass on every document that
is one element, `<n a="v" ...>D</n>` or `<n a="v" .../>`, with a plain name, attributes
with plain names other than `xmlns` and values in double or single quotes, and text
`D`; values and text are printable ASCII without `<` and `&` (a value also without its
quote, the text without `]]>`).  When no declaration is included the first pass succeeds
and writes the canonical form - every value in double quotes, the bytes `"`, `'` and `>`
escaped, the self-closing tag as a start and an end tag - and a second pass on that
output succeeds and returns it byte for byte. -/
theorem TryPrettify_single_element (name n : Bytes) (attrs : List AttrSrc)
    (body : Option Bytes) (opts : Options) (hn : PlainName n)
    (ha : ∀ a ∈ attrs, a.WellFormed) (hb : ∀ D, body = some D → TextSrc D)
    (hI : opts.IncludeDeclaration = false) :
    TryPrettify name (element n attrs body) opts = (canonical n attrs body, true, none) ∧
    TryPrettify name (canonical n attrs body) opts = (canonical n attrs body, true, none) := by
  have hnb : ∀ b ∈ n, b < RuneSelf := by
    obtain ⟨c, n', -, -, -, hbn⟩ := PlainName_bytes n hn
    exact fun b hb' => (hbn b hb').1
  have hname : ∀ a ∈ attrs, ∀ b ∈ a.name, b < RuneSelf := by
    intro a ha' b hb'
    obtain ⟨c, n', -, -, -, hbn⟩ := PlainName_bytes a.name (ha a ha').1
    exact (hbn b hb').1
  have hfuel : ∀ (as : List AttrSrc) (bd : Option Bytes),
      4 ≤ 2 * (element n as bd).length + 2 := by
    intro as bd
    cases bd <;> simp only [element, List.length_cons, List.length_append] <;> omega
  constructor
  · -- the first pass
    exact TryPrettify_element name n attrs body opts hn ha hb hI
  · -- the second pass
    have hvals : ∀ a ∈ attrs, ∀ b ∈ a.value, 0x20 ≤ b ∧ b ≤ 0x7E :=
      fun a ha' b hb' => ⟨((ha a ha').2.2.2 b hb').1, ((ha a ha').2.2.2 b hb').2.1⟩
    have htext : ∀ b ∈ body.getD [], 0x20 ≤ b ∧ b ≤ 0x7E := by
      intro b hb'
      cases body with
      | none => simp at hb'
      | some D => exact ⟨((hb D rfl).1 b hb').1, ((hb D rfl).1 b hb').2.1⟩
    apply TryPrettify_of_loop _ _ _ _ _ hI
    · intro ind hind
      have key := tokenLoop_element n ind
        (attrs.map (fun a =>
          (({ name := a.name, quote := 0x22, value := escapeText a.value true } : AttrSrc), a.value)))
        (some (escapeText (body.getD []) false, body.getD []))
        (2 * (canonical n attrs body).length + 2) hn
        (by
          intro p hp
          obtain ⟨a, ha', rfl⟩ := List.mem_map.mp hp
          exact ⟨(ha a ha').1, fun rest => attrval_escaped a.value rest (hvals a ha')⟩)
        (by
          intro p hp
          obtain ⟨a, ha', rfl⟩ := List.mem_map.mp hp
          exact Or.inl rfl)
        (by
          intro p hp
          obtain ⟨a, ha', rfl⟩ := List.mem_map.mp hp
          exact (ha a ha').2.1)
        (by
          intro src D hsd
          simp only [Option.some.injEq, Prod.mk.injEq] at hsd
          obtain ⟨rfl, rfl⟩ := hsd
          rcases hD0 : body.getD [] with _ | ⟨c, D'⟩
          · left; exact ⟨escapeText_nil false, rfl⟩
          · right
            rw [hD0] at htext
            obtain ⟨k1, k2⟩ := escapeText_head false c D' (htext c (List.mem_cons_self _ _))
            exact ⟨k2, k1, fun rest => text_escaped _ rest htext⟩)
        hind (hfuel _ _)
      have e1 : (attrs.map (fun a =>
          (({ name := a.name, quote := 0x22, value := escapeText a.value true } : AttrSrc),
            a.value))).map Prod.fst
          = attrs.map (fun a => { name := a.name, quote := 0x22, value := escapeText a.value true }) := by
        rw [List.map_map]; rfl
      rw [e1, List.map_map] at key
      exact key
    · apply looksLikeXML_element
      apply element_bytes n _ _ (fun b => b < RuneSelf) (by decide) hnb
      · intro a' ha'
        obtain ⟨a, ha0, rfl⟩ := List.mem_map.mp ha'
        refine ⟨hname a ha0, (by decide : (0x22 : Nat) < RuneSelf), fun b hb' => ?_⟩
        have := (escapeText_printable true a.value (hvals a ha0) b hb').2
        simp only [RuneSelf]; omega
      · intro D hD b hb'
        simp only [Option.some.injEq] at hD
        subst hD
        have := (escapeText_printable false _ htext b hb').2
        simp only [RuneSelf]; omega

/-- C4, witness: the document `<a b='c'>it's</a>` with a two-space indent is written as
`<a b="c">it&#39;s</a>`, and this output is returned unchanged by a second pass. -/
theorem TryPrettify_single_element_witness :
    element (lit "a") [{ name := lit "b", quote := 0x27, value := lit "c" }] (some (lit "it's"))
      = lit "<a b='c'>it's</a>" ∧
    canonical (lit "a") [{ name := lit "b", quote := 0x27, value := lit "c" }] (some (lit "it's"))
      = lit "<a b=\"c\">it&#39;s</a>" ∧
    TryPrettify (lit "doc.xml")
        (element (lit "a") [{ name := lit "b", quote := 0x27, value := lit "c" }] (some (lit "it's")))
        { Indent := lit "  ", Encoding := lit "utf-8", IncludeDeclaration := false }
      = (canonical (lit "a") [{ name := lit "b", quote := 0x27, value := lit "c" }]
          (some (lit "it's")), true, none) ∧
    TryPrettify (lit "doc.xml")
        (canonical (lit "a") [{ name := lit "b", quote := 0x27, value := lit "c" }]
          (some (lit "it's")))
        { Indent := lit "  ", Encoding := lit "utf-8", IncludeDeclaration := false }
      = (canonical (lit "a") [{ name := lit "b", quote := 0x27, value := lit "c" }]
          (some (lit "it's")), true, none) :=
  ⟨by decide, by decide,
    TryPrettify_single_element (lit "doc.xml") (lit "a")
      [{ name := lit "b", quote := 0x27, value := lit "c" }] (some (lit "it's"))
      { Indent := lit "  ", Encoding := lit "utf-8", IncludeDeclaration := false }
      (by decide) (by decide) (by decide) rfl⟩

/-- C4, counterexample: with a two-space indent `<a><b/></a>` is reformatted to three
lines, and reformatting those gives five: the white space written by the first pass is
read as character data and written again next to new indentation.  With a declaration
included, `<a/>` gets one more declaration at every pass; and the attribute `xmlns` of
`<a xmlns="u"/>` is written once more at every pass. -/
theorem TryPrettify_reindent_counterexample :
    (TryPrettify (lit "nested.xml") (lit "<a><b/></a>")
        { Indent := lit "  ", Encoding := lit "utf-8", IncludeDeclaration := false }
      = (lit "<a>\n  <b></b>\n</a>", true, none) ∧
    TryPrettify (lit "nested.xml") (lit "<a>\n  <b></b>\n</a>")
        { Indent := lit "  ", Encoding := lit "utf-8", IncludeDeclaration := false }
      = (lit "<a>\n  \n  <b></b>\n\n</a>", true, none) ∧
    lit "<a>\n  \n  <b></b>\n\n</a>" ≠ lit "<a>\n  <b></b>\n</a>") ∧
    (TryPrettify (lit "decl.xml") (lit "<a/>")
        { Indent := lit "  ", Encoding := lit "utf-8", IncludeDeclaration := true }
      = (lit "<?xml version=\"1.0\" encoding=\"utf-8\"?>\n<a></a>", true, none) ∧
    TryPrettify (lit "decl.xml") (lit "<?xml version=\"1.0\" encoding=\"utf-8\"?>\n<a></a>")
        { Indent := lit "  ", Encoding := lit "utf-8", IncludeDeclaration := true }
      = (lit ("<?xml version=\"1.0\" encoding=\"utf-8\"?>\n" ++
          "<?xml version=\"1.0\" encoding=\"utf-8\"?>\n<a></a>"), true, none)) ∧
    (TryPrettify (lit "ns.xml") (lit "<a xmlns=\"u\"/>")
        { Indent := lit "  ", Encoding := lit "utf-8", IncludeDeclaration := false }
      = (lit "<a xmlns=\"u\" xmlns=\"u\"></a>", true, none) ∧
    TryPrettify (lit "ns.xml") (lit "<a xmlns=\"u\" xmlns=\"u\"></a>")
        { Indent := lit "  ", Encoding := lit "utf-8", IncludeDeclaration := false }
      = (lit "<a xmlns=\"u\" xmlns=\"u\" xmlns=\"u\"></a>", true, none)) := by
  refine ⟨⟨?_, ?_, ?_⟩, ⟨?_, ?_⟩, ⟨?_, ?_⟩⟩ <;> decide

end xmlutil
end Ooxmlx

/-! ## Names that leave the destination -/

namespace Ooxmlx
namespace filepath
open transform (Error)

theorem splitSep_sepfree (a : Bytes) (ha : Separator ∉ a) : splitSep a = [a] := by
  induction a with
  | nil => rfl
  | cons c t ih =>
    have hc : c ≠ Separator := fun e => ha (by simp [e])
    have ht : Separator ∉ t := fun e => ha (List.mem_cons_of_mem _ e)
    rw [splitSep_cons_ne c t hc, ih ht]
    rfl

/-- The elements of a joined path are the elements joined. -/
theorem splitSep_join (l : List Bytes) (hl : l ≠ []) (hs : ∀ s ∈ l, Separator ∉ s) :
    splitSep (stringsJoin l [Separator]) = l := by
  induction l with
  | nil => exact absurd rfl hl
  | cons a l' ih =>
    rcases l' with _ | ⟨b, l''⟩
    · simp [stringsJoin, splitSep_sepfree a (hs a (by simp))]
    · rw [stringsJoin_cons_cons]
      have hj : a ++ [Separator] ++ stringsJoin (b :: l'') [Separator]
          = a ++ Separator :: stringsJoin (b :: l'') [Separator] := by simp
      rw [hj, splitSep_append, splitSep_sepfree a (hs a (by simp)),
        ih (by simp) (fun s h => hs s (List.mem_cons_of_mem _ h))]
      rfl

/-- For cleaned rooted paths, to lead with the elements of the base is to be the base,
or to begin with the base and a separator, or to have the root as base. -/
theorem inside_iff_lead (as rs : List Bytes) (has : ∀ s ∈ as, Normal s)
    (hrs : ∀ s ∈ rs, Normal s) :
    as <+: rs ↔ (renderAbs rs = renderAbs as ∨ (renderAbs as ++ [Separator]) <+: renderAbs rs ∨
      renderAbs as = [Separator]) := by
  constructor
  · rintro ⟨more, rfl⟩
    by_cases hm : more = []
    · left; simp [hm]
    · right
      rw [pathsafe.renderAbs_append _ _ hm]
      by_cases he : as = []
      · right
        rw [he]
        simp [renderAbs, stringsJoin]
      · left
        rw [if_neg he]
        exact List.prefix_append _ _
  · rintro (h | h | h)
    · rw [renderAbs_inj rs as hrs has h]
    · by_cases he : as = []
      · rw [he]; exact List.nil_prefix
      obtain ⟨tail, ht⟩ := h
      have hrne : rs ≠ [] := by
        intro e
        rw [e] at ht
        have hl := congrArg List.length ht
        have := stringsJoin_length_pos as [Separator] he (fun s hs => (has s hs).1)
        simp [renderAbs, stringsJoin] at hl
      have ht2 : stringsJoin rs [Separator] = stringsJoin as [Separator] ++ Separator :: tail := by
        simp only [renderAbs, List.cons_append, List.cons.injEq, true_and] at ht
        rw [← ht]
        simp
      have h1 := splitSep_join rs hrne (fun s hs => (hrs s hs).2.1)
      have h2 := splitSep_join as he (fun s hs => (has s hs).2.1)
      rw [ht2, splitSep_append, h2] at h1
      exact ⟨_, h1⟩
    · have : as = [] := by
        apply (renderAbs_length_eq_one as (fun s hs => (has s hs).1)).1
        rw [h]; rfl
      rw [this]; exact List.nil_prefix

theorem head_take_ne (out : Bytes) (k : Nat) (h : out.head? ≠ some Separator) :
    (out.take k).head? ≠ some Separator := by
  rcases out with _ | ⟨a, t⟩
  · simp
  · cases k with
    | zero => simp
    | succ k => simpa using h

theorem head_append_ne (x y : Bytes) (hx : x.head? ≠ some Separator)
    (hy : x = [] → y.head? ≠ some Separator) : (x ++ y).head? ≠ some Separator := by
  rcases x with _ | ⟨a, t⟩
  · simpa using hy rfl
  · simpa using hx

/-- The loop of `Clean` on a relative path never puts a separator first. -/
theorem cleanLoop_relative (fuel : Nat) : ∀ (rest out : Bytes) (dotdot : Nat),
    out.head? ≠ some Separator →
    (cleanLoop false fuel rest out dotdot).head? ≠ some Separator := by
  induction fuel with
  | zero => intro rest out dotdot h; simpa [cleanLoop] using h
  | succ n ih =>
    intro rest out dotdot h
    rcases rest with _ | ⟨c, t⟩
    · simpa [cleanLoop] using h
    · simp only [cleanLoop]
      by_cases hc : IsPathSeparator c = true
      · rw [if_pos hc]; exact ih _ _ _ h
      · rw [if_neg hc]
        have hcs : c ≠ Separator := by simpa [IsPathSeparator] using hc
        split_ifs
        all_goals first
          | exact ih _ _ _ h
          | exact ih _ _ _ (head_take_ne _ _ h)
          | (apply ih
             apply head_append_ne
             · first
                 | exact h
                 | exact head_append_ne _ _ h (fun e => by simp_all)
             · intro e
               first
                 | (simp [dot, Separator]; done)
                 | (rw [List.takeWhile_cons_of_pos (by simpa using hc)]
                    simpa using hcs)
                 | simp_all)

/-- A cleaned path is absolute exactly when the path is. -/
theorem IsAbs_Clean_eq (p : Bytes) : IsAbs (Clean p) = IsAbs p := by
  by_cases h : IsAbs p = true
  · rw [IsAbs_Clean p h, h]
  · have hf : IsAbs p = false := by simpa using h
    rw [hf]
    rcases p with _ | ⟨c, t⟩
    · decide
    · have hc : c ≠ Separator := by simpa [IsAbs] using hf
      have hr : IsPathSeparator c = false := by simpa [IsPathSeparator] using hc
      have hloop := cleanLoop_relative (t.length + 1) (c :: t) [] 0 (by simp)
      unfold Clean
      simp only [List.cons_ne_nil, if_false, List.getD_cons_zero, hr, Bool.false_eq_true,
        List.length_cons]
      split_ifs
      · decide
      · simpa [IsAbs] using hloop

end filepath

namespace extract
open transform (Error)
open filepath

theorem Join_absolute_name (getwd : Bytes × Option Error) (base name : Bytes)
    (h : IsAbs name = true) : pathsafe.Join getwd base name = ([], some pathsafe.ErrOutsideBase) := by
  simp [pathsafe.Join, IsAbs_Clean name h]

/-- Function `pathsafe.Join` against an absolute base, in terms of paths: an absolute name is
refused; for a relative name the destination is `filepath.Join(base, Clean(name))`,
returned when it is the cleaned base or lies below it, and refused otherwise. -/
theorem Join_cases (getwd : Bytes × Option Error) (base name : Bytes)
    (hb : IsAbs base = true) :
    pathsafe.Join getwd base name =
      if IsAbs name = true then ([], some pathsafe.ErrOutsideBase)
      else if filepath.Join [base, Clean name] = Clean base ∨
          (Clean base ++ [Separator]) <+: filepath.Join [base, Clean name] ∨
          Clean base = [Separator]
        then (filepath.Join [base, Clean name], none)
        else ([], some pathsafe.ErrOutsideBase) := by
  obtain ⟨b', rfl⟩ := (IsAbs_iff base).1 hb
  have has : ∀ s ∈ normSegs [] b', Normal s := normSegs_normal [] b' (by simp)
  have hrs : ∀ s ∈ normSegs (normSegs [] b') (Clean name), Normal s := normSegs_normal _ _ has
  rw [pathsafe.Join_abs, IsAbs_Clean_eq, Join_rooted, Clean_rooted]
  by_cases ha : IsAbs name = true
  · simp [ha]
  · simp only [ha, Bool.false_eq_true, if_false]
    by_cases hp : normSegs [] b' <+: normSegs (normSegs [] b') (Clean name)
    · rw [if_pos hp, if_pos ((inside_iff_lead _ _ has hrs).1 hp)]
    · rw [if_neg hp, if_neg (fun h => hp ((inside_iff_lead _ _ has hrs).2 h))]

theorem extractLoop_fails {σ : Type} (os : OS σ) (ctx : Nat → Option Error) (opts : Options σ)
    (tr : transform.Transformer σ) (file : zipwrap.File)
    (hbad : ∀ s, (processFile os file opts tr s).1 ≠ none) (files : List zipwrap.File) :
    ∀ (i : Nat) (s : σ), file ∈ files → (extractLoop os ctx opts tr i files s).1 ≠ none := by
  induction files with
  | nil => intro i s h; simp at h
  | cons f rest ih =>
    intro i s h
    unfold extractLoop
    rcases hc : ctx i with _ | e
    · rcases hp : processFile os f opts tr s with ⟨_ | e, s1⟩
      · simp only
        rcases List.mem_cons.mp h with rfl | h
        · exact absurd (by rw [hp]) (hbad s)
        · exact ih (i + 1) s1 h
      · simp
    · simp

/-- C2, amended: `pathsafe.Join` fails with `ErrOutsideBase` and returns no path for
every base and every absolute entry name.  Against an absolute base, a relative name -
with `..` elements or without - is refused exactly when the lexically cleaned join
`filepath.Join(base, Clean(name))` leaves the base: it is not the cleaned base, does not
begin with the cleaned base and a separator, and the cleaned base is not the root; any
other relative name is accepted and the cleaned join returned.  When an archive holds
an entry whose name is refused, `processFile` returns `ErrOutsideBase` for it without a
change of state and `Extract` returns an error. -/
theorem Join_rejects_escape {σ : Type} (os : OS σ) (ctx : Nat → Option Error)
    (archivePath : Bytes) (opts : Options σ) (file : zipwrap.File) (s : σ)
    (hb : IsAbs opts.Destination = true)
    (hf : ∀ s', file ∈ (os.Open archivePath s').1) :
    (∀ getwd base name, IsAbs name = true →
      pathsafe.Join getwd base name = ([], some pathsafe.ErrOutsideBase)) ∧
    (∀ getwd name, IsAbs name = false →
      (pathsafe.Join getwd opts.Destination name = ([], some pathsafe.ErrOutsideBase) ↔
        ¬ (filepath.Join [opts.Destination, Clean name] = Clean opts.Destination ∨
          (Clean opts.Destination ++ [Separator]) <+:
            filepath.Join [opts.Destination, Clean name] ∨
          Clean opts.Destination = [Separator]))) ∧
    (∀ getwd name, IsAbs name = false →
      (filepath.Join [opts.Destination, Clean name] = Clean opts.Destination ∨
          (Clean opts.Destination ++ [Separator]) <+:
            filepath.Join [opts.Destination, Clean name] ∨
          Clean opts.Destination = [Separator]) →
      pathsafe.Join getwd opts.Destination name
        = (filepath.Join [opts.Destination, Clean name], none)) ∧
    ((IsAbs file.Name = true ∨
        ¬ (filepath.Join [opts.Destination, Clean file.Name] = Clean opts.Destination ∨
          (Clean opts.Destination ++ [Separator]) <+:
            filepath.Join [opts.Destination, Clean file.Name] ∨
          Clean opts.Destination = [Separator])) →
      (∀ tr s', processFile os file opts tr s' = (some pathsafe.ErrOutsideBase, s')) ∧
      (Extract os ctx archivePath opts s).1 ≠ none) := by
  refine ⟨fun getwd base name h => Join_absolute_name getwd base name h, ?_, ?_, ?_⟩
  · intro getwd name hn
    rw [Join_cases getwd _ name hb]
    simp only [hn, Bool.false_eq_true, if_false]
    constructor
    · intro h hin
      rw [if_pos hin] at h
      simp at h
    · intro h
      rw [if_neg h]
  · intro getwd name hn hin
    rw [Join_cases getwd _ name hb]
    simp only [hn, Bool.false_eq_true, if_false]
    rw [if_pos hin]
  · intro hbad
    have hj : ∀ getwd, pathsafe.Join getwd opts.Destination file.Name
        = ([], some pathsafe.ErrOutsideBase) := by
      intro getwd
      rw [Join_cases getwd _ _ hb]
      rcases hbad with h | h
      · rw [if_pos h]
      · split_ifs <;> rfl
    have hp : ∀ tr s', processFile os file opts tr s' = (some pathsafe.ErrOutsideBase, s') := by
      intro tr s'
      simp [processFile, hj]
    refine ⟨hp, ?_⟩
    unfold Extract
    by_cases hd : opts.Destination = []
    · simp [hd]
    · rw [if_neg hd]
      simp only
      rcases hprep : prepareDestination os opts.Destination opts.Overwrite s with ⟨_ | e, s1⟩
      · simp only
        rcases hopen : os.Open archivePath s1 with ⟨files, _ | e⟩
        · simp only
          have hmem : file ∈ files := by
            have := hf s1
            rw [hopen] at this
            exact this
          exact extractLoop_fails os ctx opts _ file (fun s' => by rw [hp]; simp) files 0 s1 hmem
        · simp
      · simp

/-- C2, witness: the archive of the test, one entry `../evil.txt`, extracted into
`/tmp/out`: the cleaned join `/tmp/evil.txt` leaves `/tmp/out`. -/
theorem Join_rejects_escape_witness :
    filepath.Join [lit "/tmp/out", Clean (lit "../evil.txt")] = lit "/tmp/evil.txt" ∧
    pathsafe.Join ([], none) (lit "/tmp/out") (lit "../evil.txt")
        = ([], some pathsafe.ErrOutsideBase) ∧
    (Extract (recordingOS [fileEntry (lit "../evil.txt") (lit "nope")]) (fun _ => none)
        (lit "bad.zip") (testOptions (lit "/tmp/out")) []).1 ≠ none :=
  have h := Join_rejects_escape (recordingOS [fileEntry (lit "../evil.txt") (lit "nope")])
    (fun _ => none) (lit "bad.zip") (testOptions (lit "/tmp/out"))
    (fileEntry (lit "../evil.txt") (lit "nope")) [] (by decide) (fun _ => by simp [recordingOS])
  ⟨by decide, (h.2.1 ([], none) (lit "../evil.txt") (by decide)).2 (by decide),
    (h.2.2.2 (Or.inr (by decide))).2⟩

/-- C2, counterexample: the entry name `a/../b` holds a `..` segment and is accepted
against `/tmp/out`, as `/tmp/out/b`; and `../evil.txt` is accepted against the root. -/
theorem Join_dotdot_counterexample :
    [dot, dot] ∈ splitSep (lit "a/../b") ∧
    pathsafe.Join ([], none) (lit "/tmp/out") (lit "a/../b") = (lit "/tmp/out/b", none) ∧
    pathsafe.Join ([], none) (lit "/") (lit "../evil.txt") = (lit "/evil.txt", none) := by
  decide

end extract
end Ooxmlx

/-! ## Character data in the output of the formatter -/

namespace Ooxmlx
namespace xmlutil
open transform (Error)
open utf8 xml

/-- C5, amended: when `TryPrettify` succeeds on an input, every run of text `D` of the
input that the decoder meets after some number of tokens - `D` is not empty, holds no
`<`, no `&` and no carriage return, and runs up to the next `<` or the end of the input -
is a piece of the input, is read as one character-data token and is written into the
output through `escapeText`; so `D` occurs in the output unchanged, byte for byte, when
it also holds none of the other bytes that `escapeText` rewrites: `"`, `'`, `>` and
tab.  In particular, for every document that is one element `<n a="v" ...>T</n>` with a
plain name, plain attributes and printable ASCII text `T` without `<`, `&` and `]]>`,
formatting without a declaration succeeds and the output holds `escapeText T`, hence `T`
itself when `T` holds no `"`, `'` and `>`. -/
theorem TryPrettify_chardata (name data : Bytes) (opts : Options) (out : Bytes) (k : Nat)
    (d : Decoder) (D rest : Bytes)
    (h : TryPrettify name data opts = (out, true, none))
    (hk : (NewDecoder data).after k = some d)
    (hc : d.needClose = false)
    (hi : d.input = D ++ rest) (hD : D ≠ [])
    (hs : ∀ b ∈ D, b ≠ 0x3C ∧ b ≠ 0x26 ∧ b ≠ 0x0D)
    (hr : ∀ b, rest.head? = some b → b = 0x3C) :
    (∃ pre, data = pre ++ D ++ rest) ∧
    d.Token = Next.tok (Token.CharData D) { d with input := rest } ∧
    escapeText D false <:+: out ∧
    ((∀ b ∈ D, b ≠ 0x22 ∧ b ≠ 0x27 ∧ b ≠ 0x3E ∧ b ≠ 0x09) → D <:+: out) ∧
    (∀ (n : Bytes) (attrs : List AttrSrc) (T : Bytes) (o : Options),
      PlainName n → (∀ a ∈ attrs, a.WellFormed) → TextSrc T → o.IncludeDeclaration = false →
      (TryPrettify name (element n attrs (some T)) o).2 = (true, none) ∧
      escapeText T false <:+: (TryPrettify name (element n attrs (some T)) o).1 ∧
      ((∀ b ∈ T, b ≠ 0x22 ∧ b ≠ 0x27 ∧ b ≠ 0x3E) →
        T <:+: (TryPrettify name (element n attrs (some T)) o).1)) := by
  obtain ⟨hsuf, hm⟩ := after_suffix k _ d hk
  have hpre : ∃ pre, data = pre ++ D ++ rest := by
    obtain ⟨pre, hp⟩ := hsuf
    refine ⟨pre, ?_⟩
    rw [List.append_assoc, ← hi, hp]
    rfl
  have hkf : k < 2 * data.length + 2 := by
    have hm2 : 2 * d.input.length + (if d.needClose then 1 else 0) + k
        ≤ 2 * data.length + 0 := hm
    omega
  have key : d.Token = Next.tok (Token.CharData D) { d with input := rest } ∧
      escapeText D false <:+: out := by
    unfold TryPrettify at h
    split_ifs at h with hl
    · simp at h
    all_goals
      simp only at h
      split at h
      · simp at h
      · rename_i enc1 hloop
        simp only [Prod.mk.injEq, and_true] at h
        obtain ⟨enck, hk2⟩ := tokenLoop_after k _ _ d _ _ hloop hk hkf
        obtain ⟨t1, t2⟩ := tokenLoop_text _ d enck enc1 D rest hk2 (by omega) hc hi hD hs hr
        refine ⟨t1, ?_⟩
        rw [← h]
        exact t2.trans (List.suffix_append _ _).isInfix
  refine ⟨hpre, key.1, key.2, fun hp => ?_, ?_⟩
  · have hcheck := Token_chardata d _ D key.1
    have hinf := key.2
    rw [escapeText_plain D hcheck (fun b hb => ⟨(hp b hb).1, (hp b hb).2.1, (hs b hb).2.1,
      (hs b hb).1, (hp b hb).2.2.1, (hp b hb).2.2.2, (hs b hb).2.2⟩)] at hinf
    exact hinf
  · intro n attrs T o hn ha hT hI
    have hfirst := TryPrettify_element name n attrs (some T) o hn ha
      (fun D0 hD0 => by cases hD0; exact hT) hI
    have hinf : escapeText T false <:+: canonical n attrs (some T) := by
      simp only [canonical, element, Option.getD_some]
      refine ⟨0x3C :: (n ++ ((attrs.map (fun a => ({ name := a.name, quote := 0x22, value := xml.escapeText a.value true } : AttrSrc))).flatMap AttrSrc.render ++ [0x3E])),
        0x3C :: 0x2F :: (n ++ [0x3E]), ?_⟩
      simp
    rw [hfirst]
    refine ⟨rfl, hinf, fun hp => ?_⟩
    rw [escapeText_plain T (checkChars_plain _ T (fun b hb => ⟨(hT.1 b hb).1, (hT.1 b hb).2.1⟩))
      (fun b hb => ⟨(hp b hb).1, (hp b hb).2.1, (hT.1 b hb).2.2.2, (hT.1 b hb).2.2.1,
        (hp b hb).2.2, by have := (hT.1 b hb).1; omega, by have := (hT.1 b hb).1; omega⟩)] at hinf
    exact hinf

/-- C5, witness: in `<root><child>value</child></root>` the decoder stands at `value`
after two tokens; with the options of the test the output holds `value`, inside
`<child>value</child>`. -/
theorem TryPrettify_chardata_witness :
    (xml.NewDecoder (lit "<root><child>value</child></root>")).after 2
      = some { input := lit "value</child></root>",
               stk := [StackEntry.start { Space := [], Local := lit "child" },
                       StackEntry.start { Space := [], Local := lit "root" }],
               needClose := false, toClose := { Space := [], Local := [] },
               ns := fun _ => none } ∧
    lit "value" <:+: (TryPrettify (lit "test.xml") (lit "<root><child>value</child></root>")
      { Indent := lit "  ", Encoding := lit "utf-8", IncludeDeclaration := true }).1 ∧
    lit "<child>value</child>" <:+:
      (TryPrettify (lit "test.xml") (lit "<root><child>value</child></root>")
        { Indent := lit "  ", Encoding := lit "utf-8", IncludeDeclaration := true }).1 :=
  ⟨rfl,
    (TryPrettify_chardata (lit "test.xml") (lit "<root><child>value</child></root>")
      { Indent := lit "  ", Encoding := lit "utf-8", IncludeDeclaration := true } _ 2
      { input := lit "value</child></root>",
        stk := [StackEntry.start { Space := [], Local := lit "child" },
                StackEntry.start { Space := [], Local := lit "root" }],
        needClose := false, toClose := { Space := [], Local := [] },
        ns := fun _ => none }
      (lit "value") (lit "</child></root>") (by decide) rfl rfl rfl (by decide) (by decide)
      (by decide)).2.2.2.1 (by decide),
    by decide⟩

/-- C5, counterexample: the character data `it's` of `<a>it's</a>` does not occur in
the output `<a>it&#39;s</a>`. -/
theorem TryPrettify_apostrophe_counterexample :
    TryPrettify (lit "doc.xml") (lit "<a>it's</a>")
        { Indent := lit "  ", Encoding := lit "utf-8", IncludeDeclaration := false }
      = (lit "<a>it&#39;s</a>", true, none) ∧
    Token.CharData (lit "it's") ∈ (tokens 24 (NewDecoder (lit "<a>it's</a>"))).1 ∧
    ¬ lit "it's" <:+: lit "<a>it&#39;s</a>" := by
  decide

end xmlutil
end Ooxmlx
